import Mathlib

/-!
# nyagos: the bridge between the shell and its embedded scripting runtime

A shallow embedding of `mains/lua.go`, `mains/lua_cmd.go` and `lua/ole/ole.go`.

* Go maps are association lists read through `mapGet`; `mapSet` puts the new
  binding in front, so the first binding of a key is the live one.
* A Go `error` is its message; `Except String α` is a `(value, error)` pair and
  `Option String` an error that may be nil.
* The scripting runtime instance `lua.Lua` is `LuaState`: the value stack of the
  running host function (bottom first, indices as in the Lua API), the registry
  and the default streams of the `io` library.  Package `lua`, the binding to
  the scripting engine, is not among the sources: its stack operations follow
  the engine's C API on tables with integer and string keys (`GetTable` goes
  through the `__index` metamethod, the raw operations do not), its marshaling
  functions are modelled from the spec, and what its integer conversion makes
  of a string is a parameter of the runtime instance.
* Every call that leaves the bridge (script invocation, previous hook handler,
  automation provider, process spawning) is recorded in a trace of `Event`s, and
  the collaborator answers as a function of the trace so far and its arguments.
  What a script does to the Go variables of the bridge is outside the model.
* A host function is called by the runtime on a frame that holds exactly its
  arguments; a function that can fault or whose loop is bounded by fuel returns
  an `Option`.
-/

namespace Nyagos

/-! ## Go maps and machine integers -/

/-- Read of a Go map: the value and the `ok` flag as an option. -/
def mapGet {κ α : Type} [DecidableEq κ] : List (κ × α) → κ → Option α
  | [], _ => none
  | (k1, v) :: rest, k => if k1 = k then some v else mapGet rest k

/-- Assignment `m[k] = v` of a Go map. -/
def mapSet {κ α : Type} (m : List (κ × α)) (k : κ) (v : α) : List (κ × α) :=
  (k, v) :: m

/-- Read of a `map[string]int`: a missing key reads as the zero value. -/
def mapGetInt (m : List (String × Int)) (k : String) : Int :=
  (mapGet m k).getD 0

/-- Go `int` arithmetic on a 64-bit target: two's complement wrap-around. -/
def wrapInt (x : Int) : Int :=
  (x + 2 ^ 63) % 2 ^ 64 - 2 ^ 63

/-! ## Command contexts -/

/-- The files a command context or the `io` library can point at. -/
inductive File where
  | Stdin | Stdout | Stderr
  | other (id : Nat)
  deriving DecidableEq, Repr

/-- What the `Tag` of a command context holds. -/
inductive TagValue where
  | lua
  | absent
  | other (id : Nat)
  deriving DecidableEq, Repr

/-- The fields of `shell.Cmd` the bridge reads. -/
structure Cmd where
  Args : List String
  RawArgs : List String
  Stdout : File
  Stdin : File
  Tag : TagValue
  deriving DecidableEq, Repr

/-! ## Values of the scripting runtime -/

/-- Keys of a script table: the dense integer segment and the keyed segment. -/
inductive LKey where
  | int (n : Int)
  | str (s : String)
  deriving DecidableEq, Repr

/-- Values living in the scripting runtime.  `rawbytes` is a script string whose
bytes do not decode to text.  `userdata` is the memory block of a `capsule_t`,
holding its `Data` reference (`none` is the nil reference), with the metatable of
the block.  `lightuserdata` is a pointer to a command context (`none` is the nil
pointer). -/
inductive LValue where
  | nil
  | boolean (b : Bool)
  | integer (n : Int)
  | string (s : String)
  | rawbytes (bytes : List Nat)
  | table (fields : List (LKey × LValue)) (meta : Option (List (LKey × LValue)))
  | function (chunk : List Nat)
  | gofunction (name : String)
  | userdata (data : Option Nat) (meta : Option (List (LKey × LValue)))
  | lightuserdata (ptr : Option Cmd)
  deriving Repr

/-- Host-native values, the `lua.Object` implementations used by the bridge. -/
inductive Object where
  | TNil
  | TBool (b : Bool)
  | Integer (n : Int)
  | TString (s : String)
  | TRawString (s : String)
  | TTable (Dict : List (String × Object)) (Array : List (Int × Object))
  | MetaTableOwner (Body : Object) (Meta : Object)
  | TFunction (chunk : List Nat)
  | TGoFunction (name : String)
  | TUserData (data : Option Nat)
  | TLightUserData (ptr : Option Cmd)
  deriving Repr

/-- The type tags of the Lua API. -/
inductive LType where
  | LUA_TNIL | LUA_TBOOLEAN | LUA_TLIGHTUSERDATA | LUA_TNUMBER | LUA_TSTRING
  | LUA_TTABLE | LUA_TFUNCTION | LUA_TUSERDATA
  deriving DecidableEq, Repr

def LValue.GetType : LValue → LType
  | .nil => .LUA_TNIL
  | .boolean _ => .LUA_TBOOLEAN
  | .integer _ => .LUA_TNUMBER
  | .string _ => .LUA_TSTRING
  | .rawbytes _ => .LUA_TSTRING
  | .table _ _ => .LUA_TTABLE
  | .function _ => .LUA_TFUNCTION
  | .gofunction _ => .LUA_TFUNCTION
  | .userdata _ _ => .LUA_TUSERDATA
  | .lightuserdata _ => .LUA_TLIGHTUSERDATA

def LValue.IsTable (v : LValue) : Bool := v.GetType = .LUA_TTABLE

def LValue.IsFunction (v : LValue) : Bool := v.GetType = .LUA_TFUNCTION

def LValue.IsNil (v : LValue) : Bool := v.GetType = .LUA_TNIL

/-- Modelled from the spec: `lua.Lua.ToString` is not among the sources.  Strings
decode to text, malformed bytes fail with DecodeError, numbers are rendered in
decimal (the runtime converts them), every other value gives the empty string
without an error. -/
def LValue.ToString : LValue → Except String String
  | .string s => .ok s
  | .integer n => .ok (toString n)
  | .rawbytes _ => .error "DecodeError"
  | _ => .ok ""

/-- Modelled from the spec: `lua.Lua.ToInteger` is not among the sources.
Integers convert (they marshal as 64-bit integers).  What the conversion makes
of a string is decided by the binding and the engine behind it, so it is the
parameter `strtoint`: the integer the string is taken for, if any.  Every other
value is an error. -/
def LValue.ToInteger (strtoint : String → Option Int) : LValue → Except String Int
  | .integer n => .ok n
  | .string s =>
    match strtoint s with
    | some n => .ok n
    | none => .error "ToInteger: not a number"
  | _ => .error "ToInteger: not a number"

def LValue.ToBool : LValue → Bool
  | .nil => false
  | .boolean b => b
  | _ => true

/-- Raw read of a table field; an absent key reads as nil. -/
def fieldGet (fs : List (LKey × LValue)) (k : LKey) : LValue :=
  (mapGet fs k).getD .nil

/-- The key a stack value denotes in a modelled table (integers and strings). -/
def LValue.toKey : LValue → Option LKey
  | .integer n => some (.int n)
  | .string s => some (.str s)
  | _ => none

/-! ## Marshaling between script values and host values -/

mutual
/-- Modelled from the spec: `lua.Lua.ToObject` (the Value Marshaler's `toHost`)
is not among the sources.  It is total except for the decode of a malformed
string, which fails with DecodeError; a table converts member by member into
the shapes `setMemberOfShareTable` takes apart: a `TTable` (string keys in
`Dict`, integer keys in `Array`), wrapped in a `MetaTableOwner` when it carries
a metatable. -/
def toObject : LValue → Except String Object
  | .nil => .ok .TNil
  | .boolean b => .ok (.TBool b)
  | .integer n => .ok (.Integer n)
  | .string s => .ok (.TString s)
  | .rawbytes _ => .error "DecodeError"
  | .table fs none =>
    match toFields fs with
    | .ok (d, a) => .ok (.TTable d a)
    | .error e => .error e
  | .table fs (some m) =>
    match toFields fs, toFields m with
    | .ok (d, a), .ok (md, ma) => .ok (.MetaTableOwner (.TTable d a) (.TTable md ma))
    | .error e, _ => .error e
    | _, .error e => .error e
  | .function c => .ok (.TFunction c)
  | .gofunction n => .ok (.TGoFunction n)
  | .userdata d _ => .ok (.TUserData d)
  | .lightuserdata p => .ok (.TLightUserData p)
/-- The members of a table, split into the keyed and the integer segment. -/
def toFields : List (LKey × LValue) →
    Except String (List (String × Object) × List (Int × Object))
  | [] => .ok ([], [])
  | (k, v) :: rest =>
    match toObject v, toFields rest with
    | .ok o, .ok (d, a) =>
      match k with
      | .str s => .ok ((s, o) :: d, a)
      | .int n => .ok (d, (n, o) :: a)
    | .error e, _ => .error e
    | _, .error e => .error e
end

mutual
/-- Modelled from the spec: `Object.Push` (the Value Marshaler's `toScript`) is
not among the sources.  A `TTable` becomes a fresh script table, a
`MetaTableOwner` its body with the metatable installed. -/
def pushObject : Object → LValue
  | .TNil => .nil
  | .TBool b => .boolean b
  | .Integer n => .integer n
  | .TString s => .string s
  | .TRawString s => .string s
  | .TTable d a => .table (pushDict d ++ pushArray a) none
  | .MetaTableOwner body m =>
    match pushObject body, pushObject m with
    | .table fs _, .table ms _ => .table fs (some ms)
    | v, _ => v
  | .TFunction c => .function c
  | .TGoFunction n => .gofunction n
  | .TUserData d => .userdata d none
  | .TLightUserData p => .lightuserdata p
def pushDict : List (String × Object) → List (LKey × LValue)
  | [] => []
  | (s, o) :: rest => (.str s, pushObject o) :: pushDict rest
def pushArray : List (Int × Object) → List (LKey × LValue)
  | [] => []
  | (n, o) :: rest => (.int n, pushObject o) :: pushArray rest
end

/-! ## The runtime instance and its stack -/

/-- One scripting-runtime instance (`lua.Lua`).  `strtoint` is the engine's
conversion of a string to an integer, the parameter of `ToInteger`. -/
structure LuaState where
  stack : List LValue
  registry : List (String × LValue)
  ioOutput : File
  ioInput : File
  strtoint : String → Option Int

/-- The zero-based position, from the bottom, of an acceptable stack index:
positive indices count from the bottom, negative ones from the top. -/
def LuaState.pos (L : LuaState) (i : Int) : Option Nat :=
  if 0 < i then
    (if i.toNat ≤ L.stack.length then some (i.toNat - 1) else none)
  else if i < 0 then
    (if (-i).toNat ≤ L.stack.length then some (L.stack.length - (-i).toNat) else none)
  else none

/-- The value at a stack index; an index outside the stack reads as nil. -/
def LuaState.index (L : LuaState) (i : Int) : LValue :=
  match L.pos i with
  | some p => L.stack[p]?.getD .nil
  | none => .nil

/-- Replace the value at a stack index (in-place update of a table). -/
def LuaState.modify (L : LuaState) (i : Int) (f : LValue → LValue) : LuaState :=
  match L.pos i with
  | some p => { L with stack := L.stack.set p (f (L.index i)) }
  | none => L

def LuaState.GetTop (L : LuaState) : Nat := L.stack.length

def LuaState.pushValue (L : LuaState) (v : LValue) : LuaState :=
  { L with stack := L.stack ++ [v] }

def LuaState.Pop (L : LuaState) (n : Nat) : LuaState :=
  { L with stack := L.stack.take (L.stack.length - n) }

def LuaState.PushNil (L : LuaState) : LuaState := L.pushValue .nil

def LuaState.PushString (L : LuaState) (s : String) : LuaState := L.pushValue (.string s)

def LuaState.PushInteger (L : LuaState) (n : Int) : LuaState := L.pushValue (.integer n)

def LuaState.PushGoFunction (L : LuaState) (name : String) : LuaState :=
  L.pushValue (.gofunction name)

def LuaState.NewTable (L : LuaState) : LuaState := L.pushValue (.table [] none)

def LuaState.ToString (L : LuaState) (i : Int) : Except String String := (L.index i).ToString

def LuaState.ToInteger (L : LuaState) (i : Int) : Except String Int :=
  (L.index i).ToInteger L.strtoint

def LuaState.ToObject (L : LuaState) (i : Int) : Except String Object := toObject (L.index i)

def LuaState.GetType (L : LuaState) (i : Int) : LType := (L.index i).GetType

def LuaState.IsTable (L : LuaState) (i : Int) : Bool := (L.index i).IsTable

def LuaState.IsFunction (L : LuaState) (i : Int) : Bool := (L.index i).IsFunction

def LuaState.IsNil (L : LuaState) (i : Int) : Bool := (L.index i).IsNil

def LuaState.ToBool (L : LuaState) (i : Int) : Bool := (L.index i).ToBool

/-- Store `v` under `k` in a table value; other values are left alone. -/
def LValue.setField (t : LValue) (k : LKey) (v : LValue) : LValue :=
  match t with
  | .table fs m => .table (mapSet fs k v) m
  | other => other

/-- Read of a field of a table value; other values read as nil. -/
def LValue.getField (t : LValue) (k : LKey) : LValue :=
  match t with
  | .table fs _ => fieldGet fs k
  | _ => .nil

/-- The operation `t[name] = top` on the table at index `i`; pops the value. -/
def LuaState.SetField (L : LuaState) (i : Int) (name : String) : LuaState :=
  let v := L.index (-1)
  (L.modify i (fun t => t.setField (.str name) v)).Pop 1

/-- The operation `t[n] = top` on the table at index `i`; pops the value. -/
def LuaState.RawSetI (L : LuaState) (i : Int) (n : Int) : LuaState :=
  let v := L.index (-1)
  (L.modify i (fun t => t.setField (.int n) v)).Pop 1

/-- The operation `t[key] = value` with the key at -2 and the value at -1; pops
both.  A key that is neither an integer nor a string has no place in a modelled
table and the table is left as it is. -/
def LuaState.RawSet (L : LuaState) (i : Int) : LuaState :=
  let k := L.index (-2)
  let v := L.index (-1)
  match k.toKey with
  | some key => (L.modify i (fun t => t.setField key v)).Pop 2
  | none => L.Pop 2

/-- Pushes `t[name]` for the table at index `i`.  The bridge reads fields of a
metatable and of the registry this way, tables that carry no metatable of their
own, where the read is the raw one. -/
def LuaState.GetField (L : LuaState) (i : Int) (name : String) : LuaState :=
  L.pushValue ((L.index i).getField (.str name))

/-- Pushes the metatable of the value at index `i`, when it has one. -/
def LuaState.GetMetaTable (L : LuaState) (i : Int) : LuaState :=
  match L.index i with
  | .table _ (some m) => L.pushValue (.table m none)
  | .userdata _ (some m) => L.pushValue (.table m none)
  | _ => L

/-- Pops a table and installs it as the metatable of the value at index `i`. -/
def LuaState.SetMetaTable (L : LuaState) (i : Int) : LuaState :=
  let m := L.index (-1)
  (L.modify i (fun t =>
    match t, m with
    | .table fs _, .table ms _ => .table fs (some ms)
    | .table fs _, .nil => .table fs none
    | .userdata d _, .table ms _ => .userdata d (some ms)
    | .userdata d _, .nil => .userdata d none
    | other, _ => other)).Pop 1

/-- The Go values handed to the variadic `L.Push`. -/
inductive GoValue where
  | nil
  | error (msg : String)
  | bool (b : Bool)
  | string (s : String)
  | int (n : Int)
  | object (o : Object)
  | gofunction (name : String)
  deriving Repr

def GoValue.toLua : GoValue → LValue
  | .nil => .nil
  | .error msg => .string msg
  | .bool b => .boolean b
  | .string s => .string s
  | .int n => .integer n
  | .object o => pushObject o
  | .gofunction n => .gofunction n

/-- The variadic `L.Push(values...)`: pushes each value and returns how many. -/
def LuaState.Push (L : LuaState) (vals : List GoValue) : LuaState × Nat :=
  ({ L with stack := L.stack ++ vals.map GoValue.toLua }, vals.length)

/-! ## The process-wide variables -/

/-- The variables of package `mains` shared by every runtime instance. -/
structure Globals where
  share_table : List (String × Object)
  share_table_generation : List (String × Int)
  luaArgsFilter : Object
  luaOnCommandNotFound : Object
  stderr : List String

/-- The name `reflect.TypeOf` prints, spelled after the constructor. -/
def Object.typeName : Object → String
  | .TNil => "lua.TNil"
  | .TBool _ => "lua.TBool"
  | .Integer _ => "lua.Integer"
  | .TString _ => "lua.TString"
  | .TRawString _ => "lua.TRawString"
  | .TTable _ _ => "*lua.TTable"
  | .MetaTableOwner _ _ => "*lua.MetaTableOwner"
  | .TFunction _ => "lua.TFunction"
  | .TGoFunction _ => "lua.TGoFunction"
  | .TUserData _ => "lua.TUserData"
  | .TLightUserData _ => "lua.TLightUserData"

/-! ## The shared state table (`mains/lua.go`) -/

/-- The type switch on the member key at the end of `setMemberOfShareTable`:
the maps of the canonical table after the assignment, or `none` when no case
applies and nothing is assigned. -/
def assignMember (key val : Object) (Dict : List (String × Object))
    (Array : List (Int × Object)) :
    Option (List (String × Object) × List (Int × Object)) :=
  match key with
  | .TString t => some (mapSet Dict t val, Array)
  | .TRawString t => some (mapSet Dict t val, Array)
  | .Integer t => some (Dict, mapSet Array t val)
  | _ => none

/-- The `__newindex` handler of a view.  The canonical table is reached through
pointers in the source, so the assignment to its maps is written back into
`share_table[parentkey]` here. -/
def setMemberOfShareTable (g : Globals) (L : LuaState) : Globals × LuaState × Nat :=
  -- table exists at [-3]
  match L.ToObject (-2) with
  | .error err => (g, L.Push [.nil, .error err])
  | .ok key =>
  match L.ToObject (-1) with
  | .error err => (g, L.Push [.nil, .error err])
  | .ok val =>
  let L := L.RawSet (-3) -- pop 2
  let L := L.GetMetaTable (-1)
  let L := L.GetField (-1) ".."
  match L.ToString (-1) with
  | .error err => ({ g with stderr := g.stderr ++ [err] }, L.Push [.nil, .error err])
  | .ok parentkey =>
  let L := L.Pop 1 -- drop string
  let L := L.GetField (-1) "age"
  let age := L.ToInteger (-1)
  let L := L.Pop 2 -- drop integer and metatable
  let old :=
    match age with
    | .error _ => true
    | .ok a => decide (a ≠ mapGetInt g.share_table_generation parentkey)
  if old then
    (g, L, 0)
  else
    match mapGet g.share_table parentkey with
    | none =>
      let err := parentkey ++ ": not found in share_table()"
      ({ g with stderr := g.stderr ++ [err] }, L.Push [.nil, .string err])
    | some table1 =>
      let body := match table1 with
        | .MetaTableOwner b _ => b
        | t => t
      match body with
      | .TTable Dict Array =>
        match assignMember key val Dict Array with
        | some (d, a) =>
          let stored := match table1 with
            | .MetaTableOwner _ m => Object.MetaTableOwner (.TTable d a) m
            | _ => Object.TTable d a
          ({ g with share_table := mapSet g.share_table parentkey stored }, L, 0)
        | none => (g, L, 0)
      | other =>
        let err := parentkey ++ ": not table in share_table()"
        ({ g with stderr := g.stderr ++ [other.typeName, err] }, L.Push [.nil, .string err])

/-- The `__index` handler of `share`: pushes a copy of the entry and, when it is
a table, gives the copy a metatable recording the key and the live generation. -/
def getShareTable (g : Globals) (L : LuaState) : Globals × LuaState × Nat :=
  match L.ToString (-1) with
  | .error keyErr => (g, L.Push [.nil, .error keyErr])
  | .ok key =>
    match mapGet g.share_table key with
    | some value =>
      let L := (L.Push [.object value]).1
      if L.IsTable (-1) then
        let L := L.NewTable
        let L := L.PushGoFunction "setMemberOfShareTable"
        let L := L.SetField (-2) "__newindex"
        let L := L.PushString key
        let L := L.SetField (-2) ".."
        let L := L.PushInteger (mapGetInt g.share_table_generation key)
        let L := L.SetField (-2) "age"
        let L := L.SetMetaTable (-2)
        (g, L, 1)
      else
        (g, L, 1)
    | none => (g, L.PushNil, 1)

/-- The `__newindex` handler of `share`: installs the entry and bumps its
generation. -/
def setShareTable (g : Globals) (L : LuaState) : Globals × LuaState × Nat :=
  match L.ToString (-2) with
  | .error keyErr => (g, L.Push [.nil, .error keyErr])
  | .ok key =>
    match L.ToObject (-1) with
    | .error valErr =>
      ({ g with stderr := g.stderr ++ [key ++ ": " ++ valErr] }, L.Push [.nil, .error valErr])
    | .ok value =>
      ({ g with
          share_table := mapSet g.share_table key value
          share_table_generation :=
            mapSet g.share_table_generation key
              (wrapInt (mapGetInt g.share_table_generation key + 1)) }, L, 1)

/-- The metatable `getShareTable` gives a view of `key` at generation `age`. -/
def viewMeta (key : String) (age : Int) : List (LKey × LValue) :=
  [(.str "age", .integer age), (.str "..", .string key),
    (.str "__newindex", .gofunction "setMemberOfShareTable")]

/-- The member of a canonical table stored under a converted member key. -/
def Object.member (t key : Object) : Option Object :=
  match t with
  | .TTable d a =>
    match key with
    | .TString s => mapGet d s
    | .TRawString s => mapGet d s
    | .Integer n => mapGet a n
    | _ => none
  | .MetaTableOwner (.TTable d a) _ =>
    match key with
    | .TString s => mapGet d s
    | .TRawString s => mapGet d s
    | .Integer n => mapGet a n
    | _ => none
  | _ => none

/-- The script expression `share[k]`: the runtime calls `getShareTable` on the
frame `[share, k]` and the expression has the value left on top. -/
def viewOf (g : Globals) (L : LuaState) (self : LValue) (k : String) : LValue :=
  (getShareTable g { L with stack := [self, .string k] }).2.1.index (-1)

/-- The script statement `share[k] = V`: the runtime calls `setShareTable` on
the frame `[share, k, V]`. -/
def publish (g : Globals) (L : LuaState) (self : LValue) (k : String) (V : LValue) : Globals :=
  (setShareTable g { L with stack := [self, .string k, V] }).1

/-- The member of a value read without any metamethod, nil when there is none:
the field of a table under an integer or string key. -/
def LValue.rawget (t k : LValue) : LValue :=
  match k.toKey with
  | some key => t.getField key
  | none => .nil

/-- The member of a value stored without any metamethod. -/
def LValue.rawset (t k v : LValue) : LValue :=
  match k.toKey with
  | some key => t.setField key v
  | none => t

/-- The script statement `view[m] = v` on a view handed out by `getShareTable`.
The metatable of a view holds `__newindex` and no `__index`, and the view is a
full copy of the entry: when the view holds a member `m`, the runtime stores `v`
into the view itself and runs no handler; when it holds none, the runtime calls
the `__newindex` handler on the frame `[view, m, v]`. -/
def writeMember (g : Globals) (L : LuaState) (view m v : LValue) : Globals × LuaState × Nat :=
  if (view.rawget m).IsNil then
    setMemberOfShareTable g { L with stack := [view, m, v] }
  else
    (g, { L with stack := [view.rawset m v] }, 0)

/-- A runtime instance with an empty stack, for the worked examples; it takes no
string for an integer. -/
def exLua : LuaState := ⟨[], [], .Stdout, .Stdin, fun _ => none⟩

/-- The process-wide variables at start-up. -/
def exGlobals : Globals := ⟨[], [], .TNil, .TNil, []⟩

/-- The script object `share` handed to the handlers as their first argument. -/
def exShare : LValue := .table [] none

/-- Worked example: `share.k = {}` has been executed once. -/
def exPublished : Globals := publish exGlobals exLua exShare "k" (.table [] none)

/-- Worked example: `share.k = {b = 1}` has been executed once. -/
def exPublishedB : Globals :=
  publish exGlobals exLua exShare "k" (.table [(.str "b", .integer 1)] none)

/-- Worked example: the view `share.k` taken after the first publish. -/
def exView : LValue := viewOf exPublished exLua exShare "k"

/-- Worked example: `share.k = 5` executed after the view was taken. -/
def exRepublished : Globals := publish exPublished exLua exShare "k" (.integer 5)

/-! ## Collaborators outside the bridge -/

/-- Host values produced by `lua2interface`, the Go `interface` values handed to
the automation provider.  `dispatch` is a `*ole.IDispatch`, `none` the nil
reference. -/
inductive Iface where
  | nil
  | string (s : String)
  | int (n : Int)
  | dispatch (d : Option Nat)
  | bool (b : Bool)
  deriving DecidableEq, Repr

/-- The `*ole.VARIANT` a provider operation answers with: an object reference
(`VT == ole.VT_DISPATCH`) or a plain value. -/
inductive Variant where
  | VT_DISPATCH (d : Option Nat)
  | value (v : GoValue)
  deriving Repr

/-- One call that leaves the bridge. -/
inductive Event where
  | Release (d : Nat)
  | CallMethod (disp : Option Nat) (name : String) (params : List Iface)
  | GetProperty (disp : Option Nat) (name : String) (params : List Iface)
  | PutProperty (disp : Option Nat) (name : String) (params : List Iface)
  | script (f : LValue) (args : List LValue)
  | orgArgHook (it : Cmd) (args : List String)
  | orgOnCommandNotFound (inte : Cmd) (err : Option String)
  | Clone (cmd : Cmd)
  | SpawnvpContext (it : Cmd)
  | InterpretContext (it : Cmd) (text : String)
  deriving Repr

/-- The collaborators of package `ole`.  The automation provider (`oleutil`):
each operation answers from the calls made so far, the reference, the member
name and the arguments.  `foreign` is the memory behind a pointer that is no
capsule block: the reference found where a command context lies, which the
unchecked cast `(*capsule_t)(L.ToUserData(i))` reads as the `Data` field. -/
structure Provider where
  CallMethod : List Event → Option Nat → String → List Iface → Except String Variant
  GetProperty : List Event → Option Nat → String → List Iface → Except String Variant
  PutProperty : List Event → Option Nat → String → List Iface → Except String Variant
  foreign : Cmd → Option Nat

/-- The collaborators of package `mains`: script execution (`pcall` gets the
runtime below the called function, the function and its arguments, and answers
with the runtime after the call and the results or the error message), the
handlers saved when the hooks were installed, and the shell engine.  Each one
answers from the calls made so far and its arguments. -/
structure Host where
  pcall : List Event → LuaState → LValue → List LValue → LuaState × Except String (List LValue)
  orgArgHook : List Event → Cmd → List String → List String × Option String
  orgOnCommandNotFound : List Event → Cmd → Option String → Option String
  Clone : List Event → Cmd → Except String Cmd
  SpawnvpContext : List Event → Cmd → Int × Option String
  InterpretContext : List Event → Cmd → String → Int × Option String
  PushFileWriter : List Event → File → Option String
  PushFileReader : List Event → File → Option String
  LoadBufferX : List Event → String → List Nat → Option String

/-! ## External-object handles (`lua/ole/ole.go`) -/

namespace ole

structure capsule_t where
  Data : Option Nat
  deriving DecidableEq, Repr

/-- The capsule behind a stack value, `(*capsule_t)(L.ToUserData(i))`.
`L.ToUserData` gives the block of a full userdata, the pointer a light userdata
carries (`getRegInt` reads the context slot this way) and the nil pointer,
`none`, for every other value.  The cast is unchecked, so the pointer of a light
userdata is read as a capsule whose `Data` is what `P.foreign` finds there. -/
def ToUserData (P : Provider) (v : LValue) : Option capsule_t :=
  match v with
  | .userdata d _ => some ⟨d⟩
  | .lightuserdata (some cmd) => some ⟨P.foreign cmd⟩
  | _ => none

def capsule_t.Push (this : capsule_t) (L : LuaState) : LuaState × Nat :=
  let L := L.pushValue (.userdata this.Data none)
  let L := L.NewTable
  let L := L.PushGoFunction "gc"
  let L := L.SetField (-2) "__gc"
  let L := L.PushGoFunction "index"
  let L := L.SetField (-2) "__index"
  let L := L.SetMetaTable (-2)
  (L, 1)

/-- The finalizer of a capsule, run by the collector on a capsule block.
`none` is a frame whose first value is no capsule block: the dereference of the
nil pointer, or a write through a foreign pointer, which is outside the model. -/
def gc (tr : List Event) (L : LuaState) : Option (List Event × LuaState × Nat) :=
  match L.index 1 with
  | .userdata Data meta =>
    match Data with
    | some d => some (tr ++ [.Release d], L.modify 1 (fun _ => .userdata none meta), 0)
    | none => some (tr, L, 0)
  | _ => none

def lua2interface (P : Provider) (L : LuaState) (index : Int) : Except String Iface :=
  match L.GetType index with
  | .LUA_TSTRING =>
    match L.ToString index with
    | .ok str => .ok (.string str)
    | .error str_err => .error str_err
  | .LUA_TNUMBER =>
    match L.ToInteger index with
    | .ok num => .ok (.int num)
    | .error num_err => .error num_err
  | .LUA_TUSERDATA =>
    match ToUserData P (L.index index) with
    | some val => .ok (.dispatch val.Data)
    | none => .ok .nil
  | .LUA_TBOOLEAN => .ok (.bool (L.ToBool index))
  | _ => .ok .nil

/-- The loop of `lua2interfaceS`: `n` indices starting at `i`. -/
def lua2interfaceLoop (P : Provider) (L : LuaState) : Nat → Nat → Except String (List Iface)
  | _, 0 => .ok []
  | i, n + 1 =>
    match lua2interface P L i with
    | .error val_err => .error val_err
    | .ok val =>
      match lua2interfaceLoop P L (i + 1) n with
      | .error e => .error e
      | .ok rest => .ok (val :: rest)

/-- The values of the indices `start` to `stop`.  `none` is the fault of
`make([]interface{}, 0, end-start+1)` on a negative capacity, which a frame
that stops more than one short of `start` gives. -/
def lua2interfaceS (P : Provider) (L : LuaState) (start stop : Nat) :
    Option (Except String (List Iface)) :=
  if stop + 1 < start then none
  else some (lua2interfaceLoop P L start (stop + 1 - start))

/-- What the verbs push for a provider answer. -/
def pushResult (L : LuaState) (result : Variant) : LuaState × Nat :=
  match result with
  | .VT_DISPATCH d => capsule_t.Push ⟨d⟩ L
  | .value v => L.Push [v]

/-- The verb `_call`.  `none` is the fault of `lua2interfaceS`. -/
def call (P : Provider) (tr : List Event) (L : LuaState) :
    Option (List Event × LuaState × Nat) :=
  match ToUserData P (L.index 1) with
  | none => some (tr, L.Push [.nil, .string "OLEOBJECT._call: the receiver is null"])
  | some p =>
    let count := L.GetTop
    match L.ToString 2 with
    | .error name_err => some (tr, L.Push [.nil, .error name_err])
    | .ok name =>
      match lua2interfaceS P L 3 count with
      | none => none
      | some (.error params_err) => some (tr, L.Push [.nil, .error params_err])
      | some (.ok params) =>
        match P.CallMethod tr p.Data name params with
        | .error result_err =>
          some (tr ++ [.CallMethod p.Data name params], L.Push [.nil, .error result_err])
        | .ok result => some (tr ++ [.CallMethod p.Data name params], pushResult L result)

/-- The verb `_set`.  `none` is the fault of `lua2interfaceS`. -/
def set (P : Provider) (tr : List Event) (L : LuaState) :
    Option (List Event × LuaState × Nat) :=
  match ToUserData P (L.index 1) with
  | none => some (tr, L.Push [.nil, .string "OLEOBJECT._set: the receiver is null"])
  | some p =>
    match L.ToString 2 with
    | .error name_err => some (tr, L.Push [.nil, .error name_err])
    | .ok name =>
      match lua2interfaceS P L 3 L.GetTop with
      | none => none
      | some (.error key_err) => some (tr, L.Push [.nil, .error key_err])
      | some (.ok key) =>
        let _ := P.PutProperty tr p.Data name key
        some (tr ++ [.PutProperty p.Data name key], L.Push [.bool true, .nil])

/-- The verb `_get`.  `none` is the fault of `lua2interfaceS`. -/
def get (P : Provider) (tr : List Event) (L : LuaState) :
    Option (List Event × LuaState × Nat) :=
  match ToUserData P (L.index 1) with
  | none => some (tr, L.Push [.nil, .string "OLEOBJECT._set: the receiver is null"])
  | some p =>
    match L.ToString 2 with
    | .error name_err => some (tr, L.Push [.nil, .error name_err])
    | .ok name =>
      match lua2interfaceS P L 3 L.GetTop with
      | none => none
      | some (.error key_err) => some (tr, L.Push [.nil, .error key_err])
      | some (.ok key) =>
        match P.GetProperty tr p.Data name key with
        | .error result_err =>
          some (tr ++ [.GetProperty p.Data name key], L.Push [.nil, .error result_err])
        | .ok result => some (tr ++ [.GetProperty p.Data name key], pushResult L result)

def index (L : LuaState) : LuaState × Nat :=
  match L.ToString 2 with
  | .error name_err => L.Push [.nil, .error name_err]
  | .ok name =>
    if name = "_call" then L.Push [.gofunction "call", .nil]
    else if name = "_set" then L.Push [.gofunction "set", .nil]
    else if name = "_get" then L.Push [.gofunction "get", .nil]
    else (L, 0)

/-- A provider that refuses every operation, for the worked examples; behind a
pointer to a command context it finds the reference 0. -/
def exRefusing : Provider :=
  ⟨fun _ _ _ _ => .error "E_FAIL", fun _ _ _ _ => .error "E_FAIL",
    fun _ _ _ _ => .error "E_FAIL", fun _ => some 0⟩

/-- Worked example: a live capsule holding the object reference 7. -/
def exCapsule : LValue := .userdata (some 7) none

/-- Worked example: the same capsule after its finalizer has run. -/
def exReleased : LValue := .userdata none none

end ole

/-! ## Script calls and the registry context slot (`mains/lua.go`) -/

/-- The results of a call adjusted to the requested count. -/
def adjustResults (results : List LValue) (nresult : Nat) : List LValue :=
  (results ++ List.replicate nresult LValue.nil).take nresult

/-- The protected call `L.Call(nargs, nresult)`: the function and its arguments
are popped; on success the adjusted results are pushed and the error is nil; on
failure the message is pushed and returned.  The script can change the
runtime but not the stack below the function. -/
def LuaState.Call (H : Host) (tr : List Event) (L : LuaState) (nargs nresult : Nat) :
    List Event × LuaState × Option String :=
  let f := L.index (-((nargs : Int) + 1))
  let args := L.stack.drop (L.stack.length - nargs)
  let base := L.Pop (nargs + 1)
  match H.pcall tr base f args with
  | (L1, .ok results) =>
    (tr ++ [.script f args],
      { L1 with stack := base.stack ++ adjustResults results nresult }, none)
  | (L1, .error msg) =>
    (tr ++ [.script f args], { L1 with stack := base.stack ++ [.string msg] }, some msg)

def REGKEY_INTERPRETER : String := "nyagos.interpreter"

/-- The registry is reached through a pseudo-index in the source; the net
effect of the four stack operations is the store into the registry slot. -/
def setRegInt (L : LuaState) (it : Option Cmd) : LuaState :=
  { L with registry := mapSet L.registry REGKEY_INTERPRETER (.lightuserdata it) }

/-- The context the registry slot points at; nil when the slot holds no
pointer. -/
def getRegInt (L : LuaState) : Option Cmd :=
  match mapGet L.registry REGKEY_INTERPRETER with
  | some (.lightuserdata rc) => rc
  | _ => none

def NyagosCallLua (H : Host) (tr : List Event) (L : LuaState) (it : Cmd) (nargs nresult : Nat) :
    List Event × LuaState × Option String :=
  let save := getRegInt L
  let L := setRegInt L (some it)
  match L.Call H tr nargs nresult with
  | (tr, L, err) =>
    let L := setRegInt L save
    (tr, L, err)

/-! ## Table reads through the `__index` metamethod -/

/-- The handler a value carries under `__index` in its metatable; nil when it
has no metatable or the metatable has no such entry. -/
def LValue.metaIndex : LValue → LValue
  | .table _ (some m) => fieldGet m (.str "__index")
  | .userdata _ (some m) => fieldGet m (.str "__index")
  | _ => .nil

/-- The call of an `__index` handler that is a function, with the indexed value
and the key; its first result is the member.  The call is made by the engine,
outside any protected call of the bridge: an error the handler raises is a
fault, `none`. -/
def callIndex (H : Host) (tr : List Event) (L : LuaState) (h t k : LValue) :
    Option (List Event × LuaState × LValue) :=
  match H.pcall tr L h [t, k] with
  | (L1, .ok results) =>
    some (tr ++ [.script h [t, k]], { L1 with stack := L.stack }, results.headD .nil)
  | (_, .error _) => none

/-- The longest chain of `__index` handlers the engine follows in one read. -/
def MAXTAGLOOP : Nat := 2000

/-- The read of a member a value does not hold, when no `__index` handler is
there to ask: a table answers nil, and so does a string under a key that is no
string (the string library has members under string keys only, which are outside
the model); every other value cannot be indexed. -/
def indexNoHandler (tr : List Event) (L : LuaState) (t k : LValue) :
    Option (List Event × LuaState × LValue) :=
  match t, k with
  | .table _ _, _ => some (tr, L, .nil)
  | .string _, .string _ => none
  | .string _, _ => some (tr, L, .nil)
  | .rawbytes _, .string _ => none
  | .rawbytes _, _ => some (tr, L, .nil)
  | _, _ => none

/-- Modelled from the spec: package `lua` is not among the sources, and the spec
takes the scripting engine as a black box; this is the engine's read `t[k]` as
its reference manual gives it.  A member the table holds is the answer.
Otherwise the `__index` entry of the metatable decides: without one a table
answers nil; a function is called with the value and the key; any other handler
is read in turn under the same key.  `loop` bounds the chain of handlers.
`none` is an error raised by the engine, which the bridge does not catch: a
value that cannot be indexed, a chain longer than the bound, or an error raised
by a handler. -/
def gettable (H : Host) : Nat → List Event → LuaState → LValue → LValue →
    Option (List Event × LuaState × LValue)
  | 0, _, _, _, _ => none
  | loop + 1, tr, L, t, k =>
    if (t.rawget k).IsNil then
      if t.metaIndex.IsNil then
        indexNoHandler tr L t k
      else if t.metaIndex.IsFunction then
        callIndex H tr L t.metaIndex t k
      else
        gettable H loop tr L t.metaIndex k
    else
      some (tr, L, t.rawget k)

/-- Replaces the key on top of the stack by `t[key]` for the value at index
`i`, read with `gettable`; a handler runs on the stack below the key. -/
def LuaState.GetTable (H : Host) (tr : List Event) (L : LuaState) (i : Int) :
    Option (List Event × LuaState) :=
  match gettable H MAXTAGLOOP tr (L.Pop 1) (L.index i) (L.index (-1)) with
  | none => none
  | some (tr, L1, v) => some (tr, L1.pushValue v)

/-! ## The hook adapters (`mains/lua.go`) -/

/-- The loop storing an argument vector into the table on top of the stack,
the element of position `i` under the integer key `i`. -/
def pushArgs (L : LuaState) : List String → Int → LuaState
  | [], _ => L
  | arg1 :: rest, i => pushArgs ((L.PushString arg1).RawSetI (-2) i) rest (i + 1)

/-- The fields of a table value. -/
def LValue.fields : LValue → List (LKey × LValue)
  | .table fs _ => fs
  | _ => []

/-- The loop of `newArgHook` reading the returned table from key `i` on, until
the first key that reads as nil.  The source loop has no other exit; `none`
when the fuel runs out or a read faults. -/
def newArgsLoop (H : Host) :
    Nat → Globals → List Event → LuaState → Int → List String →
      Option (Globals × List Event × LuaState × List String)
  | 0, _, _, _, _, _ => none
  | fuel + 1, g, tr, L, i, newargs =>
    let L := L.PushInteger i
    match L.GetTable H tr (-2) with
    | none => none
    | some (tr, L) =>
      if L.GetType (-1) = .LUA_TNIL then
        some (g, tr, L, newargs)
      else
        match L.ToString (-1) with
        | .ok arg1 => newArgsLoop H fuel g tr (L.Pop 1) (i + 1) (newargs ++ [arg1])
        | .error arg1err =>
          newArgsLoop H fuel { g with stderr := g.stderr ++ [arg1err] } tr (L.Pop 1) (i + 1)
            newargs

/-- The adapter of the argument filter.  `L` is the runtime held by `it.Tag`.
The result is the pair `([]string, error)`; `fuel` bounds the rounds of the
read loop, and `none` is a run that does not return within it. -/
def newArgHook (H : Host) (g : Globals) (tr : List Event) (L : LuaState) (it : Cmd)
    (args : List String) (fuel : Nat) :
    Option (Globals × List Event × LuaState × (List String × Option String)) :=
  if it.Tag ≠ .lua then
    some (g, tr, L, ([], some "Could not get lua instance(newArgHook)"))
  else
    let L := (L.Push [.object g.luaArgsFilter]).1
    if !L.IsFunction (-1) then
      let L := L.Pop 1
      some (g, tr ++ [.orgArgHook it args], L, H.orgArgHook tr it args)
    else
      let L := L.NewTable
      let L := pushArgs L args 0
      match L.Call H tr 1 1 with
      | (tr, L, some err) =>
        some ({ g with stderr := g.stderr ++ [err] }, tr ++ [.orgArgHook it args], L,
          H.orgArgHook tr it args)
      | (tr, L, none) =>
        if L.GetType (-1) ≠ .LUA_TTABLE then
          some (g, tr ++ [.orgArgHook it args], L, H.orgArgHook tr it args)
        else
          match newArgsLoop H fuel g tr L 0 [] with
          | none => none
          | some (g, tr, L, newargs) =>
            some (g, tr ++ [.orgArgHook it newargs], L, H.orgArgHook tr it newargs)

/-- The adapter of the command-not-found hook.  `L` is the runtime held by
`inte.Tag`; the deferred `L.Pop(1)` is applied on each return after the call. -/
def on_command_not_found (H : Host) (g : Globals) (tr : List Event) (L : LuaState)
    (inte : Cmd) (err : Option String) : List Event × LuaState × Option String :=
  if inte.Tag ≠ .lua then
    (tr, L, some "Could get lua instance(on_command_not_found)")
  else
    let L := (L.Push [.object g.luaOnCommandNotFound]).1
    if !L.IsFunction (-1) then
      let L := L.Pop 1
      (tr ++ [.orgOnCommandNotFound inte err], L, H.orgOnCommandNotFound tr inte err)
    else
      let L := L.NewTable
      let L := pushArgs L inte.Args 0
      match L.Call H tr 1 1 with
      | (tr, L, some _) => (tr, L.Pop 1, err)
      | (tr, L, none) =>
        if L.ToBool (-1) then
          (tr, L.Pop 1, none)
        else
          (tr ++ [.orgOnCommandNotFound inte err], L.Pop 1, H.orgOnCommandNotFound tr inte err)

/-! ## The alias executor (`mains/lua_cmd.go`) -/

structure LuaBinaryChank where
  Chank : List Nat
  deriving DecidableEq, Repr

/-- The first part of `LuaBinaryChank.Call`, up to the script call: the
redirection of the default streams, the load of the chunk and the two argument
tables.  The `io.output(f)` and `io.input(f)` calls are library calls whose
effect is the new default stream.  The inner result is the runtime and the
error of an early `return 255, err`; `none` is the fault of `cmd.Args[0]` on an
empty vector. -/
def LuaBinaryChank.prepare (H : Host) (this : LuaBinaryChank) (tr : List Event) (L : LuaState)
    (cmd : Cmd) : Option (LuaState × Option String) :=
  let out : LuaState × Option String :=
    if cmd.Stdout ≠ .Stdout ∧ cmd.Stdout ≠ .Stderr then
      match H.PushFileWriter tr cmd.Stdout with
      | some err => (L, some err)
      | none => ({ L with ioOutput := cmd.Stdout }, none)
    else (L, none)
  match out with
  | (L, some err) => some (L, some err)
  | (L, none) =>
    let inp : LuaState × Option String :=
      if cmd.Stdin ≠ .Stdin then
        match H.PushFileReader tr cmd.Stdin with
        | some err => (L, some err)
        | none => ({ L with ioInput := cmd.Stdin }, none)
      else (L, none)
    match inp with
    | (L, some err) => some (L, some err)
    | (L, none) =>
      match cmd.Args with
      | [] => none
      | name :: _ =>
        match H.LoadBufferX tr name this.Chank with
        | some err => some (L, some err)
        | none =>
          let L := L.pushValue (.function this.Chank)
          let L := L.NewTable
          let L := pushArgs L cmd.Args 0
          let L := L.NewTable
          let L := pushArgs L cmd.RawArgs 0
          let L := L.SetField (-2) "rawargs"
          some (L, none)

/-- The loop of `LuaBinaryChank.Call` reading the returned table from key `i`
on: it stops at the first key that reads as nil and at the first value whose
string conversion fails.  The source loop has no other exit; `none` when the
fuel runs out or a read faults. -/
def callArgsLoop (H : Host) :
    Nat → List Event → LuaState → Int → List String →
      Option (List Event × LuaState × List String)
  | 0, _, _, _, _ => none
  | fuel + 1, tr, L, i, newargs =>
    let L := L.PushInteger i
    match L.GetTable H tr (-2) with
    | none => none
    | some (tr, L) =>
      if L.IsNil (-1) then
        some (tr, L.Pop 1, newargs)
      else
        let r := L.ToString (-1)
        let L := L.Pop 1
        match r with
        | .error _ => some (tr, L, newargs)
        | .ok val => callArgsLoop H fuel tr L (i + 1) (newargs ++ [val])

/-- The last part of `LuaBinaryChank.Call`: what is done with the value the
script returned, found on top of the stack.  `fuel` bounds the rounds of the
read loop. -/
def LuaBinaryChank.interpret (H : Host) (tr : List Event) (L : LuaState) (cmd : Cmd)
    (fuel : Nat) : Option (List Event × LuaState × Int × Option String) :=
  if L.IsTable (-1) then
    match (L.PushInteger 0).GetTable H tr (-2) with
    | none => none
    | some (tr, L0) =>
      let newargs : List String :=
        match L0.ToString (-1) with
        | .ok val => if val ≠ "" then [val] else []
        | .error _ => []
      let L := L0.Pop 1
      match callArgsLoop H fuel tr L 1 newargs with
      | none => none
      | some (tr, L, newargs) =>
        match H.Clone tr cmd with
        | .error err1 => some (tr ++ [.Clone cmd], L, 255, some err1)
        | .ok it =>
          let it := { it with Args := newargs }
          some (tr ++ [.Clone cmd, .SpawnvpContext it], L,
            H.SpawnvpContext (tr ++ [.Clone cmd]) it)
  else
    match L.ToInteger (-1) with
    | .ok val => some (tr, L, val, none)
    | .error _ =>
      match L.ToString (-1) with
      | .ok val =>
        if val ≠ "" then
          match H.Clone tr cmd with
          | .error err1 => some (tr ++ [.Clone cmd], L, 255, some err1)
          | .ok it =>
            some (tr ++ [.Clone cmd, .InterpretContext it val], L,
              H.InterpretContext (tr ++ [.Clone cmd]) it val)
        else some (tr, L, 0, none)
      | .error _ => some (tr, L, 0, none)

/-- The alias command: `L` is the runtime held by `cmd.Tag`; the result is the
pair `(errorlevel, error)`.  `fuel` bounds the rounds of the read loop, and
`none` is a run that faults or does not return within it. -/
def LuaBinaryChank.Call (H : Host) (this : LuaBinaryChank) (tr : List Event) (L : LuaState)
    (cmd : Cmd) (fuel : Nat) : Option (List Event × LuaState × Int × Option String) :=
  if cmd.Tag ≠ .lua then
    some (tr, L, 255, some "LuaBinaryChank.Call: Lua instance not found")
  else
    match this.prepare H tr L cmd with
    | none => none
    | some (L, some err) => some (tr, L, 255, some err)
    | some (L, none) =>
      match NyagosCallLua H tr L cmd 1 1 with
      | (tr, L, some err) => some (tr, L.Pop 1, 0, some err)
      | (tr, L, none) =>
        match LuaBinaryChank.interpret H tr L cmd fuel with
        | none => none
        | some (tr, L, errorlevel, err) => some (tr, L.Pop 1, errorlevel, err)


/-- Worked example: a host whose script calls all answer `r`, whose previous
argument handler hands the vector on unchanged, whose previous command-not-found
handler recovers from the failure (answers nil), whose context clone is the
context itself, and whose spawn reports the length of the vector it ran. -/
def exHost (r : Except String (List LValue)) : Host where
  pcall := fun _ L _ _ => (L, r)
  orgArgHook := fun _ _ args => (args, none)
  orgOnCommandNotFound := fun _ _ _ => none
  Clone := fun _ cmd => .ok cmd
  SpawnvpContext := fun _ it => (it.Args.length, none)
  InterpretContext := fun _ _ text => (text.length, none)
  PushFileWriter := fun _ _ => none
  PushFileReader := fun _ _ => none
  LoadBufferX := fun _ _ _ => none

/-- Worked example: the context of the command line `ls -l` run by the shell
whose runtime is `exLua`. -/
def exCmd : Cmd := ⟨["ls", "-l"], ["ls", "-l"], .Stdout, .Stdin, .lua⟩

/-- Worked example: a script function has been stored in both hook slots. -/
def exHooked : Globals :=
  { exGlobals with luaArgsFilter := .TFunction [1], luaOnCommandNotFound := .TFunction [2] }

/-- The string a value converts to, when the conversion succeeds. -/
def LValue.stringOk (v : LValue) : Option String :=
  match v.ToString with
  | .ok s => some s
  | .error _ => none

/-- Worked example: the table `{"a", "b"}` of a script, keys 1 and 2. -/
def exTable12 : LValue := .table [(.int 1, .string "a"), (.int 2, .string "b")] none

/-- Worked example: a table with the keys 0, 1, 2 and, after a gap, 4. -/
def exTable0124 : LValue :=
  .table [(.int 0, .string "x"), (.int 1, .string "echo"), (.int 2, .string "hi"),
    (.int 4, .string "z")] none

/-- Worked example: a context whose `Tag` holds no runtime. -/
def exCmdNoTag : Cmd := ⟨["ls", "-l"], ["ls", "-l"], .Stdout, .Stdin, .absent⟩

/-- Worked example: the alias `ls` defined by a script function. -/
def exAlias : LuaBinaryChank := ⟨[1]⟩

/-- Worked example: the runtime of `exAlias` run on `exCmd`, at the script call. -/
def exAliasPrepared : LuaState :=
  match exAlias.prepare (exHost (.ok [exTable12])) [] exLua exCmd with
  | some (Lp, _) => Lp
  | none => exLua

/-- Worked example: the trace, the runtime and the error after the script of
`exAlias` has returned the table `{"a", "b"}`. -/
def exAliasCalled : List Event × LuaState × Option String :=
  NyagosCallLua (exHost (.ok [exTable12])) [] exAliasPrepared exCmd 1 1

/-! ## Member access on a handle and further worked examples -/

namespace ole

/-- The value the member access `obj[name]` yields: the runtime calls the
`__index` handler on the frame `[obj, name]` and keeps the first of the values
it returns, nil when it returns none. -/
def memberValue (L : LuaState) (obj name : LValue) : LValue :=
  let r := index { L with stack := [obj, name] }
  if r.2 = 0 then .nil else r.1.index (-(r.2 : Int))

end ole

/-- Worked example: a host like `exHost r` whose context clone fails. -/
def exHostNoClone (r : Except String (List LValue)) : Host :=
  { exHost r with Clone := fun _ _ => .error "too many open files" }

/-- Worked example: the context of `ls -l > file`, its output sent to file 5. -/
def exCmdRedirected : Cmd := ⟨["ls", "-l"], ["ls", "-l"], .other 5, .Stdin, .lua⟩

/-- The runtime `LuaBinaryChank.Call` hands to the script call: the loaded chunk
and, above it, the argument table with its `rawargs` member. -/
def LuaBinaryChank.loaded (this : LuaBinaryChank) (L : LuaState) (cmd : Cmd) : LuaState :=
  (pushArgs ((pushArgs ((L.pushValue (.function this.Chank)).NewTable) cmd.Args
    0).NewTable) cmd.RawArgs 0).SetField (-2) "rawargs"

/-- Worked example: the table with `a` and `b` under the keys 0 and 1 whose
metatable sends the members it lacks to a table with `c` under key 2. -/
def exTable01Indexed : LValue :=
  .table [(.int 0, .string "a"), (.int 1, .string "b")]
    (some [(.str "__index", .table [(.int 2, .string "c")] none)])

/-- Worked example: the table `{"a", "b"}` whose metatable sends the members it
lacks to a table with `c` under key 3. -/
def exTable12Indexed : LValue :=
  .table [(.int 1, .string "a"), (.int 2, .string "b")]
    (some [(.str "__index", .table [(.int 3, .string "c")] none)])

/-- Worked example: a table whose metatable sends every member it lacks to the
script function of chunk 9. -/
def exTableEndless : LValue :=
  .table [] (some [(.str "__index", .function [9])])

/-- Worked example: a host like `exHostNoClone` whose script function of chunk 9
answers the string `x` to every call, and whose other script calls return
`exTableEndless`. -/
def exHostEndless : Host :=
  { exHostNoClone (.ok [exTableEndless]) with
    pcall := fun _ L f _ =>
      match f with
      | .function [9] => (L, .ok [.string "x"])
      | _ => (L, .ok [exTableEndless]) }

/-! ## The alias table (`mains/lua_cmd.go`) -/

/-- Modelled from the spec: package `alias` is not among the sources.  An entry
of `alias.Table` is a named shell command: either the command line given as a
string (`alias.New(value)`, whose string form is that string) or a script
function kept as a `LuaBinaryChank`. -/
inductive Callable where
  | AliasFunc (BaseStr : String)
  | LuaBinaryChank (chank : LuaBinaryChank)
  deriving DecidableEq, Repr

/-- The string form `v.String()` of an entry. -/
def Callable.String : Callable → String
  | .AliasFunc BaseStr => BaseStr
  | .LuaBinaryChank _ => "(lua-function)"

/-- The bytes `L.Dump()` gives for the function on top of the stack; a value
that is no script function has none. -/
def LuaState.Dump (L : LuaState) : List Nat :=
  match L.index (-1) with
  | .function chunk => chunk
  | _ => []

/-- The `__newindex` handler of `nyagos.alias`, on the table `alias.Table`.
`ToLower` is `strings.ToLower` of the Go library, taken as a parameter. -/
def cmdSetAlias (ToLower : String → String) (Table : List (String × Callable))
    (L : LuaState) : List (String × Callable) × LuaState × Nat :=
  match L.ToString (-2) with
  | .error nameErr => (Table, L.Push [.nil, .string nameErr])
  | .ok name =>
    let key := ToLower name
    match L.GetType (-1) with
    | .LUA_TSTRING =>
      match L.ToString (-1) with
      | .ok value => (mapSet Table key (.AliasFunc value), L.Push [.bool true])
      | .error err => (Table, L.Push [.nil, .error err])
    | .LUA_TFUNCTION =>
      let chank := L.Dump
      (mapSet Table key (.LuaBinaryChank ⟨chank⟩), L.Push [.bool true])
    | _ => (Table, L.Push [.bool true])

/-- The `__index` handler of `nyagos.alias`, on the table `alias.Table`. -/
def cmdGetAlias (H : Host) (tr : List Event) (Table : List (String × Callable))
    (L : LuaState) : LuaState × Nat :=
  match L.ToString (-1) with
  | .error nameErr => L.Push [.nil, .error nameErr]
  | .ok name =>
    match mapGet Table name with
    | none => (L.PushNil, 1)
    | some (.LuaBinaryChank v) =>
      match H.LoadBufferX tr name v.Chank with
      | some err => L.Push [.nil, .string err]
      | none => (L.pushValue (.function v.Chank), 1)
    | some v => (L.PushString v.String, 1)

/-- The script object `nyagos.alias` handed to the handlers as first argument. -/
def exAliasObject : LValue := .table [] none

/-- Worked example: `strings.ToLower` on text of the letters A to Z and a to z,
where it replaces each capital by its small letter. -/
def exToLower (s : String) : String :=
  ⟨s.data.map Char.toLower⟩

/-- Worked example: the alias table after `nyagos.alias.LS = "ls -l"`. -/
def exAliasTableUpper : List (String × Callable) :=
  (cmdSetAlias exToLower []
    { exLua with stack := [exAliasObject, .string "LS", .string "ls -l"] }).1


/-! ## Column layout (`box/box.go`) -/

namespace box

/-- Go's integer division, which truncates toward zero; `none` is the fault of
a division by zero. -/
def goDiv (a b : Int) : Option Int :=
  if b = 0 then none else some (Int.tdiv a b)

/-- Go's remainder `a % b`; `none` is the fault of a division by zero. -/
def goMod (a b : Int) : Option Int :=
  if b = 0 then none else some (Int.tmod a b)

/-- The padding `strings.Repeat(" ", count)`; `none` is the fault of a negative
count. -/
def Repeat (count : Int) : Option String :=
  if count < 0 then none else some ⟨List.replicate count.toNat ' '⟩

/-- The first loop of `Print`: the largest display width of a node, from the
starting value `maxLen`.  `W` is the display width of a node once its escape
sequences are cut, `runewidth.StringWidth(ansiCutter.ReplaceAllString(s, ""))`. -/
def maxLenLoop (W : String → Nat) : List String → Int → Int
  | [], maxLen => maxLen
  | finfo :: rest, maxLen =>
    let length : Int := W finfo
    if length > maxLen then maxLenLoop W rest length else maxLenLoop W rest maxLen

/-- The second loop of `Print`: node `i` and its padding are written to the
buffer `lines[i % nlines]`.  `none` is a fault: division by zero, index out of
range or negative padding. -/
def writeLoop (W : String → Nat) (maxLen nlines : Int) :
    List String → Int → List String → Option (List String)
  | [], _, lines => some lines
  | finfo :: rest, i, lines =>
    match goMod i nlines with
    | none => none
    | some idx =>
      if idx < 0 ∨ (lines.length : Int) ≤ idx then
        none
      else
        match Repeat (maxLen + 1 - (W finfo : Int)) with
        | none => none
        | some pad =>
          writeLoop W maxLen nlines rest (i + 1)
            (lines.set idx.toNat (lines.getD idx.toNat "" ++ finfo ++ pad))

/-- The function `Print`: the lines handed to `fmt.Fprintln`, one per buffer, in
order.  `width` is the screen width `conio.GetScreenSize` reports, a console
dimension far below the range where the sums of the source would wrap, and
`TrimSpace` is `strings.TrimSpace`.  `none` is a fault of the run. -/
def Print (W : String → Nat) (TrimSpace : String → String) (width : Int)
    (nodes : List String) : Option (List String) :=
  let maxLen := maxLenLoop W nodes 1
  match goDiv (width - 1) (maxLen + 1) with
  | none => none
  | some quotient =>
    let nodePerLine := if quotient ≤ 0 then 1 else quotient
    match goDiv ((nodes.length : Int) + nodePerLine - 1) nodePerLine with
    | none => none
    | some nlines =>
      if nlines < 0 then
        none
      else
        let lines := List.replicate nlines.toNat ""
        match writeLoop W maxLen nlines nodes 0 lines with
        | none => none
        | some lines => some (lines.map TrimSpace)

/-! ### The layout in the words of the description -/

/-- The largest display width of a node, at least 1. -/
def specMaxLen (W : String → Nat) (nodes : List String) : Nat :=
  (nodes.map W).foldr max 1

/-- The number of nodes per line, `max(1, (width-1)/(maxLen+1))`. -/
def specNodePerLine (W : String → Nat) (width : Int) (nodes : List String) : Nat :=
  (max 1 (Int.tdiv (width - 1) ((specMaxLen W nodes : Int) + 1))).toNat

/-- The number of lines, `ceil(len(nodes)/nodePerLine)`. -/
def specLines (W : String → Nat) (width : Int) (nodes : List String) : Nat :=
  (nodes.length + specNodePerLine W width nodes - 1) / specNodePerLine W width nodes

/-- The nodes placed on line `j` of `nl`: those whose position, counted from
`start`, is `j` modulo `nl`, in order. -/
def onLine (nl j start : Nat) (nodes : List String) : List String :=
  ((nodes.enumFrom start).filter (fun p => p.1 % nl = j)).map Prod.snd

/-- A node followed by the blanks that fill its column of `maxLen + 1`. -/
def padded (W : String → Nat) (maxLen : Nat) (s : String) : String :=
  s ++ ⟨List.replicate (maxLen + 1 - W s) ' '⟩

/-- The strings of a list written one after the other. -/
def concat : List String → String
  | [] => ""
  | s :: rest => s ++ concat rest

/-- The text of line `j` before trimming: its nodes, each padded. -/
def row (W : String → Nat) (width : Int) (nodes : List String) (j : Nat) : String :=
  concat ((onLine (specLines W width nodes) j 0 nodes).map (padded W (specMaxLen W nodes)))

/-- Worked example: blanks cut from both ends, standing for `strings.TrimSpace`
on texts whose only white space is the blank. -/
def exTrimSpace (s : String) : String :=
  ⟨((s.data.dropWhile (fun c => c = ' ')).reverse.dropWhile (fun c => c = ' ')).reverse⟩

end box

/-! ## Lemmas on maps and machine integers -/

theorem mapGet_mapSet_same {κ α : Type} [DecidableEq κ] (m : List (κ × α)) (k : κ) (v : α) :
    mapGet (mapSet m k v) k = some v := by
  simp [mapSet, mapGet]

theorem mapGet_mapSet_other {κ α : Type} [DecidableEq κ] (m : List (κ × α)) (k k1 : κ) (v : α)
    (h : k ≠ k1) : mapGet (mapSet m k v) k1 = mapGet m k1 := by
  simp [mapSet, mapGet, h]

theorem mapGetInt_mapSet_same (m : List (String × Int)) (k : String) (v : Int) :
    mapGetInt (mapSet m k v) k = v := by
  simp [mapGetInt, mapGet_mapSet_same]

theorem mapGetInt_mapSet_other (m : List (String × Int)) (k k1 : String) (v : Int)
    (h : k ≠ k1) : mapGetInt (mapSet m k v) k1 = mapGetInt m k1 := by
  simp [mapGetInt, mapGet_mapSet_other _ _ _ _ h]

/-- An increment never gives the old value back, wrap-around included. -/
theorem wrapInt_succ_ne (x : Int) : wrapInt (x + 1) ≠ x := by
  unfold wrapInt
  omega

theorem wrapInt_succ_of_lt (x : Int) (h0 : -2 ^ 63 ≤ x) (h1 : x < 2 ^ 63 - 1) :
    wrapInt (x + 1) = x + 1 := by
  unfold wrapInt
  omega

/-! ## Lemmas on the marshaler -/

/-- A script table converts to a `TTable`, possibly inside a `MetaTableOwner`. -/
theorem toObject_table_shape (fs : List (LKey × LValue)) (meta : Option (List (LKey × LValue)))
    (T : Object) (h : toObject (.table fs meta) = .ok T) :
    (∃ d a, T = .TTable d a) ∨ (∃ d a md ma, T = .MetaTableOwner (.TTable d a) (.TTable md ma)) := by
  cases meta with
  | none =>
    simp only [toObject] at h
    split at h
    · left
      injection h with h
      exact ⟨_, _, h.symm⟩
    · cases h
  | some m =>
    simp only [toObject] at h
    split at h
    · right
      injection h with h
      exact ⟨_, _, _, _, h.symm⟩
    · cases h
    · cases h

theorem pushObject_TTable (d : List (String × Object)) (a : List (Int × Object)) :
    pushObject (.TTable d a) = .table (pushDict d ++ pushArray a) none := by
  simp [pushObject]

theorem pushObject_owner (d md : List (String × Object)) (a ma : List (Int × Object)) :
    pushObject (.MetaTableOwner (.TTable d a) (.TTable md ma)) =
      .table (pushDict d ++ pushArray a) (some (pushDict md ++ pushArray ma)) := by
  simp [pushObject]

/-- The host form of a script table is made of the converted members of the
table. -/
theorem toObject_table_fields (fs : List (LKey × LValue))
    (meta : Option (List (LKey × LValue))) (T : Object)
    (h : toObject (.table fs meta) = .ok T) :
    ∃ d a, toFields fs = .ok (d, a) ∧
      ((T = .TTable d a) ∨ (∃ md ma, T = .MetaTableOwner (.TTable d a) (.TTable md ma))) := by
  cases meta with
  | none =>
    simp only [toObject] at h
    split at h
    · rename_i d a hf
      injection h with h
      exact ⟨d, a, hf, Or.inl h.symm⟩
    · cases h
  | some m =>
    simp only [toObject] at h
    split at h
    · rename_i d a md ma hf _
      injection h with h
      exact ⟨d, a, hf, Or.inr ⟨md, ma, h.symm⟩⟩
    · cases h
    · cases h

theorem fieldGet_append (xs ys : List (LKey × LValue)) (key : LKey) :
    fieldGet (xs ++ ys) key =
      (match mapGet xs key with
        | some v => v
        | none => fieldGet ys key) := by
  induction xs with
  | nil => simp [mapGet]
  | cons e rest ih =>
    obtain ⟨k1, v⟩ := e
    by_cases h : k1 = key
    · simp [fieldGet, mapGet, h]
    · simp only [fieldGet, List.cons_append, mapGet, h, if_false] at ih ⊢
      exact ih

theorem mapGet_pushDict_int (d : List (String × Object)) (n : Int) :
    mapGet (pushDict d) (.int n) = none := by
  induction d with
  | nil => rfl
  | cons e rest ih =>
    obtain ⟨s, o⟩ := e
    simp [pushDict, mapGet, ih]

/-- A member a script table does not hold is not held either by the script
table its host form is marshaled back to. -/
theorem fieldGet_push_of_absent (key : LKey) :
    ∀ (fs : List (LKey × LValue)) (d : List (String × Object)) (a : List (Int × Object)),
      toFields fs = .ok (d, a) → fieldGet fs key = .nil →
      fieldGet (pushDict d ++ pushArray a) key = .nil := by
  intro fs
  induction fs with
  | nil =>
    intro d a h _
    simp only [toFields] at h
    injection h with h
    injection h with hd ha
    subst hd ha
    rfl
  | cons e rest ih =>
    obtain ⟨k, v⟩ := e
    intro d a h habs
    simp only [toFields] at h
    split at h
    · rename_i o d1 a1 ho hrest
      have hnil : k = key → pushObject o = .nil := by
        intro hk
        have hv : v = .nil := by simpa [fieldGet, mapGet, hk] using habs
        subst hv
        simp only [toObject] at ho
        injection ho with ho
        subst ho
        rfl
      have hrestabs : k ≠ key → fieldGet rest key = .nil := by
        intro hk
        simpa [fieldGet, mapGet, hk] using habs
      cases k with
      | str s =>
        simp only at h
        injection h with h
        injection h with hd ha
        subst hd ha
        by_cases hk : LKey.str s = key
        · simp [pushDict, fieldGet, mapGet, hk, hnil hk]
        · have := ih d1 a1 hrest (hrestabs hk)
          simpa [pushDict, fieldGet, mapGet, hk] using this
      | int n =>
        simp only at h
        injection h with h
        injection h with hd ha
        subst hd ha
        have hih : LKey.int n ≠ key → fieldGet (pushDict d1 ++ pushArray a1) key = .nil :=
          fun hk => ih d1 a1 hrest (hrestabs hk)
        rw [fieldGet_append] at hih ⊢
        cases hm : mapGet (pushDict d1) key with
        | some w =>
          by_cases hk : LKey.int n = key
          · subst hk
            rw [mapGet_pushDict_int] at hm
            cases hm
          · have := hih hk
            simpa [hm] using this
        | none =>
          by_cases hk : LKey.int n = key
          · simp [pushArray, fieldGet, mapGet, hk, hnil hk]
          · have := hih hk
            simpa [hm, pushArray, fieldGet, mapGet, hk] using this
    · cases h
    · cases h

/-! ## Lemmas on the shared state table -/

theorem getShareTable_table (g : Globals) (L : LuaState) (self : LValue) (k : String)
    (value : Object) (fs : List (LKey × LValue)) (m : Option (List (LKey × LValue)))
    (hval : mapGet g.share_table k = some value) (hpush : pushObject value = .table fs m) :
    getShareTable g { L with stack := [self, .string k] } =
      (g, { L with stack := [self, .string k,
          .table fs (some (viewMeta k (mapGetInt g.share_table_generation k)))] }, 1) := by
  simp [getShareTable, LuaState.ToString, LuaState.index, LuaState.pos, LValue.ToString, hval,
    LuaState.Push, GoValue.toLua, hpush, LuaState.IsTable, LValue.IsTable, LValue.GetType,
    LuaState.NewTable, LuaState.pushValue, LuaState.PushGoFunction, LuaState.SetField,
    LuaState.modify, LuaState.Pop, LValue.setField, mapSet, LuaState.PushString,
    LuaState.PushInteger, LuaState.SetMetaTable, viewMeta]

/-- When `getShareTable` answers with a table, the answer is a view: a copy of
the entry under the metatable naming the key and the live generation. -/
theorem getShareTable_isTable (g : Globals) (L : LuaState) (self : LValue) (k : String)
    (h : (getShareTable g { L with stack := [self, .string k] }).2.1.IsTable (-1) = true) :
    ∃ fs, (getShareTable g { L with stack := [self, .string k] }).2.1.index (-1) =
      .table fs (some (viewMeta k (mapGetInt g.share_table_generation k))) := by
  cases hval : mapGet g.share_table k with
  | none =>
    simp [getShareTable, LuaState.ToString, LuaState.index, LuaState.pos, LValue.ToString, hval,
      LuaState.PushNil, LuaState.pushValue, LuaState.IsTable, LValue.IsTable,
      LValue.GetType] at h
  | some value =>
    cases hpush : pushObject value with
    | table fs m =>
      refine ⟨fs, ?_⟩
      rw [getShareTable_table g L self k value fs m hval hpush]
      simp [LuaState.index, LuaState.pos]
    | _ =>
      simp [getShareTable, LuaState.ToString, LuaState.index, LuaState.pos, LValue.ToString,
        hval, LuaState.Push, GoValue.toLua, hpush, LuaState.IsTable, LValue.IsTable,
        LValue.GetType] at h

/-- A write through a view whose recorded generation differs from the live one
changes no process-wide variable and returns no value. -/
theorem setMember_old (g : Globals) (L : LuaState) (fs : List (LKey × LValue))
    (pk : String) (age : Int) (m v : LValue) (km kv : Object)
    (hm : toObject m = .ok km) (hv : toObject v = .ok kv)
    (hage : age ≠ mapGetInt g.share_table_generation pk) :
    (setMemberOfShareTable g { L with stack := [.table fs (some (viewMeta pk age)), m, v] }).1 = g ∧
    (setMemberOfShareTable g
      { L with stack := [.table fs (some (viewMeta pk age)), m, v] }).2.2 = 0 := by
  cases hkey : m.toKey <;>
  simp [setMemberOfShareTable, LuaState.ToObject, LuaState.index, LuaState.pos, hm, hv,
    LuaState.RawSet, hkey, LuaState.modify, LuaState.Pop, LValue.setField, LuaState.GetMetaTable,
    LuaState.pushValue, LuaState.GetField, LValue.getField, fieldGet, mapGet, viewMeta,
    LuaState.ToString, LValue.ToString, LuaState.ToInteger, LValue.ToInteger, hage]

theorem setMember_keyError (g : Globals) (L : LuaState) (t m v : LValue) (e : String)
    (hm : toObject m = .error e) :
    setMemberOfShareTable g { L with stack := [t, m, v] } =
      (g, { L with stack := [t, m, v, .nil, .string e] }, 2) := by
  simp [setMemberOfShareTable, LuaState.ToObject, LuaState.index, LuaState.pos, hm,
    LuaState.Push, GoValue.toLua]

theorem setMember_valError (g : Globals) (L : LuaState) (t m v : LValue) (km : Object)
    (e : String) (hm : toObject m = .ok km) (hv : toObject v = .error e) :
    setMemberOfShareTable g { L with stack := [t, m, v] } =
      (g, { L with stack := [t, m, v, .nil, .string e] }, 2) := by
  simp [setMemberOfShareTable, LuaState.ToObject, LuaState.index, LuaState.pos, hm, hv,
    LuaState.Push, GoValue.toLua]

/-- A write of a string or integer member through a view whose recorded
generation is the live one is stored in the canonical table. -/
theorem setMember_live (g : Globals) (L : LuaState) (fs : List (LKey × LValue))
    (pk : String) (m v : LValue) (kv T : Object)
    (hm : (∃ s, m = .string s) ∨ (∃ n, m = .integer n)) (hv : toObject v = .ok kv)
    (hT : mapGet g.share_table pk = some T)
    (hshape : (∃ d a, T = .TTable d a) ∨
      (∃ d a md ma, T = .MetaTableOwner (.TTable d a) (.TTable md ma))) :
    ∃ km, toObject m = .ok km ∧
      ((mapGet (setMemberOfShareTable g { L with stack :=
          [.table fs (some (viewMeta pk (mapGetInt g.share_table_generation pk))), m, v] }
        ).1.share_table pk).bind (fun t => t.member km) = some kv) ∧
      (setMemberOfShareTable g { L with stack :=
          [.table fs (some (viewMeta pk (mapGetInt g.share_table_generation pk))), m, v] }
        ).2.2 = 0 := by
  rcases hm with ⟨s, rfl⟩ | ⟨n, rfl⟩
  · refine ⟨.TString s, by simp [toObject], ?_⟩
    rcases hshape with ⟨d, a, rfl⟩ | ⟨d, a, md, ma, rfl⟩ <;>
    simp [setMemberOfShareTable, LuaState.ToObject, LuaState.index, LuaState.pos, toObject, hv,
      LuaState.RawSet, LValue.toKey, LuaState.modify, LuaState.Pop, LValue.setField,
      LuaState.GetMetaTable, LuaState.pushValue, LuaState.GetField, LValue.getField, fieldGet,
      mapGet, viewMeta, LuaState.ToString, LValue.ToString, LuaState.ToInteger,
      LValue.ToInteger, hT, assignMember, mapSet, Object.member]
  · refine ⟨.Integer n, by simp [toObject], ?_⟩
    rcases hshape with ⟨d, a, rfl⟩ | ⟨d, a, md, ma, rfl⟩ <;>
    simp [setMemberOfShareTable, LuaState.ToObject, LuaState.index, LuaState.pos, toObject, hv,
      LuaState.RawSet, LValue.toKey, LuaState.modify, LuaState.Pop, LValue.setField,
      LuaState.GetMetaTable, LuaState.pushValue, LuaState.GetField, LValue.getField, fieldGet,
      mapGet, viewMeta, LuaState.ToString, LValue.ToString, LuaState.ToInteger,
      LValue.ToInteger, hT, assignMember, mapSet, Object.member]

theorem setShareTable_ok (g : Globals) (L : LuaState) (k : String) (value : Object)
    (hk : L.ToString (-2) = .ok k) (hv : L.ToObject (-1) = .ok value) :
    setShareTable g L =
      ({ g with
          share_table := mapSet g.share_table k value
          share_table_generation :=
            mapSet g.share_table_generation k
              (wrapInt (mapGetInt g.share_table_generation k + 1)) }, L, 1) := by
  simp [setShareTable, hk, hv]

theorem setMember_generation (g : Globals) (L : LuaState) :
    (setMemberOfShareTable g L).1.share_table_generation = g.share_table_generation := by
  unfold setMemberOfShareTable
  repeat' (first | split | dsimp only)

theorem getShareTable_globals (g : Globals) (L : LuaState) : (getShareTable g L).1 = g := by
  unfold getShareTable
  repeat' (first | split | dsimp only)

/-! ## Lemmas on the stack -/

theorem index_top (L : LuaState) (st : List LValue) (v : LValue) :
    ({ L with stack := st ++ [v] } : LuaState).index (-1) = v := by
  simp [LuaState.index, LuaState.pos]

theorem index_top2 (L : LuaState) (st : List LValue) (a b : LValue) :
    ({ L with stack := st ++ [a, b] } : LuaState).index (-1) = b := by
  have h := index_top L (st ++ [a]) b
  simpa using h

theorem index_second (L : LuaState) (st : List LValue) (a b : LValue) :
    ({ L with stack := st ++ [a, b] } : LuaState).index (-2) = a := by
  have h : (st ++ [a, b])[st.length]? = some a := by
    rw [List.getElem?_append_right (Nat.le_refl _)]
    simp
  simp [LuaState.index, LuaState.pos, h]

theorem pop_top (L : LuaState) (st : List LValue) (v : LValue) :
    ({ L with stack := st ++ [v] } : LuaState).Pop 1 = { L with stack := st } := by
  simp [LuaState.Pop]

theorem pop_top2 (L : LuaState) (st : List LValue) (a b : LValue) :
    ({ L with stack := st ++ [a, b] } : LuaState).Pop 1 = { L with stack := st ++ [a] } := by
  have h := pop_top L (st ++ [a]) b
  simpa using h

/-- A stack whose top is not nil ends with that value. -/
theorem stack_of_index_top (L : LuaState) (v : LValue) (h : L.index (-1) = v)
    (hv : v ≠ .nil) : ∃ st, L.stack = st ++ [v] := by
  rcases List.eq_nil_or_concat L.stack with hnil | ⟨st, a, hst⟩
  · simp [LuaState.index, LuaState.pos, hnil] at h
    exact absurd h.symm hv
  · refine ⟨st, ?_⟩
    have ha : L.index (-1) = a := by
      have := index_top L st a
      rw [← this]
      simp [LuaState.index, LuaState.pos, hst]
    rw [hst, ← h, ha, List.concat_eq_append]

theorem isNil_eq_true (v : LValue) : v.IsNil = true ↔ v = .nil := by
  cases v <;> simp [LValue.IsNil, LValue.GetType]

/-- The read of a table that carries no `__index` handler is the raw read: no
handler runs and the runtime is left alone. -/
theorem gettable_raw (H : Host) (loop : Nat) (tr : List Event) (L : LuaState)
    (fs : List (LKey × LValue)) (meta : Option (List (LKey × LValue))) (k : LValue)
    (hidx : (LValue.table fs meta).metaIndex = .nil) :
    gettable H (loop + 1) tr L (.table fs meta) k =
      some (tr, L, (LValue.table fs meta).rawget k) := by
  unfold gettable
  by_cases h : ((LValue.table fs meta).rawget k).IsNil = true
  · rw [if_pos h, hidx, (isNil_eq_true _).1 h]
    rfl
  · rw [if_neg h]

/-- Reading the integer key `i` of the table on top of the stack, when the
table carries no `__index` handler. -/
theorem getTable_top (H : Host) (tr : List Event) (L : LuaState) (st : List LValue)
    (fs : List (LKey × LValue)) (meta : Option (List (LKey × LValue))) (i : Int)
    (hidx : (LValue.table fs meta).metaIndex = .nil) :
    (({ L with stack := st ++ [.table fs meta] } : LuaState).PushInteger i).GetTable H tr (-2) =
      some (tr, { L with stack := st ++ [.table fs meta, fieldGet fs (.int i)] }) := by
  have h1 : ({ L with stack := st ++ [.table fs meta] } : LuaState).PushInteger i
      = { L with stack := st ++ [.table fs meta, .integer i] } := by
    simp [LuaState.PushInteger, LuaState.pushValue]
  rw [h1]
  unfold LuaState.GetTable
  rw [index_second, index_top2, pop_top2]
  have hloop : MAXTAGLOOP = 1999 + 1 := rfl
  rw [hloop, gettable_raw H 1999 tr _ fs meta (.integer i) hidx]
  simp [LValue.rawget, LValue.toKey, LuaState.pushValue, LValue.getField]

/-! ## Lemmas on the dense segment of a table -/

theorem mem_keys_of_mapGet {κ α : Type} [DecidableEq κ] (m : List (κ × α)) (k : κ) (v : α)
    (h : mapGet m k = some v) : k ∈ m.map Prod.fst := by
  induction m with
  | nil => simp [mapGet] at h
  | cons e rest ih =>
    obtain ⟨k1, v1⟩ := e
    by_cases hk : k1 = k
    · simp [hk]
    · simp only [mapGet, hk, if_false] at h
      simp [ih h]

/-- A table holding a value under each of `n` consecutive integer keys has at
least `n` fields: the walk over a dense segment ends within the field count. -/
theorem dense_le_length (fs : List (LKey × LValue)) (n i : Nat)
    (h : ∀ j, j < n → fieldGet fs (.int ((i + j : Nat) : Int)) ≠ .nil) : n ≤ fs.length := by
  have hnodup : ((List.range n).map (fun j => LKey.int ((i + j : Nat) : Int))).Nodup := by
    refine List.Nodup.map ?_ (List.nodup_range n)
    intro a b hab
    simp only [LKey.int.injEq] at hab
    omega
  have hsub : (List.range n).map (fun j => LKey.int ((i + j : Nat) : Int))
      ⊆ fs.map Prod.fst := by
    intro k hk
    obtain ⟨j, hj, rfl⟩ := List.mem_map.1 hk
    have hjn : j < n := List.mem_range.1 hj
    have hne := h j hjn
    cases hget : mapGet fs (.int ((i + j : Nat) : Int)) with
    | none =>
      simp only [fieldGet, hget, Option.getD_none] at hne
      exact absurd rfl hne
    | some v => exact mem_keys_of_mapGet fs _ v hget
  have hlen := (List.subperm_of_subset hnodup hsub).length_le
  simpa using hlen

/-! ## The shared state table: claims C1 to C3 -/

theorem writeMember_globals (g : Globals) (L : LuaState) (view m v : LValue)
    (h : (setMemberOfShareTable g { L with stack := [view, m, v] }).1 = g) :
    (writeMember g L view m v).1 = g := by
  unfold writeMember
  split
  · exact h
  · rfl

/-- C1 (amended): a member write through a view of `k` taken before `k` was
published again is dropped.  After the call of the handler on the frame
`[view, m, v]` every process-wide variable is as the publish left it, so
`share_table[k]` is still the converted `V2` and no generation moved; the
handler returns no value when the member key and value convert, and the pair
`(nil, error)` when one of them does not.  The script statement `view[m] = v`,
which reaches the handler only for a member the view lacks, leaves every
process-wide variable alone as well. -/
theorem stale_view_write_dropped (g : Globals) (L1 L2 L3 : LuaState) (self1 self2 : LValue)
    (k : String) (V2 m v : LValue) (o2 : Object)
    (hview : (getShareTable g { L1 with stack := [self1, .string k] }).2.1.IsTable (-1) = true)
    (hV2 : toObject V2 = .ok o2) :
    (setMemberOfShareTable (publish g L2 self2 k V2)
        { L3 with stack := [viewOf g L1 self1 k, m, v] }).1
      = publish g L2 self2 k V2 ∧
    mapGet (setMemberOfShareTable (publish g L2 self2 k V2)
        { L3 with stack := [viewOf g L1 self1 k, m, v] }).1.share_table k
      = some o2 ∧
    ((∃ km kv, toObject m = .ok km ∧ toObject v = .ok kv) →
      (setMemberOfShareTable (publish g L2 self2 k V2)
        { L3 with stack := [viewOf g L1 self1 k, m, v] }).2.2 = 0) ∧
    ((∀ km kv, ¬ (toObject m = .ok km ∧ toObject v = .ok kv)) →
      (setMemberOfShareTable (publish g L2 self2 k V2)
        { L3 with stack := [viewOf g L1 self1 k, m, v] }).2.2 = 2) ∧
    (writeMember (publish g L2 self2 k V2) L3 (viewOf g L1 self1 k) m v).1
      = publish g L2 self2 k V2 := by
  have main :
      (setMemberOfShareTable (publish g L2 self2 k V2)
          { L3 with stack := [viewOf g L1 self1 k, m, v] }).1
        = publish g L2 self2 k V2 ∧
      mapGet (setMemberOfShareTable (publish g L2 self2 k V2)
          { L3 with stack := [viewOf g L1 self1 k, m, v] }).1.share_table k
        = some o2 ∧
      ((∃ km kv, toObject m = .ok km ∧ toObject v = .ok kv) →
        (setMemberOfShareTable (publish g L2 self2 k V2)
          { L3 with stack := [viewOf g L1 self1 k, m, v] }).2.2 = 0) ∧
      ((∀ km kv, ¬ (toObject m = .ok km ∧ toObject v = .ok kv)) →
        (setMemberOfShareTable (publish g L2 self2 k V2)
          { L3 with stack := [viewOf g L1 self1 k, m, v] }).2.2 = 2) := by
    obtain ⟨fs, hfs⟩ := getShareTable_isTable g L1 self1 k hview
    have hpub : setShareTable g { L2 with stack := [self2, .string k, V2] } = _ :=
      setShareTable_ok g { L2 with stack := [self2, .string k, V2] } k o2
        (by simp [LuaState.ToString, LuaState.index, LuaState.pos, LValue.ToString])
        (by simp [LuaState.ToObject, LuaState.index, LuaState.pos, hV2])
    unfold publish viewOf
    rw [hfs, hpub]
    have hage : mapGetInt g.share_table_generation k ≠
        mapGetInt (mapSet g.share_table_generation k
          (wrapInt (mapGetInt g.share_table_generation k + 1))) k := by
      rw [mapGetInt_mapSet_same]
      exact fun h => wrapInt_succ_ne _ h.symm
    cases hm : toObject m with
    | error e =>
      rw [setMember_keyError _ _ _ _ _ _ hm]
      simp [mapGet_mapSet_same]
    | ok km =>
      cases hv : toObject v with
      | error e =>
        rw [setMember_valError _ _ _ _ _ _ _ hm hv]
        simp [mapGet_mapSet_same]
      | ok kv =>
        obtain ⟨h1, h2⟩ := setMember_old
          { g with
            share_table := mapSet g.share_table k o2
            share_table_generation := mapSet g.share_table_generation k
              (wrapInt (mapGetInt g.share_table_generation k + 1)) }
          L3 fs k (mapGetInt g.share_table_generation k) m v km kv hm hv hage
        rw [h1, h2]
        simp [mapGet_mapSet_same]
  exact ⟨main.1, main.2.1, main.2.2.1, main.2.2.2, writeMember_globals _ _ _ _ _ main.1⟩

/-- Witness of C1 (amended): the view of `share.k` taken before `share.k = 5`;
the write `view.b = 7` leaves `share_table["k"]` at 5 and returns no value. -/
theorem stale_view_write_dropped_witness :
    (getShareTable exPublished { exLua with stack := [exShare, .string "k"] }).2.1.IsTable (-1)
      = true ∧
    toObject (.integer 5) = .ok (.Integer 5) ∧
    mapGet (setMemberOfShareTable (publish exPublished exLua exShare "k" (.integer 5))
      { exLua with stack := [viewOf exPublished exLua exShare "k", .string "b", .integer 7] }
      ).1.share_table "k" = some (.Integer 5) :=
  ⟨by rfl, by rfl,
    (stale_view_write_dropped exPublished exLua exLua exLua exShare exShare "k" (.integer 5)
      (.string "b") (.integer 7) (.Integer 5) (by rfl) (by rfl)).2.1⟩

/-- C1 as stated fails: a stale write whose value does not convert returns the
two values `(nil, "DecodeError")` instead of none. -/
theorem stale_write_surfaces_error :
    (writeMember exRepublished exLua exView (.string "b") (.rawbytes [255])).2.2 ≠ 0 ∧
    (writeMember exRepublished exLua exView (.string "b") (.rawbytes [255])).2.1.index (-2)
      = .nil ∧
    (writeMember exRepublished exLua exView (.string "b") (.rawbytes [255])).2.1.index (-1)
      = .string "DecodeError" := by
  refine ⟨?_, ?_, ?_⟩
  · decide
  · rfl
  · rfl

/-- C2 (amended): after `k` is published with a table, a view of `k` followed at
once by the write of a convertible value `v` under a string or integer member
`m` that the table does not hold commits: the runtime calls the handler, the
canonical table `share_table[k]` then holds the converted `v` at member `m`, and
the write returns no value. -/
theorem view_write_commits (g0 : Globals) (L0 L1 L2 : LuaState) (self0 self1 : LValue)
    (k : String) (fs : List (LKey × LValue)) (meta : Option (List (LKey × LValue)))
    (T : Object) (m v : LValue) (kv : Object)
    (hpub : toObject (.table fs meta) = .ok T)
    (hm : (∃ s, m = .string s) ∨ (∃ n, m = .integer n))
    (hlack : (LValue.table fs meta).rawget m = .nil)
    (hv : toObject v = .ok kv) :
    ∃ km, toObject m = .ok km ∧
      (mapGet (writeMember (publish g0 L0 self0 k (.table fs meta)) L2
          (viewOf (publish g0 L0 self0 k (.table fs meta)) L1 self1 k) m v).1.share_table k).bind
        (fun t => t.member km) = some kv ∧
      (writeMember (publish g0 L0 self0 k (.table fs meta)) L2
          (viewOf (publish g0 L0 self0 k (.table fs meta)) L1 self1 k) m v).2.2 = 0 := by
  have hpubl : setShareTable g0 { L0 with stack := [self0, .string k, .table fs meta] } = _ :=
    setShareTable_ok g0 { L0 with stack := [self0, .string k, .table fs meta] } k T
      (by simp [LuaState.ToString, LuaState.index, LuaState.pos, LValue.ToString])
      (by simp [LuaState.ToObject, LuaState.index, LuaState.pos, hpub])
  have hshape := toObject_table_shape fs meta T hpub
  obtain ⟨d, a, hfields, hT⟩ := toObject_table_fields fs meta T hpub
  have hpush : ∃ pm, pushObject T = .table (pushDict d ++ pushArray a) pm := by
    rcases hT with rfl | ⟨md, ma, rfl⟩
    · exact ⟨_, pushObject_TTable d a⟩
    · exact ⟨_, pushObject_owner d md a ma⟩
  obtain ⟨pm, hps⟩ := hpush
  obtain ⟨key, hkey⟩ : ∃ key, m.toKey = some key := by
    rcases hm with ⟨s, rfl⟩ | ⟨n, rfl⟩
    · exact ⟨_, rfl⟩
    · exact ⟨_, rfl⟩
  have habs : fieldGet fs key = .nil := by
    simpa [LValue.rawget, hkey, LValue.getField] using hlack
  have hviewlack : ∀ vm, ((LValue.table (pushDict d ++ pushArray a) vm).rawget m).IsNil = true := by
    intro vm
    simp [LValue.rawget, hkey, LValue.getField, fieldGet_push_of_absent key fs d a hfields habs,
      LValue.IsNil, LValue.GetType]
  unfold writeMember publish viewOf
  rw [hpubl]
  have hTg : mapGet ({ g0 with
      share_table := mapSet g0.share_table k T
      share_table_generation := mapSet g0.share_table_generation k
        (wrapInt (mapGetInt g0.share_table_generation k + 1)) } : Globals).share_table k
      = some T := mapGet_mapSet_same _ _ _
  rw [getShareTable_table _ L1 self1 k T _ pm hTg hps]
  have hidx : ∀ (x : LValue), ({ L1 with stack := [self1, .string k, x] } : LuaState).index (-1)
      = x := by
    intro x
    simp [LuaState.index, LuaState.pos]
  rw [hidx, if_pos (hviewlack _)]
  exact setMember_live _ L2 _ k m v kv T hm hv hTg hshape

/-- Witness of C2 (amended): `share.k = {}`, then `share.k.b = 7`. -/
theorem view_write_commits_witness :
    toObject (.table [] none) = .ok (.TTable [] []) ∧
    (LValue.table [] none).rawget (.string "b") = .nil ∧
    toObject (.integer 7) = .ok (.Integer 7) ∧
    ∃ km, toObject (.string "b") = .ok km ∧
      (mapGet (writeMember (publish exGlobals exLua exShare "k" (.table [] none)) exLua
          (viewOf (publish exGlobals exLua exShare "k" (.table [] none)) exLua exShare "k")
          (.string "b") (.integer 7)).1.share_table "k").bind
        (fun t => t.member km) = some (.Integer 7) ∧
      (writeMember (publish exGlobals exLua exShare "k" (.table [] none)) exLua
          (viewOf (publish exGlobals exLua exShare "k" (.table [] none)) exLua exShare "k")
          (.string "b") (.integer 7)).2.2 = 0 :=
  ⟨by rfl, by rfl, by rfl,
    view_write_commits exGlobals exLua exLua exLua exShare exShare "k" [] none (.TTable [] [])
      (.string "b") (.integer 7) (.Integer 7) (by rfl) (Or.inl ⟨"b", rfl⟩) (by rfl) (by rfl)⟩

/-- C2 as stated fails.  The immediate write of a value that does not convert is
not committed: the canonical table has no member `b` afterwards and the write
returns `(nil, error)`.  And after `share.k = {b = 1}` the immediate write
`share.k.b = 7` is not committed either: the view holds `b`, no handler runs, and
the canonical table still holds 1 at `b`. -/
theorem unconvertible_write_not_committed :
    (mapGet (writeMember exPublished exLua exView (.string "b") (.rawbytes [255])).1.share_table
        "k").bind (fun t => t.member (.TString "b")) = none ∧
    (writeMember exPublished exLua exView (.string "b") (.rawbytes [255])).2.2 = 2 ∧
    (mapGet (writeMember exPublishedB exLua (viewOf exPublishedB exLua exShare "k")
        (.string "b") (.integer 7)).1.share_table "k").bind
      (fun t => t.member (.TString "b")) = some (.Integer 1) := by
  refine ⟨?_, ?_, ?_⟩
  · rfl
  · decide
  · rfl

/-- C3: a publish of key `k` with convertible value stores the value under `k`,
makes the generation of `k` exactly one greater (from 0 to 1 for a key never
published), and leaves every other entry and generation alone, so that no
generation decreases; a publish whose key or value does not convert changes
neither map; views and member writes change no generation.  Overflow of the
counter is out of scope: the generation of `k` is an `int` below the largest
one. -/
theorem setShareTable_publish (g : Globals) (L : LuaState) :
    (∀ k value, L.ToString (-2) = .ok k → L.ToObject (-1) = .ok value →
      -2 ^ 63 ≤ mapGetInt g.share_table_generation k →
      mapGetInt g.share_table_generation k < 2 ^ 63 - 1 →
        mapGet (setShareTable g L).1.share_table k = some value ∧
        mapGetInt (setShareTable g L).1.share_table_generation k
          = mapGetInt g.share_table_generation k + 1 ∧
        (mapGet g.share_table_generation k = none →
          mapGetInt (setShareTable g L).1.share_table_generation k = 1) ∧
        (∀ k1, k1 ≠ k →
          mapGet (setShareTable g L).1.share_table k1 = mapGet g.share_table k1 ∧
          mapGetInt (setShareTable g L).1.share_table_generation k1
            = mapGetInt g.share_table_generation k1) ∧
        (∀ k1, mapGetInt g.share_table_generation k1
          ≤ mapGetInt (setShareTable g L).1.share_table_generation k1)) ∧
    (((∀ k, L.ToString (-2) ≠ .ok k) ∨ (∀ value, L.ToObject (-1) ≠ .ok value)) →
      (setShareTable g L).1.share_table = g.share_table ∧
      (setShareTable g L).1.share_table_generation = g.share_table_generation) ∧
    (getShareTable g L).1.share_table_generation = g.share_table_generation ∧
    (setMemberOfShareTable g L).1.share_table_generation = g.share_table_generation := by
  refine ⟨?_, ?_, ?_, setMember_generation g L⟩
  · intro k value hk hv h0 h1
    rw [setShareTable_ok g L k value hk hv]
    have hw := wrapInt_succ_of_lt _ h0 h1
    refine ⟨mapGet_mapSet_same _ _ _, ?_, ?_, ?_, ?_⟩
    · simp only [mapGetInt_mapSet_same, hw]
    · intro hnone
      simp only [mapGetInt_mapSet_same]
      have hz : mapGetInt g.share_table_generation k = 0 := by simp [mapGetInt, hnone]
      rw [hz]
      decide
    · intro k1 hne
      exact ⟨mapGet_mapSet_other _ _ _ _ (Ne.symm hne),
        mapGetInt_mapSet_other _ _ _ _ (Ne.symm hne)⟩
    · intro k1
      by_cases hk1 : k = k1
      · subst hk1
        simp only [mapGetInt_mapSet_same, hw]
        omega
      · simp only [mapGetInt_mapSet_other _ _ _ _ hk1]
        exact le_refl _
  · intro hbad
    unfold setShareTable
    cases hk : L.ToString (-2) with
    | error e => exact ⟨rfl, rfl⟩
    | ok k =>
      cases hv : L.ToObject (-1) with
      | error e => exact ⟨rfl, rfl⟩
      | ok value =>
        rcases hbad with h | h
        · exact absurd hk (h k)
        · exact absurd hv (h value)
  · rw [getShareTable_globals]

/-- Witness of C3: the first publish of `k` takes its generation from 0 to 1. -/
theorem setShareTable_publish_witness :
    ({ exLua with stack := [exShare, .string "k", .integer 5] } : LuaState).ToString (-2)
      = .ok "k" ∧
    ({ exLua with stack := [exShare, .string "k", .integer 5] } : LuaState).ToObject (-1)
      = .ok (.Integer 5) ∧
    mapGetInt (setShareTable exGlobals
      { exLua with stack := [exShare, .string "k", .integer 5] }).1.share_table_generation "k"
      = mapGetInt exGlobals.share_table_generation "k" + 1 :=
  ⟨by rfl, by rfl,
    ((setShareTable_publish exGlobals
      { exLua with stack := [exShare, .string "k", .integer 5] }).1 "k" (.Integer 5)
      (by rfl) (by rfl) (by decide) (by decide)).2.1⟩

/-! ## External-object handles: claims C4 to C6 -/

namespace ole

/-- C4 (amended): the dispatch verbs make no release check.  On a released
capsule (its `Data` is nil), with a frame that holds the member name and
arguments that convert, `call`, `get` and `set` hand the nil reference to the
provider operation; `call` and `get` answer `(nil, message)` exactly when the
provider reports an error and the provider's result otherwise, and `set`
answers `(true, nil)`. -/
theorem released_capsule_reaches_provider (P : Provider) (tr : List Event) (L : LuaState)
    (meta : Option (List (LKey × LValue))) (name : String) (params : List Iface)
    (hcap : L.index 1 = .userdata none meta)
    (hname : L.ToString 2 = .ok name)
    (hparams : lua2interfaceS P L 3 L.GetTop = some (.ok params)) :
    (call P tr L).map (fun r => r.1) = some (tr ++ [.CallMethod none name params]) ∧
    (get P tr L).map (fun r => r.1) = some (tr ++ [.GetProperty none name params]) ∧
    set P tr L = some (tr ++ [.PutProperty none name params], L.Push [.bool true, .nil]) ∧
    (∀ e, P.CallMethod tr none name params = .error e →
      call P tr L = some (tr ++ [.CallMethod none name params], L.Push [.nil, .error e])) ∧
    (∀ r, P.CallMethod tr none name params = .ok r →
      call P tr L = some (tr ++ [.CallMethod none name params], pushResult L r)) ∧
    (∀ e, P.GetProperty tr none name params = .error e →
      get P tr L = some (tr ++ [.GetProperty none name params], L.Push [.nil, .error e])) ∧
    (∀ r, P.GetProperty tr none name params = .ok r →
      get P tr L = some (tr ++ [.GetProperty none name params], pushResult L r)) := by
  refine ⟨?_, ?_, ?_, ?_, ?_, ?_, ?_⟩
  · simp only [call, hcap, ToUserData, hname, hparams]
    cases P.CallMethod tr none name params <;> rfl
  · simp only [get, hcap, ToUserData, hname, hparams]
    cases P.GetProperty tr none name params <;> rfl
  · simp only [set, hcap, ToUserData, hname, hparams]
  · intro e he
    simp only [call, hcap, ToUserData, hname, hparams, he]
  · intro r hr
    simp only [call, hcap, ToUserData, hname, hparams, hr]
  · intro e he
    simp only [get, hcap, ToUserData, hname, hparams, he]
  · intro r hr
    simp only [get, hcap, ToUserData, hname, hparams, hr]

/-- Witness of C4 (amended): `obj:_call("Quit")` on a released capsule. -/
theorem released_capsule_reaches_provider_witness :
    ({ exLua with stack := [exReleased, .string "Quit"] } : LuaState).index 1
      = .userdata none none ∧
    lua2interfaceS exRefusing { exLua with stack := [exReleased, .string "Quit"] } 3
      ({ exLua with stack := [exReleased, .string "Quit"] } : LuaState).GetTop
      = some (.ok []) ∧
    (call exRefusing [.Release 7] { exLua with stack := [exReleased, .string "Quit"] }).map
        (fun r => r.1)
      = some ([.Release 7] ++ [.CallMethod none "Quit" []]) :=
  ⟨by rfl, by rfl,
    (released_capsule_reaches_provider exRefusing [.Release 7]
      { exLua with stack := [exReleased, .string "Quit"] } none "Quit" []
      (by rfl) (by rfl) (by rfl)).1⟩

/-- C4 as stated fails: after the finalizer has run on a capsule, `_call` passes
the nil reference to the provider's `CallMethod`, and `_set` passes it to
`PutProperty` and answers `(true, nil)`, not `(nil, message)`. -/
theorem released_capsule_not_rejected :
    gc [] { exLua with stack := [exCapsule] }
      = some ([.Release 7], { exLua with stack := [exReleased] }, 0) ∧
    (call exRefusing [.Release 7] { exLua with stack := [exReleased, .string "Quit"] }).map
        (fun r => r.1)
      = some [.Release 7, .CallMethod none "Quit" []] ∧
    set exRefusing [.Release 7]
        { exLua with stack := [exReleased, .string "Visible", .boolean true] }
      = some ([.Release 7, .PutProperty none "Visible" [.bool true]],
          { exLua with stack :=
            [exReleased, .string "Visible", .boolean true, .boolean true, .nil] }, 2) := by
  refine ⟨?_, ?_, ?_⟩ <;> rfl

/-- On a frame that holds the receiver alone, without a member name, the verbs
fault: `lua2interfaceS` is asked for the indices 3 to 1 and allocates a slice of
negative capacity. -/
theorem verbs_fault_without_name (P : Provider) (tr : List Event) (L : LuaState)
    (d : Option Nat) (meta : Option (List (LKey × LValue))) :
    call P tr { L with stack := [.userdata d meta] } = none ∧
    set P tr { L with stack := [.userdata d meta] } = none ∧
    get P tr { L with stack := [.userdata d meta] } = none := by
  refine ⟨?_, ?_, ?_⟩ <;>
  simp [call, set, get, ToUserData, LuaState.index, LuaState.pos, LuaState.ToString,
    LValue.ToString, lua2interfaceS, LuaState.GetTop]

/-- C5: the finalizer is idempotent.  On a frame whose first value is a capsule,
`gc` succeeds and leaves the capsule with a nil `Data`; the provider's `Release`
is called once when `Data` was a reference and not at all when it was nil; a
second run of `gc` changes nothing and calls nothing. -/
theorem gc_idempotent (tr : List Event) (L : LuaState) (rest : List LValue)
    (Data : Option Nat) (meta : Option (List (LKey × LValue))) :
    ∃ tr1 L1,
      gc tr { L with stack := .userdata Data meta :: rest } = some (tr1, L1, 0) ∧
      L1 = { L with stack := .userdata none meta :: rest } ∧
      tr1 = tr ++ (match Data with
        | some d => [Event.Release d]
        | none => []) ∧
      gc tr1 L1 = some (tr1, L1, 0) := by
  cases Data with
  | none =>
    refine ⟨tr, { L with stack := .userdata none meta :: rest }, ?_, rfl, by simp, ?_⟩ <;>
    simp [gc, LuaState.index, LuaState.pos]
  | some d =>
    refine ⟨tr ++ [.Release d], { L with stack := .userdata none meta :: rest },
      ?_, rfl, by simp, ?_⟩ <;>
    simp [gc, LuaState.index, LuaState.pos, LuaState.modify]

/-- C6 fails on `set`: with a live capsule and a provider whose `PutProperty`
reports an error, `set` still answers `(true, nil)`, while `call` and `get`
answer `(nil, message)` for the same provider. -/
theorem set_ignores_provider_error :
    exRefusing.PutProperty [] (some 7) "Visible" [.bool true] = .error "E_FAIL" ∧
    set exRefusing [] { exLua with stack := [exCapsule, .string "Visible", .boolean true] }
      = some ([.PutProperty (some 7) "Visible" [.bool true]],
          { exLua with stack :=
            [exCapsule, .string "Visible", .boolean true, .boolean true, .nil] }, 2) ∧
    call exRefusing [] { exLua with stack := [exCapsule, .string "Quit"] }
      = some ([.CallMethod (some 7) "Quit" []],
          { exLua with stack := [exCapsule, .string "Quit", .nil, .string "E_FAIL"] }, 2) ∧
    get exRefusing [] { exLua with stack := [exCapsule, .string "Visible"] }
      = some ([.GetProperty (some 7) "Visible" []],
          { exLua with stack := [exCapsule, .string "Visible", .nil, .string "E_FAIL"] }, 2) := by
  refine ⟨?_, ?_, ?_, ?_⟩ <;> rfl

end ole

/-! ## Lemmas on the hook adapters -/

theorem push_object (L : LuaState) (o : Object) :
    (L.Push [.object o]).1 = { L with stack := L.stack ++ [pushObject o] } := by
  simp [LuaState.Push, GoValue.toLua]

/-- The walk of `newArgHook` over a table without `__index` handler whose keys
`i`, `i+1`, ... hold the values `vals` and whose next key is absent returns,
within the fuel, the strings of the values that convert; no handler runs. -/
theorem newArgsLoop_dense (H : Host) (tr : List Event) (st : List LValue)
    (fs : List (LKey × LValue)) (meta : Option (List (LKey × LValue)))
    (hidx : (LValue.table fs meta).metaIndex = .nil) :
    ∀ (vals : List LValue) (g : Globals) (L : LuaState) (i : Nat) (acc : List String)
      (fuel : Nat),
      (∀ j v, vals[j]? = some v →
        fieldGet fs (.int ((i + j : Nat) : Int)) = v ∧ v.GetType ≠ .LUA_TNIL) →
      fieldGet fs (.int ((i + vals.length : Nat) : Int)) = .nil →
      vals.length < fuel →
      ∃ g1, newArgsLoop H fuel g tr { L with stack := st ++ [.table fs meta] } (i : Int) acc =
        some (g1, tr, { L with stack := st ++ [.table fs meta, .nil] },
          acc ++ vals.filterMap LValue.stringOk) := by
  intro vals
  induction vals with
  | nil =>
    intro g L i acc fuel _ hgap hfuel
    obtain ⟨f, rfl⟩ : ∃ f, fuel = f + 1 := ⟨fuel - 1, by simp at hfuel; omega⟩
    refine ⟨g, ?_⟩
    simp only [List.length_nil, Nat.add_zero] at hgap
    simp [newArgsLoop, getTable_top H tr _ st fs meta _ hidx, hgap, LuaState.GetType,
      index_top2, LValue.GetType]
  | cons v vs ih =>
    intro g L i acc fuel hdense hgap hfuel
    obtain ⟨f, rfl⟩ : ∃ f, fuel = f + 1 := ⟨fuel - 1, by simp at hfuel; omega⟩
    have h0 := hdense 0 v (by simp)
    simp only [Nat.add_zero] at h0
    have hdense1 : ∀ j w, vs[j]? = some w →
        fieldGet fs (.int ((i + 1 + j : Nat) : Int)) = w ∧ w.GetType ≠ .LUA_TNIL := by
      intro j w hj
      have := hdense (j + 1) w (by simpa using hj)
      have e : i + (j + 1) = i + 1 + j := by omega
      rwa [e] at this
    have hgap1 : fieldGet fs (.int ((i + 1 + vs.length : Nat) : Int)) = .nil := by
      have e : i + (v :: vs).length = i + 1 + vs.length := by simp; omega
      rwa [e] at hgap
    have hfuel1 : vs.length < f := by simp at hfuel; omega
    have hcast : ((i : Int) + 1) = ((i + 1 : Nat) : Int) := by push_cast; rfl
    cases hs : v.ToString with
    | ok s =>
      obtain ⟨g1, hg1⟩ := ih g L (i + 1) (acc ++ [s]) f hdense1 hgap1 hfuel1
      refine ⟨g1, ?_⟩
      simp only [newArgsLoop, getTable_top H tr _ st fs meta _ hidx, h0.1, LuaState.GetType,
        index_top2, h0.2, if_false, LuaState.ToString, hs, pop_top2, hcast, hg1]
      simp [LValue.stringOk, hs]
    | error e =>
      obtain ⟨g1, hg1⟩ := ih { g with stderr := g.stderr ++ [e] } L (i + 1) acc f hdense1
        hgap1 hfuel1
      refine ⟨g1, ?_⟩
      simp only [newArgsLoop, getTable_top H tr _ st fs meta _ hidx, h0.1, LuaState.GetType,
        index_top2, h0.2, if_false, LuaState.ToString, hs, pop_top2, hcast, hg1]
      simp [LValue.stringOk, hs]

/-! ## The hook adapters: claims C7 to C9 -/

/-- C7 fails on `on_command_not_found`: when the call of the installed script
function fails, the adapter returns the error it was given and never calls the
saved handler, which here would have answered nil; `newArgHook` on the same
failure does call its saved handler with the original arguments. -/
theorem on_command_not_found_skips_previous :
    on_command_not_found (exHost (.error "boom")) exHooked [] exLua exCmd (some "not found")
      = ([.script (.function [2]) [.table [(.int 1, .string "-l"), (.int 0, .string "ls")] none]],
          { exLua with stack := [] }, some "not found") ∧
    (exHost (.error "boom")).orgOnCommandNotFound
        [.script (.function [2]) [.table [(.int 1, .string "-l"), (.int 0, .string "ls")] none]]
        exCmd (some "not found") = none ∧
    (newArgHook (exHost (.error "boom")) exHooked [] exLua exCmd ["ls", "-l"] 8).map
        (fun r => (r.2.1, r.2.2.2))
      = some ([.script (.function [1])
            [.table [(.int 1, .string "-l"), (.int 0, .string "ls")] none],
          .orgArgHook exCmd ["ls", "-l"]], (["ls", "-l"], none)) := by
  refine ⟨?_, ?_, ?_⟩ <;> rfl

/-- C8 (amended): when the context holds the runtime in its `Tag` and the stored
hook value is not a function, each adapter calls the saved handler exactly once,
with the context and the arguments (or the error) it was given, returns the
handler's answer unchanged, runs no script and leaves the runtime as it was. -/
theorem noncallable_hook_falls_through (H : Host) (g : Globals) (tr : List Event)
    (L : LuaState) (it : Cmd) (args : List String) (err : Option String) (fuel : Nat)
    (htag : it.Tag = .lua) :
    ((pushObject g.luaArgsFilter).IsFunction = false →
      newArgHook H g tr L it args fuel =
        some (g, tr ++ [.orgArgHook it args], L, H.orgArgHook tr it args)) ∧
    ((pushObject g.luaOnCommandNotFound).IsFunction = false →
      on_command_not_found H g tr L it err =
        (tr ++ [.orgOnCommandNotFound it err], L, H.orgOnCommandNotFound tr it err)) := by
  constructor
  · intro hfun
    have hL : ({ L with stack := L.stack ++ [pushObject g.luaArgsFilter] } : LuaState).Pop 1
        = L := pop_top L L.stack _
    simp [newArgHook, htag, push_object, LuaState.IsFunction, index_top, hfun, hL]
  · intro hfun
    have hL : ({ L with stack := L.stack ++ [pushObject g.luaOnCommandNotFound] }
        : LuaState).Pop 1 = L := pop_top L L.stack _
    simp [on_command_not_found, htag, push_object, LuaState.IsFunction, index_top, hfun, hL]

/-- Witness of C8 (amended): at start-up both hook slots hold nil. -/
theorem noncallable_hook_falls_through_witness :
    exCmd.Tag = .lua ∧
    (pushObject exGlobals.luaArgsFilter).IsFunction = false ∧
    newArgHook (exHost (.ok [])) exGlobals [] exLua exCmd ["ls", "-l"] 8 =
      some (exGlobals, [] ++ [.orgArgHook exCmd ["ls", "-l"]], exLua,
        (exHost (.ok [])).orgArgHook [] exCmd ["ls", "-l"]) :=
  ⟨by rfl, by rfl,
    (noncallable_hook_falls_through (exHost (.ok [])) exGlobals [] exLua exCmd ["ls", "-l"]
      (some "not found") 8 (by rfl)).1 (by rfl)⟩

/-- C8 as stated fails: on a context whose `Tag` holds no runtime the adapters
return their own error and the saved handler is not called, whatever the stored
hook value. -/
theorem hook_without_runtime_skips_previous :
    newArgHook (exHost (.ok [])) exGlobals [] exLua exCmdNoTag ["ls", "-l"] 8 =
      some (exGlobals, [], exLua, ([], some "Could not get lua instance(newArgHook)")) ∧
    on_command_not_found (exHost (.ok [])) exGlobals [] exLua exCmdNoTag (some "not found") =
      ([], exLua, some "Could get lua instance(on_command_not_found)") := by
  refine ⟨?_, ?_⟩ <;> rfl

/-- C9 (amended): when the argument filter returns a table that carries no
`__index` handler, `newArgHook` hands the saved handler the dense segment that
starts at key 0: with values under the keys 0 to N-1 and no value under key N,
the walk ends after N+1 rounds, the vector is the strings of those values in
key order (a value whose conversion fails is left out), and the adapter returns
the handler's answer. -/
theorem argsfilter_table_from_zero (H : Host) (g : Globals) (tr tr1 : List Event)
    (L L1 : LuaState) (it : Cmd) (args : List String) (fs : List (LKey × LValue))
    (meta : Option (List (LKey × LValue))) (vals : List LValue) (fuel : Nat)
    (htag : it.Tag = .lua)
    (hfun : (pushObject g.luaArgsFilter).IsFunction = true)
    (hcall : LuaState.Call H tr
      (pushArgs ((L.Push [.object g.luaArgsFilter]).1.NewTable) args 0) 1 1 = (tr1, L1, none))
    (htable : L1.index (-1) = .table fs meta)
    (hidx : (LValue.table fs meta).metaIndex = .nil)
    (hdense : ∀ j v, vals[j]? = some v →
      fieldGet fs (.int ((j : Nat) : Int)) = v ∧ v.GetType ≠ .LUA_TNIL)
    (hgap : fieldGet fs (.int ((vals.length : Nat) : Int)) = .nil)
    (hfuel : vals.length < fuel) :
    ∃ g1 L2, newArgHook H g tr L it args fuel =
      some (g1, tr1 ++ [.orgArgHook it (vals.filterMap LValue.stringOk)], L2,
        H.orgArgHook tr1 it (vals.filterMap LValue.stringOk)) := by
  obtain ⟨st, hst⟩ := stack_of_index_top L1 _ htable (by simp)
  have hL1 : L1 = { L1 with stack := st ++ [.table fs meta] } := by
    cases L1
    simp only [LuaState.mk.injEq, and_true, true_and] at hst ⊢
    simpa using hst
  obtain ⟨g1, hloop⟩ := newArgsLoop_dense H tr1 st fs meta hidx vals g L1 0 [] fuel
    (by simpa using hdense) (by simpa using hgap) hfuel
  refine ⟨g1, { L1 with stack := st ++ [.table fs meta, .nil] }, ?_⟩
  have hfun1 : ((L.Push [.object g.luaArgsFilter]).1.IsFunction (-1)) = true := by
    rw [push_object]
    simp [LuaState.IsFunction, index_top, hfun]
  have hty : L1.GetType (-1) = .LUA_TTABLE := by simp [LuaState.GetType, htable, LValue.GetType]
  simp only [newArgHook, htag, ne_eq, not_true_eq_false, if_false, hfun1, Bool.not_true,
    Bool.false_eq_true, hcall, hty]
  rw [hL1] at hloop ⊢
  simp only [Nat.cast_zero] at hloop
  simp [hloop]

/-- Witness of C9 (amended): the filter returns the table with the keys 0, 1, 2
and 4; the handler receives the strings under 0, 1 and 2. -/
theorem argsfilter_table_from_zero_witness :
    exCmd.Tag = .lua ∧
    (pushObject exHooked.luaArgsFilter).IsFunction = true ∧
    exTable0124.metaIndex = .nil ∧
    ∃ g1 L2, newArgHook (exHost (.ok [exTable0124])) exHooked [] exLua exCmd ["ls", "-l"] 4 =
      some (g1,
        [.script (.function [1]) [.table [(.int 1, .string "-l"), (.int 0, .string "ls")] none]]
          ++ [.orgArgHook exCmd
            ([LValue.string "x", .string "echo", .string "hi"].filterMap LValue.stringOk)],
        L2,
        (exHost (.ok [exTable0124])).orgArgHook
          [.script (.function [1]) [.table [(.int 1, .string "-l"), (.int 0, .string "ls")] none]]
          exCmd ([LValue.string "x", .string "echo", .string "hi"].filterMap LValue.stringOk)) :=
  ⟨by rfl, by rfl, by rfl,
    argsfilter_table_from_zero (exHost (.ok [exTable0124])) exHooked []
      [.script (.function [1]) [.table [(.int 1, .string "-l"), (.int 0, .string "ls")] none]]
      exLua { exLua with stack := [exTable0124] } exCmd ["ls", "-l"]
      [(.int 0, .string "x"), (.int 1, .string "echo"), (.int 2, .string "hi"),
        (.int 4, .string "z")] none
      [.string "x", .string "echo", .string "hi"] 4
      (by rfl) (by rfl) (by rfl) (by rfl) (by rfl)
      (by
        intro j v hj
        rcases j with _ | _ | _ | j
        · simp at hj
          subst hj
          exact ⟨by rfl, by decide⟩
        · simp at hj
          subst hj
          exact ⟨by rfl, by decide⟩
        · simp at hj
          subst hj
          exact ⟨by rfl, by decide⟩
        · simp at hj)
      (by rfl) (by decide)⟩

/-- C9 as stated fails.  For the returned table `{"a", "b"}` (keys 1 and 2, no
key 0) the saved handler receives the empty vector, not the values at the keys
1 to 2.  And the walk reads through the `__index` handler: for the table with
`a` and `b` under the keys 0 and 1 whose handler is a table with `c` under key
2, the saved handler receives the three strings. -/
theorem argsfilter_table_without_zero :
    (newArgHook (exHost (.ok [exTable12])) exHooked [] exLua exCmd ["ls", "-l"] 8).map
        (fun r => (r.2.1, r.2.2.2))
      = some ([.script (.function [1])
            [.table [(.int 1, .string "-l"), (.int 0, .string "ls")] none],
          .orgArgHook exCmd []], ([], none)) ∧
    (newArgHook (exHost (.ok [exTable01Indexed])) exHooked [] exLua exCmd ["ls", "-l"] 8).map
        (fun r => (r.2.1, r.2.2.2))
      = some ([.script (.function [1])
            [.table [(.int 1, .string "-l"), (.int 0, .string "ls")] none],
          .orgArgHook exCmd ["a", "b", "c"]], (["a", "b", "c"], none)) := by
  refine ⟨?_, ?_⟩ <;> rfl


/-! ## The alias executor: claim C10 -/

/-- The walk of `LuaBinaryChank.Call` over a table without `__index` handler
whose keys `i`, `i+1`, ... hold the strings `strs` and whose next key is absent
returns, within the fuel, those strings in key order; no handler runs. -/
theorem callArgsLoop_dense (H : Host) (tr : List Event) (st : List LValue)
    (fs : List (LKey × LValue)) (meta : Option (List (LKey × LValue)))
    (hidx : (LValue.table fs meta).metaIndex = .nil) :
    ∀ (strs : List String) (L : LuaState) (i : Nat) (acc : List String) (fuel : Nat),
      (∀ j s, strs[j]? = some s → fieldGet fs (.int ((i + j : Nat) : Int)) = .string s) →
      fieldGet fs (.int ((i + strs.length : Nat) : Int)) = .nil →
      strs.length < fuel →
      callArgsLoop H fuel tr { L with stack := st ++ [.table fs meta] } (i : Int) acc =
        some (tr, { L with stack := st ++ [.table fs meta] }, acc ++ strs) := by
  intro strs
  induction strs with
  | nil =>
    intro L i acc fuel _ hgap hfuel
    obtain ⟨f, rfl⟩ : ∃ f, fuel = f + 1 := ⟨fuel - 1, by simp at hfuel; omega⟩
    simp only [List.length_nil, Nat.add_zero] at hgap
    simp [callArgsLoop, getTable_top H tr _ st fs meta _ hidx, hgap, LuaState.IsNil, index_top2,
      LValue.IsNil, LValue.GetType, pop_top2]
  | cons s ss ih =>
    intro L i acc fuel hdense hgap hfuel
    obtain ⟨f, rfl⟩ : ∃ f, fuel = f + 1 := ⟨fuel - 1, by simp at hfuel; omega⟩
    have h0 := hdense 0 s (by simp)
    simp only [Nat.add_zero] at h0
    have hdense1 : ∀ j w, ss[j]? = some w →
        fieldGet fs (.int ((i + 1 + j : Nat) : Int)) = .string w := by
      intro j w hj
      have := hdense (j + 1) w (by simpa using hj)
      have e : i + (j + 1) = i + 1 + j := by omega
      rwa [e] at this
    have hgap1 : fieldGet fs (.int ((i + 1 + ss.length : Nat) : Int)) = .nil := by
      have e : i + (s :: ss).length = i + 1 + ss.length := by simp; omega
      rwa [e] at hgap
    have hfuel1 : ss.length < f := by simp at hfuel; omega
    have hcast : ((i : Int) + 1) = ((i + 1 : Nat) : Int) := by push_cast; rfl
    have hih := ih L (i + 1) (acc ++ [s]) f hdense1 hgap1 hfuel1
    simp only [callArgsLoop, getTable_top H tr _ st fs meta _ hidx, h0, LuaState.IsNil,
      index_top2, LValue.IsNil, LValue.GetType, LuaState.ToString, LValue.ToString, pop_top2,
      hcast, hih]
    simp

/-- C10 (amended): when the alias script returns a table that carries no
`__index` handler, with strings under the keys 1 to N and nothing under key
N+1, and the clone of the context succeeds, `LuaBinaryChank.Call` returns after
N+1 rounds of the walk: it spawns the clone with the vector made of the
non-empty string under key 0, when there is one, followed by the strings under
1 to N, and returns the exit level and error of that spawn. -/
theorem alias_table_spawns (H : Host) (this : LuaBinaryChank) (tr tr1 : List Event)
    (L Lp L1 : LuaState) (cmd it : Cmd) (fs : List (LKey × LValue))
    (meta : Option (List (LKey × LValue))) (strs : List String) (fuel : Nat)
    (htag : cmd.Tag = .lua)
    (hprep : this.prepare H tr L cmd = some (Lp, none))
    (hcall : NyagosCallLua H tr Lp cmd 1 1 = (tr1, L1, none))
    (htable : L1.index (-1) = .table fs meta)
    (hidx : (LValue.table fs meta).metaIndex = .nil)
    (hdense : ∀ j s, strs[j]? = some s → fieldGet fs (.int ((j + 1 : Nat) : Int)) = .string s)
    (hgap : fieldGet fs (.int ((strs.length + 1 : Nat) : Int)) = .nil)
    (hclone : H.Clone tr1 cmd = .ok it)
    (hfuel : strs.length < fuel) :
    ∃ L2, this.Call H tr L cmd fuel =
      some (tr1 ++ [.Clone cmd, .SpawnvpContext { it with Args :=
          (match (fieldGet fs (.int 0)).ToString with
            | .ok val => if val ≠ "" then [val] else []
            | .error _ => []) ++ strs }],
        L2,
        H.SpawnvpContext (tr1 ++ [.Clone cmd]) { it with Args :=
          (match (fieldGet fs (.int 0)).ToString with
            | .ok val => if val ≠ "" then [val] else []
            | .error _ => []) ++ strs }) := by
  obtain ⟨st, hst⟩ := stack_of_index_top L1 _ htable (by simp)
  have hL1 : L1 = { L1 with stack := st ++ [.table fs meta] } := by
    cases L1
    simp only [LuaState.mk.injEq, and_true, true_and] at hst ⊢
    simpa using hst
  have hloop := fun acc => callArgsLoop_dense H tr1 st fs meta hidx strs L1 1 acc fuel
    (by
      intro j s hj
      have := hdense j s hj
      have e : 1 + j = j + 1 := by omega
      rwa [e])
    (by
      have e : 1 + strs.length = strs.length + 1 := by omega
      rwa [e])
    hfuel
  refine ⟨{ L1 with stack := st }, ?_⟩
  have hinterp : LuaBinaryChank.interpret H tr1 L1 cmd fuel =
      some (tr1 ++ [.Clone cmd, .SpawnvpContext { it with Args :=
          (match (fieldGet fs (.int 0)).ToString with
            | .ok val => if val ≠ "" then [val] else []
            | .error _ => []) ++ strs }],
        { L1 with stack := st ++ [.table fs meta] },
        H.SpawnvpContext (tr1 ++ [.Clone cmd]) { it with Args :=
          (match (fieldGet fs (.int 0)).ToString with
            | .ok val => if val ≠ "" then [val] else []
            | .error _ => []) ++ strs }) := by
    rw [hL1]
    simp only [LuaBinaryChank.interpret, LuaState.IsTable, index_top, LValue.IsTable,
      LValue.GetType, decide_True, if_true, getTable_top H tr1 _ st fs meta _ hidx,
      LuaState.ToString, index_top2, pop_top2, Nat.cast_one] at hloop ⊢
    simp only [hloop, hclone]
  simp only [LuaBinaryChank.Call, htag, ne_eq, not_true_eq_false, if_false, hprep, hcall,
    hinterp]
  rw [pop_top]

/-- Witness of C10 (amended): the alias script returns `{"a", "b"}`; the clone
is spawned with exactly these two strings and the exit level of the spawn, 2
for the example host, is returned. -/
theorem alias_table_spawns_witness :
    exCmd.Tag = .lua ∧
    exTable12.metaIndex = .nil ∧
    (exHost (.ok [exTable12])).Clone exAliasCalled.1 exCmd = .ok exCmd ∧
    ∃ L2, exAlias.Call (exHost (.ok [exTable12])) [] exLua exCmd 3 =
      some (exAliasCalled.1 ++ [.Clone exCmd, .SpawnvpContext { exCmd with Args := ["a", "b"] }],
        L2, (2, none)) :=
  ⟨by rfl, by rfl, by rfl,
    alias_table_spawns (exHost (.ok [exTable12])) exAlias [] exAliasCalled.1 exLua
      exAliasPrepared exAliasCalled.2.1 exCmd exCmd
      [(.int 1, .string "a"), (.int 2, .string "b")] none ["a", "b"] 3
      (by rfl) (by rfl) (by rfl) (by rfl) (by rfl)
      (by
        intro j s hj
        rcases j with _ | _ | j
        · simp at hj
          subst hj
          rfl
        · simp at hj
          subst hj
          rfl
        · simp at hj)
      (by rfl) (by rfl) (by decide)⟩

/-- C10 as stated fails.  For a returned table with the strings `echo` and `hi`
under the keys 1 and 2, no key 3, and the string `x` under key 0, the clone is
spawned with the three strings `x`, `echo`, `hi`, not with the two under 1 and
2 (the example host reports the exit level 3, the length of what it ran).  And
the walk reads through the `__index` handler: for the table `{"a", "b"}` whose
handler is a table with `c` under key 3, the clone is spawned with the three
strings `a`, `b`, `c`. -/
theorem alias_table_key_zero_goes_first :
    (exAlias.Call (exHost (.ok [exTable0124])) [] exLua exCmd 8).map
        (fun r => (r.1.drop 1, r.2.2))
      = some ([.Clone exCmd, .SpawnvpContext { exCmd with Args := ["x", "echo", "hi"] }],
          (3, none)) ∧
    (exAlias.Call (exHost (.ok [exTable12Indexed])) [] exLua exCmd 8).map
        (fun r => (r.1.drop 1, r.2.2))
      = some ([.Clone exCmd, .SpawnvpContext { exCmd with Args := ["a", "b", "c"] }],
          (3, none)) := by
  refine ⟨?_, ?_⟩ <;> rfl

/-! ## External-object handles: claims C15 and C16 -/

namespace ole

/-- C15 (amended): when the first argument is neither a userdata block nor a
light userdata that carries a pointer, so that `L.ToUserData(1)` is the nil
pointer, each of `call`, `get` and `set` returns the two values
`(nil, message)` and the provider is not called: the trace is unchanged. -/
theorem null_receiver_rejected (P : Provider) (tr : List Event) (L : LuaState)
    (hblock : ∀ d meta, L.index 1 ≠ .userdata d meta)
    (hlight : ∀ cmd, L.index 1 ≠ .lightuserdata (some cmd)) :
    call P tr L
      = some (tr, L.Push [.nil, .string "OLEOBJECT._call: the receiver is null"]) ∧
    set P tr L
      = some (tr, L.Push [.nil, .string "OLEOBJECT._set: the receiver is null"]) ∧
    get P tr L
      = some (tr, L.Push [.nil, .string "OLEOBJECT._set: the receiver is null"]) ∧
    (L.Push [.nil, .string "OLEOBJECT._call: the receiver is null"]).2 = 2 := by
  have hnull : ToUserData P (L.index 1) = none := by
    cases hv : L.index 1 with
    | userdata d meta => exact absurd hv (hblock d meta)
    | lightuserdata ptr =>
      cases ptr with
      | none => rfl
      | some cmd => exact absurd hv (hlight cmd)
    | _ => rfl
  refine ⟨?_, ?_, ?_, rfl⟩
  · simp only [call, hnull]
  · simp only [set, hnull]
  · simp only [get, hnull]

/-- Witness of C15 (amended): `obj._call(nil, "Quit")`. -/
theorem null_receiver_rejected_witness :
    (∀ d meta, ({ exLua with stack := [.nil, .string "Quit"] } : LuaState).index 1
      ≠ .userdata d meta) ∧
    (∀ cmd, ({ exLua with stack := [.nil, .string "Quit"] } : LuaState).index 1
      ≠ .lightuserdata (some cmd)) ∧
    call exRefusing [] { exLua with stack := [.nil, .string "Quit"] } =
      some ([], ({ exLua with stack := [.nil, .string "Quit"] } : LuaState).Push
        [.nil, .string "OLEOBJECT._call: the receiver is null"]) :=
  ⟨by simp [LuaState.index, LuaState.pos], by simp [LuaState.index, LuaState.pos],
    (null_receiver_rejected exRefusing [] { exLua with stack := [.nil, .string "Quit"] }
      (by simp [LuaState.index, LuaState.pos]) (by simp [LuaState.index, LuaState.pos])).1⟩

/-- C15 as stated fails: with the pointer of a command context at argument 1, a
light userdata and no capsule, the verbs do not answer with the null-receiver
message.  `L.ToUserData(1)` gives the pointer, which is not nil, and each verb
hands what it reads behind it to the provider: the trace holds the provider
call, and `set` answers `(true, nil)`. -/
theorem light_userdata_receiver_reaches_provider :
    call exRefusing [] { exLua with stack := [.lightuserdata (some exCmd), .string "Quit"] }
      = some ([.CallMethod (some 0) "Quit" []],
          { exLua with stack :=
            [.lightuserdata (some exCmd), .string "Quit", .nil, .string "E_FAIL"] }, 2) ∧
    get exRefusing [] { exLua with stack := [.lightuserdata (some exCmd), .string "Visible"] }
      = some ([.GetProperty (some 0) "Visible" []],
          { exLua with stack :=
            [.lightuserdata (some exCmd), .string "Visible", .nil, .string "E_FAIL"] }, 2) ∧
    set exRefusing []
        { exLua with stack := [.lightuserdata (some exCmd), .string "Visible", .boolean true] }
      = some ([.PutProperty (some 0) "Visible" [.bool true]],
          { exLua with stack := [.lightuserdata (some exCmd), .string "Visible", .boolean true,
            .boolean true, .nil] }, 2) := by
  refine ⟨?_, ?_, ?_⟩ <;> rfl

/-- C16: member access on a handle yields the function `call` for `_call`, `set`
for `_set`, `get` for `_get` and nil for every other name, whatever the handle:
the answer is a function of the name alone.  For a string name other than the
three the handler returns no value at all. -/
theorem index_three_names (L : LuaState) (obj name : LValue) :
    memberValue L obj name =
      (match name.ToString with
        | .ok s =>
          if s = "_call" then .gofunction "call"
          else if s = "_set" then .gofunction "set"
          else if s = "_get" then .gofunction "get"
          else .nil
        | .error _ => .nil) ∧
    (∀ s, name = .string s → s ≠ "_call" → s ≠ "_set" → s ≠ "_get" →
      index { L with stack := [obj, name] } = ({ L with stack := [obj, name] }, 0)) := by
  constructor
  · unfold memberValue index
    have h2 : ({ L with stack := [obj, name] } : LuaState).ToString 2 = name.ToString := by
      simp [LuaState.ToString, LuaState.index, LuaState.pos]
    rw [h2]
    cases hs : name.ToString with
    | error e =>
      simp [LuaState.Push, GoValue.toLua, LuaState.index, LuaState.pos]
    | ok s =>
      by_cases h1 : s = "_call"
      · simp [h1, LuaState.Push, GoValue.toLua, LuaState.index, LuaState.pos]
      · by_cases h3 : s = "_set"
        · simp [h3, LuaState.Push, GoValue.toLua, LuaState.index, LuaState.pos]
        · by_cases h4 : s = "_get"
          · simp [h4, LuaState.Push, GoValue.toLua, LuaState.index, LuaState.pos]
          · simp [h1, h3, h4]
  · intro s hs h1 h3 h4
    subst hs
    unfold index
    have h2 : ({ L with stack := [obj, .string s] } : LuaState).ToString 2 = .ok s := by
      simp [LuaState.ToString, LuaState.index, LuaState.pos, LValue.ToString]
    rw [h2]
    simp [h1, h3, h4]

/-- Witness of C16: the member `Visible` of a live handle reads as nothing. -/
theorem index_three_names_witness :
    index { exLua with stack := [exCapsule, .string "Visible"] } =
      ({ exLua with stack := [exCapsule, .string "Visible"] }, 0) :=
  (index_three_names exLua exCapsule (.string "Visible")).2 "Visible" rfl
    (by decide) (by decide) (by decide)

end ole

/-! ## The registry context slot: claim C13 -/

theorem getRegInt_setRegInt (L : LuaState) (it : Option Cmd) :
    getRegInt (setRegInt L it) = it := by
  simp [getRegInt, setRegInt, mapSet, mapGet]

/-- C13: `NyagosCallLua` restores the registry context slot on both exits of the
script call.  The script is run on a runtime whose slot holds `it`; when
`NyagosCallLua` returns, with the error of the call or with nil, `getRegInt`
yields the context it yielded on entry, whatever the script did to the slot. -/
theorem NyagosCallLua_restores_slot (H : Host) (tr : List Event) (L : LuaState) (it : Cmd)
    (nargs nresult : Nat) :
    getRegInt (NyagosCallLua H tr L it nargs nresult).2.1 = getRegInt L ∧
    getRegInt ((setRegInt L (some it)).Pop (nargs + 1)) = some it ∧
    (NyagosCallLua H tr L it nargs nresult).1 =
      tr ++ [.script ((setRegInt L (some it)).index (-((nargs : Int) + 1)))
        ((setRegInt L (some it)).stack.drop ((setRegInt L (some it)).stack.length - nargs))] ∧
    (NyagosCallLua H tr L it nargs nresult).2.2 =
      (match (H.pcall tr ((setRegInt L (some it)).Pop (nargs + 1))
          ((setRegInt L (some it)).index (-((nargs : Int) + 1)))
          ((setRegInt L (some it)).stack.drop
            ((setRegInt L (some it)).stack.length - nargs))).2 with
        | .ok _ => none
        | .error msg => some msg) := by
  refine ⟨?_, ?_, ?_, ?_⟩
  · unfold NyagosCallLua
    simp only [getRegInt_setRegInt]
  · simp [getRegInt, setRegInt, LuaState.Pop, mapSet, mapGet]
  · simp only [NyagosCallLua, LuaState.Call]
    split <;> rfl
  · simp only [NyagosCallLua, LuaState.Call]
    split <;> simp_all

/-! ## Lemmas on reads through `__index` -/

/-- What a handler call leaves: the call is the one event added, the stack is
the one it was made on, and the default streams are those the script left. -/
theorem callIndex_inv (H : Host) (tr : List Event) (L : LuaState) (h t k : LValue)
    (r : List Event × LuaState × LValue) (hr : callIndex H tr L h t k = some r) :
    r.1 = tr ++ [.script h [t, k]] ∧ r.2.1.stack = L.stack ∧
    r.2.1.ioOutput = (H.pcall tr L h [t, k]).1.ioOutput ∧
    r.2.1.ioInput = (H.pcall tr L h [t, k]).1.ioInput := by
  unfold callIndex at hr
  split at hr
  · rename_i L1 results heq
    injection hr with hr
    subst hr
    rw [heq]
    exact ⟨rfl, rfl, rfl, rfl⟩
  · cases hr

/-- A read adds script calls only to the trace, leaves the stack alone, and
leaves the default streams alone when every script call does. -/
theorem gettable_inv (H : Host) :
    ∀ (loop : Nat) (tr : List Event) (L : LuaState) (t k : LValue)
      (r : List Event × LuaState × LValue),
      gettable H loop tr L t k = some r →
      (∃ evs, r.1 = tr ++ evs ∧ ∀ ev ∈ evs, ∃ f args, ev = Event.script f args) ∧
      r.2.1.stack = L.stack ∧
      ((∀ tr1 L1 f a, (H.pcall tr1 L1 f a).1.ioOutput = L1.ioOutput ∧
          (H.pcall tr1 L1 f a).1.ioInput = L1.ioInput) →
        r.2.1.ioOutput = L.ioOutput ∧ r.2.1.ioInput = L.ioInput) := by
  intro loop
  induction loop with
  | zero =>
    intro tr L t k r hr
    simp [gettable] at hr
  | succ n ih =>
    intro tr L t k r hr
    unfold gettable at hr
    split at hr
    · split at hr
      · have hsame : r = (tr, L, .nil) := by
          unfold indexNoHandler at hr
          split at hr <;> first | (injection hr with hr; exact hr.symm) | cases hr
        subst hsame
        exact ⟨⟨[], by simp, by simp⟩, rfl, fun _ => ⟨rfl, rfl⟩⟩
      · split at hr
        · obtain ⟨h1, h2, h3, h4⟩ := callIndex_inv H tr L _ t k r hr
          refine ⟨⟨_, h1, ?_⟩, h2, ?_⟩
          · intro ev hev
            simp only [List.mem_singleton] at hev
            exact ⟨_, _, hev⟩
          · intro hs
            have := hs tr L t.metaIndex [t, k]
            exact ⟨h3.trans this.1, h4.trans this.2⟩
        · exact ih tr L _ k r hr
    · injection hr with hr
      subst hr
      exact ⟨⟨[], by simp, by simp⟩, rfl, fun _ => ⟨rfl, rfl⟩⟩

/-- The same for the stack operation `GetTable`. -/
theorem GetTable_inv (H : Host) (tr : List Event) (L : LuaState) (i : Int)
    (r : List Event × LuaState) (hr : L.GetTable H tr i = some r) :
    (∃ evs, r.1 = tr ++ evs ∧ ∀ ev ∈ evs, ∃ f args, ev = Event.script f args) ∧
    ((∀ tr1 L1 f a, (H.pcall tr1 L1 f a).1.ioOutput = L1.ioOutput ∧
        (H.pcall tr1 L1 f a).1.ioInput = L1.ioInput) →
      r.2.ioOutput = L.ioOutput ∧ r.2.ioInput = L.ioInput) := by
  unfold LuaState.GetTable at hr
  split at hr
  · cases hr
  · rename_i tr2 L2 v heq
    injection hr with hr
    subst hr
    obtain ⟨h1, _, h3⟩ := gettable_inv H _ _ _ _ _ _ heq
    exact ⟨h1, fun hs => h3 hs⟩

/-- The walk of `LuaBinaryChank.Call`, when it ends, has added script calls
only to the trace and has left the default streams alone when every script call
does. -/
theorem callArgsLoop_inv (H : Host) :
    ∀ (fuel : Nat) (tr : List Event) (L : LuaState) (i : Int) (acc : List String)
      (r : List Event × LuaState × List String),
      callArgsLoop H fuel tr L i acc = some r →
      (∃ evs, r.1 = tr ++ evs ∧ ∀ ev ∈ evs, ∃ f args, ev = Event.script f args) ∧
      ((∀ tr1 L1 f a, (H.pcall tr1 L1 f a).1.ioOutput = L1.ioOutput ∧
          (H.pcall tr1 L1 f a).1.ioInput = L1.ioInput) →
        r.2.1.ioOutput = L.ioOutput ∧ r.2.1.ioInput = L.ioInput) := by
  intro fuel
  induction fuel with
  | zero =>
    intro tr L i acc r hr
    simp [callArgsLoop] at hr
  | succ n ih =>
    intro tr L i acc r hr
    unfold callArgsLoop at hr
    simp only at hr
    split at hr
    · cases hr
    · rename_i tr2 L2 heq
      obtain ⟨⟨evs, hevs, hall⟩, hstream⟩ := GetTable_inv H tr _ (-2) _ heq
      simp only at hevs hstream
      split at hr
      · injection hr with hr
        subst hr
        exact ⟨⟨evs, hevs, hall⟩, fun hs => hstream hs⟩
      · split at hr
        · injection hr with hr
          subst hr
          exact ⟨⟨evs, hevs, hall⟩, fun hs => hstream hs⟩
        · obtain ⟨⟨evs2, hevs2, hall2⟩, hstream2⟩ := ih _ _ _ _ _ hr
          refine ⟨⟨evs ++ evs2, ?_, ?_⟩, ?_⟩
          · rw [hevs2, hevs, List.append_assoc]
          · intro ev hev
            rcases List.mem_append.1 hev with h | h
            · exact hall ev h
            · exact hall2 ev h
          · intro hs
            have a := hstream hs
            have b := hstream2 hs
            exact ⟨b.1.trans a.1, b.2.trans a.2⟩
/-! ## The alias executor: claims C11, C12 and C14 -/

/-- C11: when the script call of an alias succeeds and leaves an integer `n` on
the stack, `LuaBinaryChank.Call` returns `(n, nil)`; the trace is the one the
script call left, which `NyagosCallLua` made by adding the script call alone, so
the context is not cloned and nothing is spawned or interpreted. -/
theorem alias_integer_exit_level (H : Host) (this : LuaBinaryChank) (tr tr1 : List Event)
    (L Lp L1 : LuaState) (cmd : Cmd) (n : Int) (fuel : Nat)
    (htag : cmd.Tag = .lua)
    (hprep : this.prepare H tr L cmd = some (Lp, none))
    (hcall : NyagosCallLua H tr Lp cmd 1 1 = (tr1, L1, none))
    (hint : L1.index (-1) = .integer n) :
    this.Call H tr L cmd fuel = some (tr1, L1.Pop 1, n, none) ∧
    ∃ f args, tr1 = tr ++ [.script f args] := by
  constructor
  · have hinterp : LuaBinaryChank.interpret H tr1 L1 cmd fuel = some (tr1, L1, n, none) := by
      simp [LuaBinaryChank.interpret, LuaState.IsTable, hint, LValue.IsTable, LValue.GetType,
        LuaState.ToInteger, LValue.ToInteger]
    simp only [LuaBinaryChank.Call, htag, ne_eq, not_true_eq_false, if_false, hprep, hcall,
      hinterp]
  · have h := (NyagosCallLua_restores_slot H tr Lp cmd 1 1).2.2.1
    rw [hcall] at h
    exact ⟨_, _, h⟩

/-- Witness of C11: the alias script returns 3. -/
theorem alias_integer_exit_level_witness :
    exCmd.Tag = .lua ∧
    exAlias.Call (exHost (.ok [.integer 3])) [] exLua exCmd 0 =
      some ((NyagosCallLua (exHost (.ok [.integer 3])) [] exAliasPrepared exCmd 1 1).1,
        (NyagosCallLua (exHost (.ok [.integer 3])) [] exAliasPrepared exCmd 1 1).2.1.Pop 1,
        3, none) :=
  ⟨by rfl,
    (alias_integer_exit_level (exHost (.ok [.integer 3])) exAlias []
      (NyagosCallLua (exHost (.ok [.integer 3])) [] exAliasPrepared exCmd 1 1).1
      exLua exAliasPrepared
      (NyagosCallLua (exHost (.ok [.integer 3])) [] exAliasPrepared exCmd 1 1).2.1
      exCmd 3 0 (by rfl) (by rfl) (by rfl) (by rfl)).1⟩

/-- The walk of `LuaBinaryChank.Call` over a table without `__index` handler
ends within the fuel of the field count plus one, leaving the table on top of
the stack; no handler runs. -/
theorem callArgsLoop_total (H : Host) (tr : List Event) (st : List LValue)
    (fs : List (LKey × LValue)) (meta : Option (List (LKey × LValue)))
    (hidx : (LValue.table fs meta).metaIndex = .nil) :
    ∀ (fuel k : Nat) (L : LuaState) (acc : List String),
      (∀ j, j < k → fieldGet fs (.int ((1 + j : Nat) : Int)) ≠ .nil) →
      fs.length < fuel + k →
      ∃ args, callArgsLoop H fuel tr { L with stack := st ++ [.table fs meta] }
          ((1 + k : Nat) : Int) acc =
        some (tr, { L with stack := st ++ [.table fs meta] }, args) := by
  intro fuel
  induction fuel with
  | zero =>
    intro k L acc hdense hlen
    have := dense_le_length fs k 1 hdense
    omega
  | succ f ih =>
    intro k L acc hdense hlen
    by_cases hv : fieldGet fs (.int ((1 + k : Nat) : Int)) = .nil
    · refine ⟨acc, ?_⟩
      simp only [callArgsLoop, getTable_top H tr _ st fs meta _ hidx, hv, LuaState.IsNil,
        index_top2, LValue.IsNil, LValue.GetType, pop_top2]
      simp
    · have hnil : (fieldGet fs (.int ((1 + k : Nat) : Int))).IsNil = false := by
        cases h : (fieldGet fs (.int ((1 + k : Nat) : Int))).IsNil
        · rfl
        · exact absurd ((isNil_eq_true _).1 h) hv
      cases hs : (fieldGet fs (.int ((1 + k : Nat) : Int))).ToString with
      | error e =>
        refine ⟨acc, ?_⟩
        simp only [callArgsLoop, getTable_top H tr _ st fs meta _ hidx, LuaState.IsNil,
          index_top2, hnil, LuaState.ToString, hs, pop_top2]
        simp
      | ok val =>
        have hdense1 : ∀ j, j < k + 1 → fieldGet fs (.int ((1 + j : Nat) : Int)) ≠ .nil := by
          intro j hj
          by_cases hjk : j = k
          · subst hjk
            exact hv
          · exact hdense j (by omega)
        obtain ⟨args, hargs⟩ := ih (k + 1) L (acc ++ [val]) hdense1 (by omega)
        refine ⟨args, ?_⟩
        have hcast : (((1 + k : Nat) : Int) + 1) = ((1 + (k + 1) : Nat) : Int) := by
          push_cast
          ring
        simp only [callArgsLoop, getTable_top H tr _ st fs meta _ hidx, LuaState.IsNil,
          index_top2, hnil, LuaState.ToString, hs, pop_top2, hcast, hargs]
        simp

/-- What `interpret` does with a returned table without `__index` handler: the
walk ends within the fuel of the field count plus one, and then the clone of the
context is asked for; its failure is returned with the exit level 255, its
success is spawned. -/
theorem interpret_table (H : Host) (tr : List Event) (L : LuaState) (cmd : Cmd)
    (fs : List (LKey × LValue)) (meta : Option (List (LKey × LValue))) (fuel : Nat)
    (htable : L.index (-1) = .table fs meta)
    (hidx : (LValue.table fs meta).metaIndex = .nil)
    (hfuel : fs.length < fuel) :
    ∃ newargs, LuaBinaryChank.interpret H tr L cmd fuel =
      (match H.Clone tr cmd with
        | .error err1 => some (tr ++ [.Clone cmd], L, 255, some err1)
        | .ok it =>
          some (tr ++ [.Clone cmd, .SpawnvpContext { it with Args := newargs }], L,
            H.SpawnvpContext (tr ++ [.Clone cmd]) { it with Args := newargs })) := by
  obtain ⟨st, hst⟩ := stack_of_index_top L _ htable (by simp)
  have hL : L = { L with stack := st ++ [.table fs meta] } := by
    cases L
    simp only [LuaState.mk.injEq, and_true, true_and] at hst ⊢
    simpa using hst
  obtain ⟨args, hargs⟩ := callArgsLoop_total H tr st fs meta hidx fuel 0 L
    (match (fieldGet fs (.int 0)).ToString with
      | .ok val => if val ≠ "" then [val] else []
      | .error _ => [])
    (by intro j hj; omega) (by omega)
  refine ⟨args, ?_⟩
  rw [hL]
  simp only [LuaBinaryChank.interpret, LuaState.IsTable, index_top, LValue.IsTable,
    LValue.GetType, decide_True, if_true, getTable_top H tr _ st fs meta _ hidx,
    LuaState.ToString, index_top2, pop_top2]
  simp only [Nat.add_zero, Nat.cast_one] at hargs
  rw [hargs]

/-- When `interpret` returns, the default streams are those it found, provided
every script call leaves them alone. -/
theorem interpret_streams (H : Host) (tr : List Event) (L : LuaState) (cmd : Cmd) (fuel : Nat)
    (r : List Event × LuaState × Int × Option String)
    (hscript : ∀ tr1 L1 f a, (H.pcall tr1 L1 f a).1.ioOutput = L1.ioOutput ∧
      (H.pcall tr1 L1 f a).1.ioInput = L1.ioInput)
    (hr : LuaBinaryChank.interpret H tr L cmd fuel = some r) :
    r.2.1.ioOutput = L.ioOutput ∧ r.2.1.ioInput = L.ioInput := by
  unfold LuaBinaryChank.interpret at hr
  split at hr
  · split at hr
    · cases hr
    · rename_i tr2 L0 hget
      have h0 := (GetTable_inv H tr _ (-2) _ hget).2 hscript
      simp only at hr
      split at hr
      · cases hr
      · rename_i tr3 L3 newargs hloop
        have h3 := (callArgsLoop_inv H _ _ _ _ _ _ hloop).2 hscript
        have hL3 : L3.ioOutput = L.ioOutput ∧ L3.ioInput = L.ioInput :=
          ⟨h3.1.trans h0.1, h3.2.trans h0.2⟩
        split at hr <;>
        · injection hr with hr
          subst hr
          exact hL3
  · split at hr
    · injection hr with hr
      subst hr
      exact ⟨rfl, rfl⟩
    · split at hr
      · split at hr
        · split at hr <;>
          · injection hr with hr
            subst hr
            exact ⟨rfl, rfl⟩
        · injection hr with hr
          subst hr
          exact ⟨rfl, rfl⟩
      · injection hr with hr
        subst hr
        exact ⟨rfl, rfl⟩

/-- When `interpret` returns on a table, or on a non-empty string that the
integer conversion does not take, while every clone of the context fails, the
result is the exit level 255 with the error of the clone, and the trace has
grown by script calls of handlers and the one clone request. -/
theorem interpret_clone_fails (H : Host) (tr : List Event) (L : LuaState) (cmd : Cmd)
    (fuel : Nat) (e : String) (r : List Event × LuaState × Int × Option String)
    (hval : (∃ fs meta, L.index (-1) = .table fs meta) ∨
      (∃ s, L.index (-1) = .string s ∧ s ≠ "" ∧ L.strtoint s = none))
    (hclone : ∀ tr2, H.Clone tr2 cmd = .error e)
    (hr : LuaBinaryChank.interpret H tr L cmd fuel = some r) :
    r.2.2 = (255, some e) ∧
    ∃ evs, r.1 = tr ++ evs ++ [.Clone cmd] ∧ ∀ ev ∈ evs, ∃ f args, ev = Event.script f args := by
  rcases hval with ⟨fs, meta, htable⟩ | ⟨s, hs, hne, hnum⟩
  · have ht : L.IsTable (-1) = true := by
      simp [LuaState.IsTable, htable, LValue.IsTable, LValue.GetType]
    unfold LuaBinaryChank.interpret at hr
    rw [if_pos ht] at hr
    split at hr
    · cases hr
    · rename_i tr2 L0 hget
      obtain ⟨evs0, hevs0, hall0⟩ := (GetTable_inv H tr _ (-2) _ hget).1
      simp only at hr hevs0
      split at hr
      · cases hr
      · rename_i tr3 L3 newargs hloop
        obtain ⟨evs1, hevs1, hall1⟩ := (callArgsLoop_inv H _ _ _ _ _ _ hloop).1
        simp only at hevs1
        rw [hclone tr3] at hr
        injection hr with hr
        subst hr
        refine ⟨rfl, evs0 ++ evs1, ?_, ?_⟩
        · simp only [hevs1, hevs0, List.append_assoc]
        · intro ev hev
          rcases List.mem_append.1 hev with h | h
          · exact hall0 ev h
          · exact hall1 ev h
  · have hr2 : LuaBinaryChank.interpret H tr L cmd fuel =
        some (tr ++ [.Clone cmd], L, 255, some e) := by
      simp [LuaBinaryChank.interpret, LuaState.IsTable, hs, LValue.IsTable, LValue.GetType,
        LuaState.ToInteger, LValue.ToInteger, hnum, LuaState.ToString, LValue.ToString, hne,
        hclone]
    rw [hr2] at hr
    injection hr with hr
    subst hr
    exact ⟨rfl, [], by simp, by simp⟩

/-- C12 (amended): when the alias script returns a table, or a non-empty string
that the integer conversion does not take, and every clone of the context fails
with the error `e`, a `LuaBinaryChank.Call` that returns returns `(255, e)`, and
after the script call the trace holds calls of `__index` handlers and the clone
request alone, so nothing is spawned or interpreted.  It does return, within a
fuel above the field count, whenever the value carries no `__index` handler:
then no handler runs either. -/
theorem alias_clone_failure (H : Host) (this : LuaBinaryChank) (tr tr1 : List Event)
    (L Lp L1 : LuaState) (cmd : Cmd) (e : String)
    (htag : cmd.Tag = .lua)
    (hprep : this.prepare H tr L cmd = some (Lp, none))
    (hcall : NyagosCallLua H tr Lp cmd 1 1 = (tr1, L1, none))
    (hval : (∃ fs meta, L1.index (-1) = .table fs meta) ∨
      (∃ s, L1.index (-1) = .string s ∧ s ≠ "" ∧ L1.strtoint s = none))
    (hclone : ∀ tr2, H.Clone tr2 cmd = .error e) :
    (∀ fuel r, this.Call H tr L cmd fuel = some r →
      r.2.2 = (255, some e) ∧
      ∃ evs, r.1 = tr1 ++ evs ++ [.Clone cmd] ∧
        ∀ ev ∈ evs, ∃ f args, ev = Event.script f args) ∧
    (∀ fuel, (L1.index (-1)).metaIndex = .nil → (L1.index (-1)).fields.length < fuel →
      this.Call H tr L cmd fuel = some (tr1 ++ [.Clone cmd], L1.Pop 1, 255, some e)) := by
  constructor
  · intro fuel r hr
    simp only [LuaBinaryChank.Call, htag, ne_eq, not_true_eq_false, if_false, hprep, hcall]
      at hr
    split at hr
    · cases hr
    · rename_i tr2 L2 lvl err hinterp
      injection hr with hr
      subst hr
      exact interpret_clone_fails H tr1 L1 cmd fuel e (tr2, L2, lvl, err) hval hclone hinterp
  · intro fuel hidx hfuel
    have hinterp : LuaBinaryChank.interpret H tr1 L1 cmd fuel =
        some (tr1 ++ [.Clone cmd], L1, 255, some e) := by
      rcases hval with ⟨fs, meta, htable⟩ | ⟨s, hs, hne, hnum⟩
      · rw [htable] at hidx hfuel
        obtain ⟨newargs, h⟩ := interpret_table H tr1 L1 cmd fs meta fuel htable hidx
          (by simpa [LValue.fields] using hfuel)
        simpa only [hclone tr1] using h
      · simp [LuaBinaryChank.interpret, LuaState.IsTable, hs, LValue.IsTable, LValue.GetType,
          LuaState.ToInteger, LValue.ToInteger, hnum, LuaState.ToString, LValue.ToString, hne,
          hclone]
    simp only [LuaBinaryChank.Call, htag, ne_eq, not_true_eq_false, if_false, hprep, hcall,
      hinterp]

/-- Witness of C12 (amended): the alias script returns `{"a", "b"}` and the
clone of the context fails. -/
theorem alias_clone_failure_witness :
    exCmd.Tag = .lua ∧
    (∀ tr2, (exHostNoClone (.ok [exTable12])).Clone tr2 exCmd = .error "too many open files") ∧
    exAlias.Call (exHostNoClone (.ok [exTable12])) [] exLua exCmd 3 =
      some ((NyagosCallLua (exHostNoClone (.ok [exTable12])) [] exAliasPrepared exCmd 1 1).1
          ++ [.Clone exCmd],
        (NyagosCallLua (exHostNoClone (.ok [exTable12])) [] exAliasPrepared exCmd 1 1).2.1.Pop 1,
        255, some "too many open files") :=
  ⟨by rfl, fun _ => rfl,
    (alias_clone_failure (exHostNoClone (.ok [exTable12])) exAlias []
      (NyagosCallLua (exHostNoClone (.ok [exTable12])) [] exAliasPrepared exCmd 1 1).1
      exLua exAliasPrepared
      (NyagosCallLua (exHostNoClone (.ok [exTable12])) [] exAliasPrepared exCmd 1 1).2.1
      exCmd "too many open files" (by rfl) (by rfl) (by rfl)
      (Or.inl ⟨[(.int 1, .string "a"), (.int 2, .string "b")], none, by rfl⟩)
      (fun _ => rfl)).2 3 (by rfl) (by decide)⟩

/-- The read of any integer key of `exTableEndless` under `exHostEndless`
calls the handler and gets the string `x`. -/
theorem getTable_endless (tr : List Event) (L : LuaState) (st : List LValue) (i : Int) :
    (({ L with stack := st ++ [exTableEndless] } : LuaState).PushInteger i).GetTable
        exHostEndless tr (-2) =
      some (tr ++ [.script (.function [9]) [exTableEndless, .integer i]],
        { L with stack := st ++ [exTableEndless, .string "x"] }) := by
  have h1 : ({ L with stack := st ++ [exTableEndless] } : LuaState).PushInteger i
      = { L with stack := st ++ [exTableEndless, .integer i] } := by
    simp [LuaState.PushInteger, LuaState.pushValue]
  rw [h1]
  unfold LuaState.GetTable
  rw [index_second, index_top2, pop_top2]
  have hloop : MAXTAGLOOP = 1999 + 1 := rfl
  rw [hloop]
  simp [gettable, exTableEndless, LValue.rawget, LValue.toKey, LValue.getField, fieldGet, mapGet,
    LValue.IsNil, LValue.GetType, LValue.metaIndex, LValue.IsFunction, callIndex, exHostEndless,
    LuaState.pushValue]

/-- Under `exHostEndless` the walk over `exTableEndless` never meets a key that
reads as nil: it uses up any fuel. -/
theorem callArgsLoop_endless (st : List LValue) :
    ∀ (fuel : Nat) (tr : List Event) (L : LuaState) (i : Int) (acc : List String),
      callArgsLoop exHostEndless fuel tr { L with stack := st ++ [exTableEndless] } i acc
        = none := by
  intro fuel
  induction fuel with
  | zero =>
    intro tr L i acc
    rfl
  | succ n ih =>
    intro tr L i acc
    simp only [callArgsLoop, getTable_endless, LuaState.IsNil, index_top2, LValue.IsNil,
      LValue.GetType, LuaState.ToString, LValue.ToString, pop_top2]
    simpa using ih _ L (i + 1) (acc ++ ["x"])

/-- An alias whose script returns `exTableEndless` under `exHostEndless` does
not return, whatever the fuel. -/
theorem Call_endless (this : LuaBinaryChank) (tr tr1 : List Event) (L Lp L1 : LuaState)
    (cmd : Cmd) (htag : cmd.Tag = .lua)
    (hprep : this.prepare exHostEndless tr L cmd = some (Lp, none))
    (hcall : NyagosCallLua exHostEndless tr Lp cmd 1 1 = (tr1, L1, none))
    (htable : L1.index (-1) = exTableEndless) (fuel : Nat) :
    this.Call exHostEndless tr L cmd fuel = none := by
  obtain ⟨st, hst⟩ := stack_of_index_top L1 _ htable (by simp [exTableEndless])
  have hL1 : L1 = { L1 with stack := st ++ [exTableEndless] } := by
    cases L1
    simp only [LuaState.mk.injEq, and_true, true_and] at hst ⊢
    simpa using hst
  have hinterp : LuaBinaryChank.interpret exHostEndless tr1 L1 cmd fuel = none := by
    rw [hL1]
    have ht : ({ L1 with stack := st ++ [exTableEndless] } : LuaState).IsTable (-1) = true := by
      simp [LuaState.IsTable, index_top, exTableEndless, LValue.IsTable, LValue.GetType]
    unfold LuaBinaryChank.interpret
    rw [if_pos ht, getTable_endless]
    simp only [pop_top2]
    rw [callArgsLoop_endless]
  simp only [LuaBinaryChank.Call, htag, ne_eq, not_true_eq_false, if_false, hprep, hcall,
    hinterp]

/-- C12 as stated fails: the alias script returns a table, `exTableEndless`,
whose `__index` handler answers the string `x` under every key, and the clone of
the context would fail.  The walk over the table finds a value under every key,
so `LuaBinaryChank.Call` never comes to ask for the clone and does not return
`(255, e)`: it does not return at all. -/
theorem alias_table_walk_endless :
    (NyagosCallLua exHostEndless [] exAliasPrepared exCmd 1 1).2.1.index (-1)
      = exTableEndless ∧
    exHostEndless.Clone [] exCmd = .error "too many open files" ∧
    ∀ fuel, exAlias.Call exHostEndless [] exLua exCmd fuel = none :=
  ⟨by rfl, by rfl,
    Call_endless exAlias [] (NyagosCallLua exHostEndless [] exAliasPrepared exCmd 1 1).1
      exLua exAliasPrepared (NyagosCallLua exHostEndless [] exAliasPrepared exCmd 1 1).2.1
      exCmd (by rfl) (by rfl) (by rfl) (by rfl)⟩
theorem modify_streams (L : LuaState) (i : Int) (f : LValue → LValue) :
    (L.modify i f).ioOutput = L.ioOutput ∧ (L.modify i f).ioInput = L.ioInput := by
  unfold LuaState.modify
  split <;> exact ⟨rfl, rfl⟩

theorem pushArgs_streams (args : List String) :
    ∀ (L : LuaState) (i : Int),
      (pushArgs L args i).ioOutput = L.ioOutput ∧ (pushArgs L args i).ioInput = L.ioInput := by
  induction args with
  | nil => intro L i; exact ⟨rfl, rfl⟩
  | cons a rest ih =>
    intro L i
    have h := ih ((L.PushString a).RawSetI (-2) i) (i + 1)
    have hm := modify_streams (L.PushString a) (-2)
      (fun t => t.setField (.int i) ((L.PushString a).index (-1)))
    simp only [pushArgs]
    refine ⟨h.1.trans ?_, h.2.trans ?_⟩
    · exact hm.1
    · exact hm.2

theorem setField_streams (L : LuaState) (i : Int) (name : String) :
    (L.SetField i name).ioOutput = L.ioOutput ∧ (L.SetField i name).ioInput = L.ioInput := by
  have hm := modify_streams L i (fun t => t.setField (.str name) (L.index (-1)))
  exact ⟨hm.1, hm.2⟩

/-- The script call of `NyagosCallLua` leaves the default streams as the script
leaves them. -/
theorem NyagosCallLua_streams (H : Host) (tr : List Event) (L : LuaState) (it : Cmd)
    (nargs nresult : Nat)
    (hscript : ∀ tr1 L1 f a, (H.pcall tr1 L1 f a).1.ioOutput = L1.ioOutput ∧
      (H.pcall tr1 L1 f a).1.ioInput = L1.ioInput) :
    (NyagosCallLua H tr L it nargs nresult).2.1.ioOutput = L.ioOutput ∧
    (NyagosCallLua H tr L it nargs nresult).2.1.ioInput = L.ioInput := by
  have h := hscript tr ((setRegInt L (some it)).Pop (nargs + 1))
    ((setRegInt L (some it)).index (-((nargs : Int) + 1)))
    ((setRegInt L (some it)).stack.drop ((setRegInt L (some it)).stack.length - nargs))
  simp only [NyagosCallLua, LuaState.Call]
  split
  · rename_i L1 results heq
    rw [heq] at h
    exact ⟨h.1, h.2⟩
  · rename_i L1 msg heq
    rw [heq] at h
    exact ⟨h.1, h.2⟩

/-- On a non-empty argument vector `prepare` returns, and the default streams
it leaves are the redirected ones where a redirection was installed and the
ones of the entry otherwise. -/
theorem prepare_streams (H : Host) (this : LuaBinaryChank) (tr : List Event) (L : LuaState)
    (cmd : Cmd) (hargs : cmd.Args ≠ []) :
    ∃ Lp oe, this.prepare H tr L cmd = some (Lp, oe) ∧
      (cmd.Stdout ≠ .Stdout → cmd.Stdout ≠ .Stderr → H.PushFileWriter tr cmd.Stdout = none →
        Lp.ioOutput = cmd.Stdout) ∧
      ((cmd.Stdout = .Stdout ∨ cmd.Stdout = .Stderr) → Lp.ioOutput = L.ioOutput) ∧
      ((cmd.Stdout = .Stdout ∨ cmd.Stdout = .Stderr ∨ H.PushFileWriter tr cmd.Stdout = none) →
        cmd.Stdin ≠ .Stdin → H.PushFileReader tr cmd.Stdin = none → Lp.ioInput = cmd.Stdin) ∧
      (cmd.Stdin = .Stdin → Lp.ioInput = L.ioInput) := by
  obtain ⟨name, rest, hcons⟩ : ∃ name rest, cmd.Args = name :: rest := by
    cases h : cmd.Args with
    | nil => exact absurd h hargs
    | cons a b => exact ⟨a, b, rfl⟩
  have hfinal : ∀ (L0 : LuaState),
      (this.loaded L0 cmd).ioOutput = L0.ioOutput ∧ (this.loaded L0 cmd).ioInput = L0.ioInput := by
    intro L0
    have h1 := setField_streams (pushArgs ((pushArgs ((L0.pushValue
      (.function this.Chank)).NewTable) cmd.Args 0).NewTable) cmd.RawArgs 0) (-2) "rawargs"
    have h2 := pushArgs_streams cmd.RawArgs ((pushArgs ((L0.pushValue
      (.function this.Chank)).NewTable) cmd.Args 0).NewTable) 0
    have h3 := pushArgs_streams cmd.Args ((L0.pushValue (.function this.Chank)).NewTable) 0
    exact ⟨h1.1.trans (h2.1.trans h3.1), h1.2.trans (h2.2.trans h3.2)⟩
  unfold LuaBinaryChank.prepare
  by_cases ho : cmd.Stdout ≠ .Stdout ∧ cmd.Stdout ≠ .Stderr
  · cases hw : H.PushFileWriter tr cmd.Stdout with
    | some err =>
      refine ⟨L, some err, ?_, ?_, ?_, ?_, ?_⟩
      · simp [ho, hw]
      · intro _ _ h
        cases h
      · intro h
        rcases h with h | h
        · exact absurd h ho.1
        · exact absurd h ho.2
      · intro h
        rcases h with h | h | h
        · exact absurd h ho.1
        · exact absurd h ho.2
        · cases h
      · intro _
        rfl
    | none =>
      by_cases hi : cmd.Stdin ≠ .Stdin
      · cases hr : H.PushFileReader tr cmd.Stdin with
        | some err =>
          refine ⟨{ L with ioOutput := cmd.Stdout }, some err, ?_, ?_, ?_, ?_, ?_⟩
          · simp [ho, hw, hi, hr]
          · intro _ _ _
            rfl
          · intro h
            rcases h with h | h
            · exact absurd h ho.1
            · exact absurd h ho.2
          · intro _ _ h
            cases h
          · intro h
            exact absurd h hi
        | none =>
          cases hl : H.LoadBufferX tr name this.Chank with
          | some err =>
            refine ⟨{ L with ioOutput := cmd.Stdout, ioInput := cmd.Stdin }, some err,
              ?_, ?_, ?_, ?_, ?_⟩
            · simp [ho, hw, hi, hr, hcons, hl, LuaBinaryChank.loaded]
            · intro _ _ _
              rfl
            · intro h
              rcases h with h | h
              · exact absurd h ho.1
              · exact absurd h ho.2
            · intro _ _ _
              rfl
            · intro h
              exact absurd h hi
          | none =>
            refine ⟨this.loaded { L with ioOutput := cmd.Stdout, ioInput := cmd.Stdin } cmd,
              none, ?_, ?_, ?_, ?_, ?_⟩
            · simp [ho, hw, hi, hr, hcons, hl, LuaBinaryChank.loaded]
            · intro _ _ _
              exact (hfinal _).1
            · intro h
              rcases h with h | h
              · exact absurd h ho.1
              · exact absurd h ho.2
            · intro _ _ _
              exact (hfinal _).2
            · intro h
              exact absurd h hi
      · have hi2 : cmd.Stdin = .Stdin := not_not.1 hi
        cases hl : H.LoadBufferX tr name this.Chank with
        | some err =>
          refine ⟨{ L with ioOutput := cmd.Stdout }, some err, ?_, ?_, ?_, ?_, ?_⟩
          · simp [ho, hw, hi, hcons, hl, LuaBinaryChank.loaded]
          · intro _ _ _
            rfl
          · intro h
            rcases h with h | h
            · exact absurd h ho.1
            · exact absurd h ho.2
          · intro _ h
            exact absurd hi2 h
          · intro _
            rfl
        | none =>
          refine ⟨this.loaded { L with ioOutput := cmd.Stdout } cmd, none, ?_, ?_, ?_, ?_, ?_⟩
          · simp [ho, hw, hi, hcons, hl, LuaBinaryChank.loaded]
          · intro _ _ _
            exact (hfinal _).1
          · intro h
            rcases h with h | h
            · exact absurd h ho.1
            · exact absurd h ho.2
          · intro _ h
            exact absurd hi2 h
          · intro _
            exact (hfinal _).2
  · have ho2 : cmd.Stdout = .Stdout ∨ cmd.Stdout = .Stderr := by
      by_cases h1 : cmd.Stdout = .Stdout
      · exact Or.inl h1
      · by_cases h2 : cmd.Stdout = .Stderr
        · exact Or.inr h2
        · exact absurd ⟨h1, h2⟩ ho
    have hno : ∀ (P : Prop), cmd.Stdout ≠ .Stdout → cmd.Stdout ≠ .Stderr → P := by
      intro P h1 h2
      exact absurd ⟨h1, h2⟩ ho
    by_cases hi : cmd.Stdin ≠ .Stdin
    · cases hr : H.PushFileReader tr cmd.Stdin with
      | some err =>
        refine ⟨L, some err, ?_, ?_, ?_, ?_, ?_⟩
        · simp [ho, hi, hr]
        · intro h1 h2 _
          exact hno _ h1 h2
        · intro _
          rfl
        · intro _ _ h
          cases h
        · intro h
          exact absurd h hi
      | none =>
        cases hl : H.LoadBufferX tr name this.Chank with
        | some err =>
          refine ⟨{ L with ioInput := cmd.Stdin }, some err, ?_, ?_, ?_, ?_, ?_⟩
          · simp [ho, hi, hr, hcons, hl, LuaBinaryChank.loaded]
          · intro h1 h2 _
            exact hno _ h1 h2
          · intro _
            rfl
          · intro _ _ _
            rfl
          · intro h
            exact absurd h hi
        | none =>
          refine ⟨this.loaded { L with ioInput := cmd.Stdin } cmd, none, ?_, ?_, ?_, ?_, ?_⟩
          · simp [ho, hi, hr, hcons, hl, LuaBinaryChank.loaded]
          · intro h1 h2 _
            exact hno _ h1 h2
          · intro _
            exact (hfinal _).1
          · intro _ _ _
            exact (hfinal _).2
          · intro h
            exact absurd h hi
    · have hi2 : cmd.Stdin = .Stdin := not_not.1 hi
      cases hl : H.LoadBufferX tr name this.Chank with
      | some err =>
        refine ⟨L, some err, ?_, ?_, ?_, ?_, ?_⟩
        · simp [ho, hi, hcons, hl, LuaBinaryChank.loaded]
        · intro h1 h2 _
          exact hno _ h1 h2
        · intro _
          rfl
        · intro _ h
          exact absurd hi2 h
        · intro _
          rfl
      | none =>
        refine ⟨this.loaded L cmd, none, ?_, ?_, ?_, ?_, ?_⟩
        · simp [ho, hi, hcons, hl, LuaBinaryChank.loaded]
        · intro h1 h2 _
          exact hno _ h1 h2
        · intro _
          exact (hfinal _).1
        · intro _ h
          exact absurd hi2 h
        · intro _
          exact (hfinal _).2


/-- `interpret` returns, within a fuel above the field count, on every value
that carries no `__index` handler. -/
theorem interpret_returns (H : Host) (tr : List Event) (L : LuaState) (cmd : Cmd) (fuel : Nat)
    (hidx : (L.index (-1)).metaIndex = .nil)
    (hfuel : (L.index (-1)).fields.length < fuel) :
    ∃ r, LuaBinaryChank.interpret H tr L cmd fuel = some r := by
  by_cases htab : L.IsTable (-1) = true
  · obtain ⟨fs, meta, hv⟩ : ∃ fs meta, L.index (-1) = .table fs meta := by
      unfold LuaState.IsTable at htab
      cases hv : L.index (-1) <;> simp [hv, LValue.IsTable, LValue.GetType] at htab
      exact ⟨_, _, rfl⟩
    rw [hv] at hidx hfuel
    obtain ⟨newargs, h⟩ := interpret_table H tr L cmd fs meta fuel hv hidx
      (by simpa [LValue.fields] using hfuel)
    cases hclone : H.Clone tr cmd with
    | error e =>
      simp only [hclone] at h
      exact ⟨_, h⟩
    | ok it =>
      simp only [hclone] at h
      exact ⟨_, h⟩
  · unfold LuaBinaryChank.interpret
    rw [if_neg htab]
    cases hint : L.ToInteger (-1) with
    | ok val => exact ⟨_, rfl⟩
    | error e =>
      cases hstr : L.ToString (-1) with
      | error e2 => exact ⟨_, rfl⟩
      | ok val =>
        by_cases hval : val ≠ ""
        · cases hclone : H.Clone tr cmd with
          | error e3 =>
            refine ⟨(tr ++ [.Clone cmd], L, 255, some e3), ?_⟩
            simp only [hclone]
            exact if_pos hval
          | ok it =>
            refine ⟨(tr ++ [.Clone cmd, .InterpretContext it val], L,
              H.InterpretContext (tr ++ [.Clone cmd]) it val), ?_⟩
            simp only [hclone]
            exact if_pos hval
        · refine ⟨(tr, L, 0, none), ?_⟩
          exact if_neg hval

/-- C14 (amended): `LuaBinaryChank.Call` installs the redirected default stream
and never takes it back.  On a context with arguments, and with script calls
that themselves leave the default streams alone, the runtime that a returning
`Call` leaves, on whichever path, has the context's stdout as default output
whenever that differs from the host's stdout and stderr and could be installed,
and the context's stdin as default input whenever that differs from the host's
stdin and could be installed; a stream of the context that is a host default
leaves the runtime's stream as it was on entry.  `Call` does return, within a
fuel above the field count, on every path on which the script does not return a
value with an `__index` handler. -/
theorem redirect_stays_installed (H : Host) (this : LuaBinaryChank) (tr : List Event)
    (L : LuaState) (cmd : Cmd)
    (htag : cmd.Tag = .lua) (hargs : cmd.Args ≠ [])
    (hscript : ∀ tr1 L1 f a, (H.pcall tr1 L1 f a).1.ioOutput = L1.ioOutput ∧
      (H.pcall tr1 L1 f a).1.ioInput = L1.ioInput) :
    (∀ fuel r, this.Call H tr L cmd fuel = some r →
      (cmd.Stdout ≠ .Stdout → cmd.Stdout ≠ .Stderr → H.PushFileWriter tr cmd.Stdout = none →
        r.2.1.ioOutput = cmd.Stdout) ∧
      ((cmd.Stdout = .Stdout ∨ cmd.Stdout = .Stderr) → r.2.1.ioOutput = L.ioOutput) ∧
      ((cmd.Stdout = .Stdout ∨ cmd.Stdout = .Stderr ∨ H.PushFileWriter tr cmd.Stdout = none) →
        cmd.Stdin ≠ .Stdin → H.PushFileReader tr cmd.Stdin = none →
        r.2.1.ioInput = cmd.Stdin) ∧
      (cmd.Stdin = .Stdin → r.2.1.ioInput = L.ioInput)) ∧
    (∀ fuel,
      (∀ Lp tr1 L1, this.prepare H tr L cmd = some (Lp, none) →
        NyagosCallLua H tr Lp cmd 1 1 = (tr1, L1, none) →
        (L1.index (-1)).metaIndex = .nil ∧ (L1.index (-1)).fields.length < fuel) →
      ∃ r, this.Call H tr L cmd fuel = some r) := by
  obtain ⟨Lp, oe, hp, h1, h2, h3, h4⟩ := prepare_streams H this tr L cmd hargs
  constructor
  · intro fuel r hret
    have key : r.2.1.ioOutput = Lp.ioOutput ∧ r.2.1.ioInput = Lp.ioInput := by
      cases oe with
      | some err =>
        simp only [LuaBinaryChank.Call, htag, ne_eq, not_true_eq_false, if_false, hp] at hret
        injection hret with hret
        subst hret
        exact ⟨rfl, rfl⟩
      | none =>
        have hs := NyagosCallLua_streams H tr Lp cmd 1 1 hscript
        rcases hnc : NyagosCallLua H tr Lp cmd 1 1 with ⟨tr1, L1, e1⟩
        rw [hnc] at hs
        cases e1 with
        | some err =>
          simp only [LuaBinaryChank.Call, htag, ne_eq, not_true_eq_false, if_false, hp, hnc]
            at hret
          injection hret with hret
          subst hret
          exact ⟨hs.1, hs.2⟩
        | none =>
          simp only [LuaBinaryChank.Call, htag, ne_eq, not_true_eq_false, if_false, hp, hnc]
            at hret
          split at hret
          · cases hret
          · rename_i tr2 L2 lvl err hinterp
            injection hret with hret
            subst hret
            have hi := interpret_streams H tr1 L1 cmd fuel (tr2, L2, lvl, err) hscript hinterp
            exact ⟨hi.1.trans hs.1, hi.2.trans hs.2⟩
    obtain ⟨hro, hri⟩ := key
    refine ⟨?_, ?_, ?_, ?_⟩
    · intro a b c
      rw [hro]
      exact h1 a b c
    · intro a
      rw [hro]
      exact h2 a
    · intro a b c
      rw [hri]
      exact h3 a b c
    · intro a
      rw [hri]
      exact h4 a
  · intro fuel hres
    cases oe with
    | some err =>
      refine ⟨(tr, Lp, 255, some err), ?_⟩
      simp only [LuaBinaryChank.Call, htag, ne_eq, not_true_eq_false, if_false, hp]
    | none =>
      rcases hnc : NyagosCallLua H tr Lp cmd 1 1 with ⟨tr1, L1, e1⟩
      cases e1 with
      | some err =>
        refine ⟨(tr1, L1.Pop 1, 0, some err), ?_⟩
        simp only [LuaBinaryChank.Call, htag, ne_eq, not_true_eq_false, if_false, hp, hnc]
      | none =>
        obtain ⟨hidx, hfuel⟩ := hres Lp tr1 L1 hp hnc
        obtain ⟨r0, hr0⟩ := interpret_returns H tr1 L1 cmd fuel hidx hfuel
        obtain ⟨tr2, L2, lvl, err⟩ := r0
        refine ⟨(tr2, L2.Pop 1, lvl, err), ?_⟩
        simp only [LuaBinaryChank.Call, htag, ne_eq, not_true_eq_false, if_false, hp, hnc, hr0]

/-- Witness of C14 (amended): the alias run as `ls -l > file`, its script
returning 0; after `Call` has returned the runtime's default output is the
file. -/
theorem redirect_stays_installed_witness :
    exCmdRedirected.Tag = .lua ∧ exCmdRedirected.Args ≠ [] ∧
    (exAlias.Call (exHost (.ok [.integer 0])) [] exLua exCmdRedirected 1).isSome = true ∧
    ∀ r, exAlias.Call (exHost (.ok [.integer 0])) [] exLua exCmdRedirected 1 = some r →
      r.2.1.ioOutput = exCmdRedirected.Stdout :=
  ⟨by rfl, by decide, by rfl, fun r hr =>
    ((redirect_stays_installed (exHost (.ok [.integer 0])) exAlias [] exLua exCmdRedirected
      (by rfl) (by decide) (fun _ _ _ _ => ⟨rfl, rfl⟩)).1 1 r hr).1
      (by decide) (by decide) (by rfl)⟩

/-- C14 as stated fails: before the call the runtime writes to the host's
stdout; after `LuaBinaryChank.Call` on a context whose stdout is file 5 has
returned, on the success path and on the script-error path alike, the runtime's
default output is still file 5. -/
theorem redirect_not_reverted :
    exLua.ioOutput = .Stdout ∧
    (exAlias.Call (exHost (.ok [.integer 0])) [] exLua exCmdRedirected 1).map
      (fun r => (r.2.1.ioOutput, r.2.2)) = some (.other 5, (0, none)) ∧
    (exAlias.Call (exHost (.error "boom")) [] exLua exCmdRedirected 1).map
      (fun r => (r.2.1.ioOutput, r.2.2)) = some (.other 5, (0, some "boom")) := by
  refine ⟨?_, ?_, ?_⟩ <;> rfl

/-! ## The alias table: claim C17 -/

/-- C17 fails on names with capital letters: `nyagos.alias.LS = "ls -l"`
succeeds (it returns `true`) and stores the alias under the lower-case key `ls`;
`cmdGetAlias` then looks the name `LS` up as it is written, finds nothing and
returns nil, while the same alias is found under the name `ls`. -/
theorem alias_get_misses_capitals :
    cmdSetAlias exToLower []
        { exLua with stack := [exAliasObject, .string "LS", .string "ls -l"] } =
      ([("ls", .AliasFunc "ls -l")],
        { exLua with stack := [exAliasObject, .string "LS", .string "ls -l", .boolean true] },
        1) ∧
    cmdGetAlias (exHost (.ok [])) [] exAliasTableUpper
        { exLua with stack := [exAliasObject, .string "LS"] } =
      ({ exLua with stack := [exAliasObject, .string "LS", .nil] }, 1) ∧
    cmdGetAlias (exHost (.ok [])) [] exAliasTableUpper
        { exLua with stack := [exAliasObject, .string "ls"] } =
      ({ exLua with stack := [exAliasObject, .string "ls", .string "ls -l"] }, 1) := by
  refine ⟨?_, ?_, ?_⟩ <;> rfl

/-- For a name that `strings.ToLower` leaves as it is the round trip holds: the
string stored by `cmdSetAlias` is what `cmdGetAlias` pushes for the same name. -/
theorem alias_roundtrip_lowercase (ToLower : String → String) (H : Host) (tr : List Event)
    (Table : List (String × Callable)) (L1 L2 : LuaState) (self1 self2 : LValue)
    (name value : String) (hlow : ToLower name = name) :
    cmdGetAlias H tr
        (cmdSetAlias ToLower Table
          { L1 with stack := [self1, .string name, .string value] }).1
        { L2 with stack := [self2, .string name] } =
      ({ L2 with stack := [self2, .string name, .string value] }, 1) := by
  simp [cmdSetAlias, cmdGetAlias, LuaState.ToString, LuaState.index, LuaState.pos,
    LValue.ToString, LuaState.GetType, LValue.GetType, hlow, mapSet, mapGet,
    LuaState.PushString, LuaState.pushValue, Callable.String]

/-! ## Column layout: claim C18 -/

namespace box

theorem foldr_max_max (l : List Nat) (a b : Nat) :
    l.foldr max (max a b) = max b (l.foldr max a) := by
  induction l with
  | nil => simp [max_comm]
  | cons x r ih => simp only [List.foldr_cons, ih]; omega

/-- The first loop computes the largest display width. -/
theorem maxLenLoop_eq (W : String → Nat) (nodes : List String) :
    ∀ m : Nat, maxLenLoop W nodes (m : Int) = (((nodes.map W).foldr max m : Nat) : Int) := by
  induction nodes with
  | nil => intro m; rfl
  | cons x r ih =>
    intro m
    simp only [maxLenLoop, List.map_cons, List.foldr_cons]
    by_cases h : (W x : Int) > (m : Int)
    · rw [if_pos h, ih (W x)]
      have hm : max m (W x) = W x := by omega
      rw [← foldr_max_max, hm]
    · rw [if_neg h, ih m]
      have hm : max m (W x) = m := by omega
      have := foldr_max_max (r.map W) m (W x)
      rw [hm] at this
      exact_mod_cast this

theorem maxLenLoop_spec (W : String → Nat) (nodes : List String) :
    maxLenLoop W nodes 1 = (specMaxLen W nodes : Int) :=
  maxLenLoop_eq W nodes 1

theorem one_le_specMaxLen (W : String → Nat) (nodes : List String) :
    1 ≤ specMaxLen W nodes := by
  unfold specMaxLen
  induction nodes with
  | nil => simp
  | cons x r ih => simp only [List.map_cons, List.foldr_cons]; omega

theorem le_specMaxLen (W : String → Nat) (nodes : List String) (x : String)
    (hx : x ∈ nodes) : W x ≤ specMaxLen W nodes := by
  unfold specMaxLen
  induction nodes with
  | nil => cases hx
  | cons y r ih =>
    simp only [List.map_cons, List.foldr_cons]
    rcases List.mem_cons.1 hx with h | h
    · subst h
      omega
    · have := ih h
      omega

theorem one_le_specNodePerLine (W : String → Nat) (width : Int) (nodes : List String) :
    1 ≤ specNodePerLine W width nodes := by
  unfold specNodePerLine
  omega

/-- The clamped quotient of the source is the number of nodes per line. -/
theorem nodePerLine_eq (W : String → Nat) (width : Int) (nodes : List String) :
    (if Int.tdiv (width - 1) ((specMaxLen W nodes : Int) + 1) ≤ 0 then (1 : Int)
      else Int.tdiv (width - 1) ((specMaxLen W nodes : Int) + 1))
      = (specNodePerLine W width nodes : Int) := by
  unfold specNodePerLine
  split <;> omega

/-- The quotient of the source is the number of lines. -/
theorem nlines_eq (W : String → Nat) (width : Int) (nodes : List String) :
    Int.tdiv ((nodes.length : Int) + (specNodePerLine W width nodes : Int) - 1)
      (specNodePerLine W width nodes : Int) = (specLines W width nodes : Int) := by
  have h1 := one_le_specNodePerLine W width nodes
  unfold specLines
  rw [Int.ofNat_tdiv]
  congr 1
  rw [Nat.cast_sub (by omega : 1 ≤ nodes.length + specNodePerLine W width nodes)]
  push_cast
  rfl

theorem onLine_cons (nl j a : Nat) (x : String) (xs : List String) :
    onLine nl j a (x :: xs) =
      if a % nl = j then x :: onLine nl j (a + 1) xs else onLine nl j (a + 1) xs := by
  unfold onLine
  by_cases h : a % nl = j <;> simp [List.enumFrom_cons, List.filter_cons, h]

theorem range_map_getD (lines : List String) :
    (List.range lines.length).map (fun j => lines.getD j "" ++ "") = lines := by
  apply List.ext_getElem
  · simp
  · intro i h1 h2
    simp [List.getD_eq_getElem?_getD, List.getElem?_eq_getElem h2]

/-- The second loop, started at position `a` on buffers `lines`, faults nowhere
and appends to buffer `j` the padded nodes whose position is `j` modulo the
number of lines. -/
theorem writeLoop_spec (W : String → Nat) (M nl : Nat) (hnl : 0 < nl) :
    ∀ (rest : List String) (a : Nat) (lines : List String),
      lines.length = nl → (∀ x, x ∈ rest → W x ≤ M) →
      writeLoop W (M : Int) (nl : Int) rest (a : Int) lines =
        some ((List.range nl).map (fun j =>
          lines.getD j "" ++ concat ((onLine nl j a rest).map (padded W M)))) := by
  intro rest
  induction rest with
  | nil =>
    intro a lines hlen _
    simp only [writeLoop, onLine, List.enumFrom_nil, List.filter_nil, List.map_nil, concat]
    rw [← hlen, range_map_getD]
  | cons x rest ih =>
    intro a lines hlen hW
    have hx : W x ≤ M := hW x (List.mem_cons_self _ _)
    have hmod : goMod (a : Int) (nl : Int) = some ((a % nl : Nat) : Int) := by
      have hne : (nl : Int) ≠ 0 := by omega
      simp only [goMod, hne, if_false, Int.ofNat_tmod]
    have hidx : ¬ ((((a % nl : Nat) : Int) < 0) ∨ ((lines.length : Int) ≤ ((a % nl : Nat) : Int))) := by
      have := Nat.mod_lt a hnl
      omega
    have hpad : Repeat ((M : Int) + 1 - (W x : Int)) = some ⟨List.replicate (M + 1 - W x) ' '⟩ := by
      have h1 : ¬ ((M : Int) + 1 - (W x : Int) < 0) := by omega
      have h2 : ((M : Int) + 1 - (W x : Int)).toNat = M + 1 - W x := by omega
      simp only [Repeat, h1, if_false, h2]
    have hcast : ((a : Int) + 1) = ((a + 1 : Nat) : Int) := by push_cast; rfl
    simp only [writeLoop, hmod, hidx, if_false, hpad, Int.toNat_ofNat, hcast]
    rw [ih (a + 1) _ (by simp [hlen]) (fun y hy => hW y (List.mem_cons_of_mem _ hy))]
    congr 1
    apply List.map_congr_left
    intro j hj
    have hjn : j < nl := List.mem_range.1 hj
    rw [onLine_cons]
    by_cases hja : a % nl = j
    · subst hja
      have hlt : a % nl < lines.length := by omega
      simp only [if_true, List.map_cons, concat, padded]
      rw [List.getD_eq_getElem?_getD, List.getElem?_set_self hlt]
      simp only [Option.getD_some, String.append_assoc]
    · simp only [hja, if_false]
      rw [List.getD_eq_getElem?_getD, List.getElem?_set_ne hja, ← List.getD_eq_getElem?_getD]

theorem specLines_nil (W : String → Nat) (width : Int) : specLines W width [] = 0 := by
  have h1 := one_le_specNodePerLine W width []
  unfold specLines
  simp only [List.length_nil, Nat.zero_add]
  exact Nat.div_eq_of_lt (by omega)

/-- The lines times the nodes per line cover the nodes. -/
theorem length_le_lines_mul (W : String → Nat) (width : Int) (nodes : List String) :
    nodes.length ≤ specLines W width nodes * specNodePerLine W width nodes := by
  have h1 := one_le_specNodePerLine W width nodes
  have h2 := Nat.div_add_mod (nodes.length + specNodePerLine W width nodes - 1)
    (specNodePerLine W width nodes)
  have h3 := Nat.mod_lt (nodes.length + specNodePerLine W width nodes - 1)
    (by omega : 0 < specNodePerLine W width nodes)
  unfold specLines
  rw [Nat.mul_comm]
  omega

theorem specLines_pos (W : String → Nat) (width : Int) (nodes : List String)
    (h : nodes ≠ []) : 0 < specLines W width nodes := by
  have h1 := length_le_lines_mul W width nodes
  have h2 : 0 < nodes.length := List.length_pos.2 h
  by_contra h0
  have : specLines W width nodes = 0 := by omega
  rw [this] at h1
  omega

/-- The run of `Print` faults nowhere and writes, for each line index in order,
the trimmed row of that line. -/
theorem Print_eq (W : String → Nat) (TrimSpace : String → String) (width : Int)
    (nodes : List String) :
    Print W TrimSpace width nodes =
      some ((List.range (specLines W width nodes)).map
        (fun j => TrimSpace (row W width nodes j))) := by
  have hM := one_le_specMaxLen W nodes
  have hdiv : goDiv (width - 1) ((specMaxLen W nodes : Int) + 1) =
      some (Int.tdiv (width - 1) ((specMaxLen W nodes : Int) + 1)) := by
    have hne : ((specMaxLen W nodes : Int) + 1) ≠ 0 := by omega
    simp only [goDiv, hne, if_false]
  have hnpl := one_le_specNodePerLine W width nodes
  have hdiv2 : goDiv ((nodes.length : Int) + (specNodePerLine W width nodes : Int) - 1)
      (specNodePerLine W width nodes : Int) = some (specLines W width nodes : Int) := by
    have hne : (specNodePerLine W width nodes : Int) ≠ 0 := by omega
    simp only [goDiv, hne, if_false, nlines_eq]
  have hneg : ¬ ((specLines W width nodes : Int) < 0) := by omega
  simp only [Print, maxLenLoop_spec, hdiv, nodePerLine_eq, hdiv2, hneg, if_false,
    Int.toNat_ofNat]
  by_cases hnodes : nodes = []
  · subst hnodes
    simp [specLines_nil, writeLoop]
  · have hpos := specLines_pos W width nodes hnodes
    have hloop := writeLoop_spec W (specMaxLen W nodes) (specLines W width nodes) hpos nodes 0
      (List.replicate (specLines W width nodes) "") (by simp)
      (fun x hx => le_specMaxLen W nodes x hx)
    simp only [Nat.cast_zero] at hloop
    rw [hloop]
    simp only [List.map_map, Option.some.injEq]
    apply List.map_congr_left
    intro j hj
    have hjn : j < specLines W width nodes := List.mem_range.1 hj
    simp [row, List.getD_eq_getElem?_getD, List.getElem?_replicate, hjn]

/-- The nodes on a line are counted by the positions congruent to the line. -/
theorem onLine_length_count (nl j : Nat) :
    ∀ (xs : List String) (a : Nat),
      (onLine nl j a xs).length + Nat.count (fun i => i % nl = j) a =
        Nat.count (fun i => i % nl = j) (a + xs.length) := by
  intro xs
  induction xs with
  | nil => intro a; simp [onLine]
  | cons x xs ih =>
    intro a
    rw [onLine_cons]
    have h := ih (a + 1)
    rw [Nat.count_succ] at h
    have e : a + (x :: xs).length = a + 1 + xs.length := by simp; omega
    rw [e, ← h]
    by_cases hp : a % nl = j
    · simp only [hp, if_true, List.length_cons]
      omega
    · simp only [hp, if_false]
      omega

/-- No line receives more nodes than fit on a line. -/
theorem onLine_length_le (W : String → Nat) (width : Int) (nodes : List String) (j : Nat)
    (hj : j < specLines W width nodes) :
    (onLine (specLines W width nodes) j 0 nodes).length ≤ specNodePerLine W width nodes := by
  have hpos : 0 < specLines W width nodes := by omega
  have hcount := onLine_length_count (specLines W width nodes) j nodes 0
  simp only [Nat.count_zero, Nat.add_zero, Nat.zero_add] at hcount
  have hmodeq : Nat.count (fun i => i % specLines W width nodes = j) nodes.length =
      Nat.count (fun i => i ≡ j [MOD specLines W width nodes]) nodes.length := by
    congr 1
    funext i
    simp [Nat.ModEq, Nat.mod_eq_of_lt hj]
  rw [hcount, hmodeq, Nat.count_modEq_card _ hpos]
  have hcover := length_le_lines_mul W width nodes
  have hdm := Nat.div_add_mod nodes.length (specLines W width nodes)
  have hq : nodes.length / specLines W width nodes ≤ specNodePerLine W width nodes :=
    Nat.div_le_of_le_mul hcover
  split
  · rename_i hlt
    have hr : 0 < nodes.length % specLines W width nodes := by omega
    have hlt2 : specLines W width nodes * (nodes.length / specLines W width nodes) <
        specLines W width nodes * specNodePerLine W width nodes := by omega
    have := Nat.lt_of_mul_lt_mul_left hlt2
    omega
  · omega

theorem mem_of_mem_onLine (nl j a : Nat) (xs : List String) (x : String)
    (h : x ∈ onLine nl j a xs) : x ∈ xs := by
  unfold onLine at h
  obtain ⟨p, hp, rfl⟩ := List.mem_map.1 h
  exact List.snd_mem_of_mem_enumFrom (List.mem_filter.1 hp).1

/-- Node `i` is among the nodes of line `i % nl`. -/
theorem mem_onLine_of_getElem (nl : Nat) (xs : List String) (i : Nat) (x : String)
    (h : xs[i]? = some x) : x ∈ onLine nl (i % nl) 0 xs := by
  unfold onLine
  refine List.mem_map.2 ⟨(i, x), List.mem_filter.2 ⟨?_, by simp⟩, rfl⟩
  have := (List.mk_add_mem_enumFrom_iff_getElem? (n := 0) (i := i) (x := x) (l := xs)).2 h
  simpa using this

/-- The display width of padded nodes written one after the other is at most
one column per node, for a width that does not grow under concatenation. -/
theorem width_concat_le (W : String → Nat) (M : Nat)
    (hW0 : W "" = 0) (hWapp : ∀ a b, W (a ++ b) ≤ W a + W b)
    (hWsp : ∀ k, W ⟨List.replicate k ' '⟩ ≤ k) :
    ∀ xs : List String, (∀ x, x ∈ xs → W x ≤ M) →
      W (concat (xs.map (padded W M))) ≤ xs.length * (M + 1) := by
  intro xs
  induction xs with
  | nil => intro _; simp [concat, hW0]
  | cons x xs ih =>
    intro h
    have hx : W x ≤ M := h x (List.mem_cons_self _ _)
    have hrest := ih (fun y hy => h y (List.mem_cons_of_mem _ hy))
    have h1 := hWapp (padded W M x) (concat (xs.map (padded W M)))
    have h2 := hWapp x ⟨List.replicate (M + 1 - W x) ' '⟩
    have h3 := hWsp (M + 1 - W x)
    simp only [List.map_cons, concat, List.length_cons]
    have h4 : W (padded W M x) ≤ M + 1 := by
      unfold padded
      omega
    have e : (xs.length + 1) * (M + 1) = xs.length * (M + 1) + (M + 1) := by ring
    omega

/-- The number of lines is the least count of lines that holds all nodes. -/
theorem specLines_least (W : String → Nat) (width : Int) (nodes : List String) (k : Nat)
    (h : nodes.length ≤ k * specNodePerLine W width nodes) : specLines W width nodes ≤ k := by
  have h1 := one_le_specNodePerLine W width nodes
  unfold specLines
  apply Nat.le_of_lt_succ
  apply Nat.div_lt_of_lt_mul
  have e : specNodePerLine W width nodes * k.succ =
      k * specNodePerLine W width nodes + specNodePerLine W width nodes := by
    rw [Nat.mul_succ, Nat.mul_comm]
  omega

/-- C18: `Print` faults nowhere (no division by zero, no index out of range, no
negative padding) and writes exactly `ceil(len(nodes)/nodePerLine)` lines, with
`maxLen` the largest display width of a node (at least 1) and
`nodePerLine = max(1, (width-1)/(maxLen+1))`, the least number of lines of
`nodePerLine` nodes that holds them all; line `j` is the trimmed
concatenation of the padded nodes whose position is `j` modulo the number of
lines, so node `i` is on line `i mod nlines`; no line receives more than
`nodePerLine` nodes; when `maxLen+1 <= width-1` every written line has display
width at most `width-1`, for a display width that is zero on the empty text,
does not grow under concatenation or trimming and counts a blank as at most
one column; for the empty list nothing is written. -/
theorem Print_layout (W : String → Nat) (TrimSpace : String → String) (width : Int)
    (nodes : List String) :
    ∃ lines, Print W TrimSpace width nodes = some lines ∧
      lines.length = specLines W width nodes ∧
      nodes.length ≤ specLines W width nodes * specNodePerLine W width nodes ∧
      (∀ k, nodes.length ≤ k * specNodePerLine W width nodes → specLines W width nodes ≤ k) ∧
      (∀ j, j < specLines W width nodes →
        lines[j]? = some (TrimSpace (row W width nodes j))) ∧
      (∀ i x, nodes[i]? = some x →
        x ∈ onLine (specLines W width nodes) (i % specLines W width nodes) 0 nodes) ∧
      (∀ j, j < specLines W width nodes →
        (onLine (specLines W width nodes) j 0 nodes).length ≤ specNodePerLine W width nodes) ∧
      (W "" = 0 → (∀ a b, W (a ++ b) ≤ W a + W b) →
        (∀ k, W ⟨List.replicate k ' '⟩ ≤ k) → (∀ s, W (TrimSpace s) ≤ W s) →
        (specMaxLen W nodes : Int) + 1 ≤ width - 1 →
        ∀ line, line ∈ lines → (W line : Int) ≤ width - 1) ∧
      (nodes = [] → lines = []) := by
  refine ⟨_, Print_eq W TrimSpace width nodes, by simp, length_le_lines_mul W width nodes,
    fun k hk => specLines_least W width nodes k hk, ?_, ?_, ?_, ?_, ?_⟩
  · intro j hj
    simp [hj]
  · intro i x h
    exact mem_onLine_of_getElem _ nodes i x h
  · intro j hj
    exact onLine_length_le W width nodes j hj
  · intro hW0 hWapp hWsp hWtrim hfit line hline
    obtain ⟨j, hj, rfl⟩ := List.mem_map.1 hline
    have hjn : j < specLines W width nodes := List.mem_range.1 hj
    have hcount := onLine_length_le W width nodes j hjn
    have hrow := width_concat_le W (specMaxLen W nodes) hW0 hWapp hWsp
      (onLine (specLines W width nodes) j 0 nodes)
      (fun x hx => le_specMaxLen W nodes x (mem_of_mem_onLine _ _ _ _ _ hx))
    have htrim := hWtrim (row W width nodes j)
    have hmul : (onLine (specLines W width nodes) j 0 nodes).length * (specMaxLen W nodes + 1)
        ≤ specNodePerLine W width nodes * (specMaxLen W nodes + 1) :=
      Nat.mul_le_mul_right _ hcount
    have hnpl : ((specNodePerLine W width nodes * (specMaxLen W nodes + 1) : Nat) : Int)
        ≤ width - 1 := by
      have hq := nodePerLine_eq W width nodes
      push_cast
      rw [← hq]
      split
      · omega
      · rename_i hpos
        have hne : ((specMaxLen W nodes : Int) + 1) ≠ 0 := by omega
        have h0 : (0 : Int) ≤ width - 1 := by omega
        have h1 : (0 : Int) ≤ (specMaxLen W nodes : Int) + 1 := by omega
        rw [Int.tdiv_eq_ediv h0 h1]
        exact Int.ediv_mul_le _ hne
    unfold row at htrim ⊢
    omega
  · intro h
    subst h
    simp [specLines_nil]

/-- Witness of C18: three nodes on a screen of 9 columns, with the length of a
text as its display width. -/
theorem Print_layout_witness :
    Print String.length exTrimSpace 9 ["a", "bb", "ccc"] = some ["a   ccc", "bb"] ∧
    ∃ lines, Print String.length exTrimSpace 9 ["a", "bb", "ccc"] = some lines ∧
      ∀ line, line ∈ lines → (String.length line : Int) ≤ 9 - 1 := by
  refine ⟨by rfl, ?_⟩
  obtain ⟨lines, h1, _, _, _, _, _, _, h6, _⟩ :=
    Print_layout String.length exTrimSpace 9 ["a", "bb", "ccc"]
  refine ⟨lines, h1, ?_⟩
  refine h6 (by rfl) (fun a b => by simp) (fun k => by simp [String.length]) ?_ (by decide)
  intro s
  simp only [exTrimSpace, String.length, List.length_reverse]
  exact (List.dropWhile_sublist _).length_le.trans
    ((List.length_reverse _).le.trans (List.dropWhile_sublist _).length_le)

end box

end Nyagos
